import Mathlib

/-!
Verification development for the LayoutEmbedding engine.

This file shallowly embeds the core of `Embedding.cc` (the mutable embedding
state: matching maps, `embed_path` / `unembed_path` / `get_embedded_path` /
`is_embedded` / `is_complete` / `path_length`, the virtual-vertex shortest-path
search `find_shortest_path`) and of the greedy solver (`embed_greedy`,
`embed_greedy_brute_force` from Greedy.cc), and proves properties about them.

Modelling conventions:
- The target mesh is modelled in the arena+index style the code uses
  (polymesh): vertices are natural-number ids `0 .. nverts-1`, edges are an
  indexed list of endpoint pairs, halfedge `2*e` runs from `edges[e].1` to
  `edges[e].2` and halfedge `2*e+1` is its opposite (`halfedgeA`/`halfedgeB`).
  Oriented triangles carry the face information used for `next`/`prev`
  navigation; we model closed triangulated patches (a directed pair is a
  boundary halfedge iff no triangle contains it).
- `double` scalars are modelled as exact rationals, represented as
  unnormalised integer fractions `Frac` (numerator/denominator, compared by
  cross-multiplication) so that every operation reduces inside the kernel;
  the Euclidean metric `tg::distance` (which involves a square root) is
  abstracted as an explicit distance-function parameter `d`, since no claim
  here depends on the concrete metric values. The IEEE value `+inf` used for
  unreached distances is modelled as `none` in an `Option Frac`, with the
  same comparison behaviour in the cases that occur.
- Fatal `LE_ASSERT` failures (and C++ non-termination / undefined behaviour,
  such as following an unset predecessor) are modelled as `none` in
  `Option`-valued operations; loops `while (...)` are given explicit fuel.
- Iteration order over `outgoing_halfedges` circulators is determinised to
  halfedge-index order; no property proved below depends on circulation order,
  and every counterexample is constructed to be order-independent.
-/

namespace LayoutEmbedding

/-- Exact rational scalars (model of the C++ `double` values): unnormalised
integer fractions, compared by cross-multiplication. -/
structure Frac where
  num : ℤ
  den : ℤ
deriving DecidableEq, Repr

/-- Addition of fractions (no normalisation). -/
def Frac.add (a b : Frac) : Frac := ⟨a.num * b.den + b.num * a.den, a.den * b.den⟩

/-- Subtraction of fractions. -/
def Frac.sub (a b : Frac) : Frac := ⟨a.num * b.den - b.num * a.den, a.den * b.den⟩

/-- Multiplication of fractions. -/
def Frac.mul (a b : Frac) : Frac := ⟨a.num * b.num, a.den * b.den⟩

/-- Halving a fraction (the only division the model needs). -/
def Frac.halve (a : Frac) : Frac := ⟨a.num, 2 * a.den⟩

/-- Natural power of a fraction. -/
def Frac.pow (a : Frac) : ℕ → Frac
  | 0 => ⟨1, 1⟩
  | n + 1 => (Frac.pow a n).mul a

/-- Strict value comparison (denominators kept positive by construction). -/
def Frac.blt (a b : Frac) : Bool := a.num * b.den < b.num * a.den

/-- Value equality of fractions. -/
def Frac.beq (a b : Frac) : Bool := a.num * b.den = b.num * a.den

/-- The scalar `0`. -/
def Frac.zero : Frac := ⟨0, 1⟩

/-- The scalar `1/2`, the split parameter of `embed_path`. -/
def Frac.half : Frac := ⟨1, 2⟩

/-- Division of fractions (used for neighbour-distance averages). -/
def Frac.div (a b : Frac) : Frac := ⟨a.num * b.den, a.den * b.num⟩

/-- Embeds a natural number as a fraction. -/
def Frac.ofNat (n : ℕ) : Frac := ⟨n, 1⟩

/-- Modelled from the spec: `tg::pos3` positions, with rational coordinates. -/
structure Vec3 where
  x : Frac
  y : Frac
  z : Frac
deriving DecidableEq, Repr

/-- Linear interpolation `tg::mix(p0, p1, t)`. -/
def mix (p0 p1 : Vec3) (t : Frac) : Vec3 :=
  ⟨p0.x.add (t.mul (p1.x.sub p0.x)),
   p0.y.add (t.mul (p1.y.sub p0.y)),
   p0.z.add (t.mul (p1.z.sub p0.z))⟩

/-- Midpoint `tg::centroid(a, b)` of two positions. -/
def centroid (p0 p1 : Vec3) : Vec3 :=
  ⟨(p0.x.add p1.x).halve, (p0.y.add p1.y).halve, (p0.z.add p1.z).halve⟩

/-- The origin, used as the default value of position attributes. -/
def Vec3.zero : Vec3 := ⟨⟨0, 1⟩, ⟨0, 1⟩, ⟨0, 1⟩⟩

/-- An oriented triangle of the target mesh (face of the triangulation). -/
structure Tri where
  va : ℕ
  vb : ℕ
  vc : ℕ
deriving DecidableEq, Repr

/-- The mutable target mesh owned by the embedding state: an arena of vertex
positions, an indexed arena of edges (endpoint pairs), and the oriented
triangles. Edge handle `e` has halfedges `2*e` (A, from `.1` to `.2`) and
`2*e+1` (B). -/
structure TargetMesh where
  nverts : ℕ
  pos : List Vec3
  edges : List (ℕ × ℕ)
  tris : List Tri
deriving DecidableEq, Repr

/-- `halfedge.opposite()`: flip between the two halfedges of an edge. -/
def opp (h : ℕ) : ℕ := if h % 2 = 0 then h + 1 else h - 1

/-- The edge handle of a halfedge (`halfedge.edge()`). -/
def heEdge (h : ℕ) : ℕ := h / 2

/-- `halfedge.vertex_from()` (junk vertex `0` for an out-of-range handle; all
uses below stay in range). -/
def vertex_from (m : TargetMesh) (h : ℕ) : ℕ :=
  let e := m.edges.getD (h / 2) (0, 0)
  if h % 2 = 0 then e.1 else e.2

/-- `halfedge.vertex_to()`. -/
def vertex_to (m : TargetMesh) (h : ℕ) : ℕ :=
  let e := m.edges.getD (h / 2) (0, 0)
  if h % 2 = 0 then e.2 else e.1

/-- All halfedge handles of the mesh. -/
def allHalfedges (m : TargetMesh) : List ℕ :=
  List.range (2 * m.edges.length)

/-- `vertex.outgoing_halfedges()`: the circulator is determinised to
halfedge-index order. -/
def outgoing_halfedges (m : TargetMesh) (v : ℕ) : List ℕ :=
  (allHalfedges m).filter (fun h => vertex_from m h = v)

/-- Scan for the first edge whose endpoint pair matches `(u, v)` in either
orientation, returning the halfedge handle oriented from `u` to `v`. -/
def from_to_aux (u v : ℕ) : ℕ → List (ℕ × ℕ) → Option ℕ
  | _, [] => none
  | k, e :: rest =>
    if e = (u, v) then some (2 * k)
    else if e = (v, u) then some (2 * k + 1)
    else from_to_aux u v (k + 1) rest

/-- `pm::halfedge_from_to(u, v)`: the first halfedge running from `u` to `v`,
or `none` (the invalid handle) if the vertices are not adjacent. -/
def halfedge_from_to (m : TargetMesh) (u v : ℕ) : Option ℕ :=
  from_to_aux u v 0 m.edges

/-- Does the oriented triangle contain the directed pair `(u, v)`? -/
def triHasDirected (t : Tri) (u v : ℕ) : Bool :=
  ((t.va, t.vb) = (u, v)) ∨ ((t.vb, t.vc) = (u, v)) ∨ ((t.vc, t.va) = (u, v))

/-- The third vertex of a triangle containing the directed pair `(u, v)`. -/
def triThird (t : Tri) (u v : ℕ) : ℕ :=
  if (t.va, t.vb) = (u, v) then t.vc
  else if (t.vb, t.vc) = (u, v) then t.va
  else t.vb

/-- The face of a directed pair: the first triangle containing it. -/
def faceOfDirected (m : TargetMesh) (u v : ℕ) : Option Tri :=
  m.tris.find? (fun t => triHasDirected t u v)

/-- `halfedge.is_boundary()`: no triangle contains the directed pair. -/
def is_boundary (m : TargetMesh) (h : ℕ) : Bool :=
  (faceOfDirected m (vertex_from m h) (vertex_to m h)).isNone

/-- `halfedge.next()`: the next halfedge inside the face of `h`. -/
def heNext (m : TargetMesh) (h : ℕ) : Option ℕ :=
  match faceOfDirected m (vertex_from m h) (vertex_to m h) with
  | none => none
  | some t => halfedge_from_to m (vertex_to m h) (triThird t (vertex_from m h) (vertex_to m h))

/-- `halfedge.prev()`: the previous halfedge inside the face of `h`. -/
def hePrev (m : TargetMesh) (h : ℕ) : Option ℕ :=
  match faceOfDirected m (vertex_from m h) (vertex_to m h) with
  | none => none
  | some t => halfedge_from_to m (triThird t (vertex_from m h) (vertex_to m h)) (vertex_from m h)

/-- `opposite_vertex(halfedge)` from Connectivity.hh: the vertex of the
incident face opposite to the halfedge. -/
def opposite_vertex (m : TargetMesh) (h : ℕ) : Option ℕ :=
  (faceOfDirected m (vertex_from m h) (vertex_to m h)).map
    (fun t => triThird t (vertex_from m h) (vertex_to m h))

/-- `VirtualVertex`: tagged union of a real target vertex and a target edge
(an unmaterialised edge midpoint). `rv` holds a vertex id, `re` an edge
handle. -/
inductive VirtualVertex where
  | rv (v : ℕ)
  | re (e : ℕ)
deriving DecidableEq, Repr

/-- `is_real_vertex` classifier. -/
def is_real_vertex : VirtualVertex → Bool
  | .rv _ => true
  | .re _ => false

/-- `is_real_edge` classifier. -/
def is_real_edge : VirtualVertex → Bool
  | .rv _ => false
  | .re _ => true

/-- A `VirtualPath` is an ordered list of virtual vertices. -/
abbrev VirtualPath := List VirtualVertex

/-- A layout halfedge, identified by its ordered pair of layout vertex ids;
`opposite()` is `Prod.swap`. -/
abbrev LHe := ℕ × ℕ

/-- The (immutable) layout mesh: vertex count and its edges, each stored once
as the vertex pair of its `halfedgeA`. -/
structure LayoutMesh where
  nverts : ℕ
  ledges : List (ℕ × ℕ)
deriving DecidableEq, Repr

/-- The embedding state (class `Embedding`): the layout mesh, a private
working copy of the target mesh with positions, and the three correspondence
maps. `t_matching_halfedge` is indexed by target halfedge handle, length
`2 * edges.length`. -/
structure Embedding where
  l_m : LayoutMesh
  t_m : TargetMesh
  l_matching_vertex : List ℕ
  t_matching_vertex : List (Option ℕ)
  t_matching_halfedge : List (Option LHe)
  path_length_norm : ℕ
deriving DecidableEq, Repr

/-- The matching-halfedge label of a target halfedge (invalid handle = `none`). -/
def label (em : Embedding) (h : ℕ) : Option LHe :=
  (em.t_matching_halfedge.get? h).getD none

/-- `Embedding::get_embedded_target_halfedge`: the first outgoing halfedge of
the matched landmark vertex labeled with the layout halfedge, or `none`. -/
def get_embedded_target_halfedge (em : Embedding) (lhe : LHe) : Option ℕ :=
  match em.l_matching_vertex.get? lhe.1 with
  | none => none
  | some t_v => (outgoing_halfedges em.t_m t_v).find? (fun h => label em h = some lhe)

/-- `Embedding::is_embedded(halfedge)`. -/
def is_embedded (em : Embedding) (lhe : LHe) : Bool :=
  (get_embedded_target_halfedge em lhe).isSome

/-- `Embedding::is_embedded(edge)`: delegates to `halfedgeA`. -/
def is_embedded_edge (em : Embedding) (le : ℕ × ℕ) : Bool :=
  is_embedded em le

/-- `Embedding::is_blocked(edge)`: some direction carries a matching-halfedge
label. -/
def is_blocked_edge (em : Embedding) (e : ℕ) : Bool :=
  (label em (2 * e)).isSome ∨ (label em (2 * e + 1)).isSome

/-- `Embedding::is_blocked(vertex)`: a pinned (landmark) vertex, or one
incident to a blocked edge. -/
def is_blocked_vertex (em : Embedding) (v : ℕ) : Bool :=
  (em.t_matching_vertex.getD v none).isSome ∨
    (List.range em.t_m.edges.length).any (fun e =>
      ((em.t_m.edges.getD e (0, 0)).1 = v ∨ (em.t_m.edges.getD e (0, 0)).2 = v) ∧
        is_blocked_edge em e)

/-- `Embedding::is_blocked(virtual vertex)`. -/
def is_blocked (em : Embedding) (vv : VirtualVertex) : Bool :=
  match vv with
  | .rv v => is_blocked_vertex em v
  | .re e => is_blocked_edge em e

/-- `Embedding::element_pos(vertex)`. -/
def element_pos_v (em : Embedding) (v : ℕ) : Vec3 :=
  em.t_m.pos.getD v Vec3.zero

/-- `Embedding::element_pos(edge)`: the centroid of the endpoints. -/
def element_pos_e (em : Embedding) (e : ℕ) : Vec3 :=
  let ab := em.t_m.edges.getD e (0, 0)
  centroid (element_pos_v em ab.1) (element_pos_v em ab.2)

/-- `Embedding::element_pos(virtual vertex)`. -/
def element_pos (em : Embedding) (vv : VirtualVertex) : Vec3 :=
  match vv with
  | .rv v => element_pos_v em v
  | .re e => element_pos_e em e

/-- Modelled from the spec: `polymesh::edges().split_and_triangulate`, whose
implementation lives in the polymesh dependency, not in this repository. Per
the spec (section 9), subdivision is an append-only arena operation that
preserves all existing handles: the split edge `e = (a,b)` is re-pointed to
`(a,w)` for the new vertex `w`, the other half `(w,b)` and the two
face-connecting edges `(w,c)` are appended, and the two incident triangles are
each replaced by two. Returns the updated mesh and the new vertex. -/
def split_and_triangulate (m : TargetMesh) (e : ℕ) : Option (TargetMesh × ℕ) :=
  match m.edges.get? e with
  | none => none
  | some (a, b) =>
    let w := m.nverts
    let opposites := m.tris.filterMap (fun t =>
      if triHasDirected t a b then some (triThird t a b)
      else if triHasDirected t b a then some (triThird t b a)
      else none)
    let newTris := m.tris.flatMap (fun t =>
      if triHasDirected t a b then
        let c := triThird t a b
        [⟨a, w, c⟩, ⟨w, b, c⟩]
      else if triHasDirected t b a then
        let d := triThird t b a
        [⟨b, w, d⟩, ⟨w, a, d⟩]
      else [t])
    some ({ nverts := w + 1,
            pos := m.pos ++ [Vec3.zero],
            edges := (m.edges.set e (a, w)) ++ [(w, b)] ++ opposites.map (fun c => (w, c)),
            tris := newTris }, w)

/-- Splitting at the embedding-state level: the new vertex is a non-landmark,
and the label arena grows with `none` entries for the appended halfedges
(attribute defaults), existing labels kept on their handles. -/
def em_split (em : Embedding) (e : ℕ) : Option (Embedding × ℕ) :=
  match split_and_triangulate em.t_m e with
  | none => none
  | some (m2, w) =>
    some ({ em with
            t_m := m2,
            t_matching_vertex := em.t_matching_vertex ++ [none],
            t_matching_halfedge :=
              em.t_matching_halfedge ++
                List.replicate (2 * m2.edges.length - em.t_matching_halfedge.length) none }, w)

/-- Writes a position into the target position attribute. -/
def setPos (em : Embedding) (v : ℕ) (p : Vec3) : Embedding :=
  { em with t_m := { em.t_m with pos := em.t_m.pos.set v p } }

/-- The first loop of `Embedding::embed_path`: turn the virtual path into a
pure vertex path by splitting every edge-valued virtual vertex at the midpoint
(`tg::mix(p0, p1, 0.5)`) of its endpoints. -/
def materialize (em : Embedding) : VirtualPath → Option (Embedding × List ℕ)
  | [] => some (em, [])
  | .rv v :: rest =>
    match materialize em rest with
    | none => none
    | some (em2, vs) => some (em2, v :: vs)
  | .re e :: rest =>
    match em.t_m.edges.get? e with
    | none => none
    | some (a, b) =>
      let p0 := element_pos_v em a
      let p1 := element_pos_v em b
      let p := mix p0 p1 Frac.half
      match em_split em e with
      | none => none
      | some (em2, w) =>
        match materialize (setPos em2 w p) rest with
        | none => none
        | some (em3, vs) => some (em3, w :: vs)

/-- Writes one matching-halfedge label (both `List.set` writes are in range
for valid handles). -/
def setLabel (em : Embedding) (h : ℕ) (v : Option LHe) : Embedding :=
  { em with t_matching_halfedge := em.t_matching_halfedge.set h v }

/-- The second loop of `Embedding::embed_path`: label the halfedge chain along
the materialized vertex path with the layout halfedge, and each opposite with
its opposite. `none` models the `LE_ASSERT(t_he.is_valid())` failure. -/
def label_chain (lhe : LHe) : Embedding → List ℕ → Option Embedding
  | em, u :: v :: rest =>
    match halfedge_from_to em.t_m u v with
    | none => none
    | some h => label_chain lhe (setLabel (setLabel em h (some lhe)) (opp h) (some lhe.swap)) (v :: rest)
  | em, _ => some em

/-- `Embedding::embed_path(layout halfedge, virtual path)`. The two leading
guards are the `LE_ASSERT`s of the source (halfedge not already embedded, path
of length at least 2). -/
def embed_path (em : Embedding) (lhe : LHe) (path : VirtualPath) : Option Embedding :=
  if (get_embedded_target_halfedge em lhe).isSome then none
  else if path.length < 2 then none
  else
    match materialize em path with
    | none => none
    | some (em2, vertex_path) => label_chain lhe em2 vertex_path

/-- The label-following walk of `Embedding::get_embedded_path`: starting from
a target vertex, repeatedly step along the unique outgoing halfedge labeled
with the layout halfedge until the end landmark is reached. The C++ `while`
loop never terminates when it cycles or gets stuck; this is modelled by fuel
exhaustion / `none`. -/
def walkAux (em : Embedding) (lhe : LHe) (t_v_end : ℕ) : ℕ → ℕ → Option (List ℕ)
  | 0, _ => none
  | fuel + 1, t_v =>
    if t_v = t_v_end then some [t_v_end]
    else
      match (outgoing_halfedges em.t_m t_v).find? (fun h => label em h = some lhe) with
      | none => none
      | some h =>
        match walkAux em lhe t_v_end fuel (vertex_to em.t_m h) with
        | none => none
        | some vs => some (t_v :: vs)

/-- `Embedding::get_embedded_path(layout halfedge)`: the ordered real-vertex
chain from the start landmark to the end landmark, following the
matching-halfedge labels. -/
def get_embedded_path (em : Embedding) (lhe : LHe) : Option (List ℕ) :=
  match get_embedded_target_halfedge em lhe with
  | none => none
  | some h0 =>
    match em.l_matching_vertex.get? lhe.2 with
    | none => none
    | some t_v_end => walkAux em lhe t_v_end (2 * em.t_m.edges.length + 2) (vertex_from em.t_m h0)

/-- The clearing loop of `Embedding::unembed_path`: walk the vertex chain and
clear the matching-halfedge label on both directions, with the two
`LE_ASSERT`s on the labels modelled as guards. -/
def clear_chain (lhe : LHe) : Embedding → List ℕ → Option Embedding
  | em, u :: v :: rest =>
    match halfedge_from_to em.t_m u v with
    | none => none
    | some h =>
      if label em h = some lhe ∧ label em (opp h) = some lhe.swap then
        clear_chain lhe (setLabel (setLabel em h none) (opp h) none) (v :: rest)
      else none
  | em, _ => some em

/-- `Embedding::unembed_path(layout halfedge)`. -/
def unembed_path (em : Embedding) (lhe : LHe) : Option Embedding :=
  match get_embedded_path em lhe with
  | none => none
  | some path => clear_chain lhe em path

/-- `Embedding::is_complete()`: every layout edge is embedded. -/
def is_complete (em : Embedding) : Bool :=
  em.l_m.ledges.all (fun le => is_embedded_edge em le)

/-- Sum of the metric `d` over consecutive pairs of a list of positions. -/
def segSum (d : Vec3 → Vec3 → Frac) : List Vec3 → Frac
  | p :: q :: rest => (d p q).add (segSum d (q :: rest))
  | _ => Frac.zero

/-- `Embedding::path_length(virtual path)`: sum of segment lengths between
consecutive virtual-vertex positions, raised to `path_length_norm`. The
leading guard is the `LE_ASSERT(_path.size() >= 2)` of the source. `d` stands
for the Euclidean metric `tg::distance`. -/
def path_length (d : Vec3 → Vec3 → Frac) (em : Embedding) (path : VirtualPath) : Option Frac :=
  if path.length < 2 then none
  else some ((segSum d (path.map (element_pos em))).pow em.path_length_norm)

/-- `Embedding::embedded_path_length(layout halfedge)`. -/
def embedded_path_length (d : Vec3 → Vec3 → Frac) (em : Embedding) (lhe : LHe) : Option Frac :=
  match get_embedded_path em lhe with
  | none => none
  | some path =>
    if path.length < 2 then none
    else some ((segSum d (path.map (element_pos_v em))).pow em.path_length_norm)

/-- `Embedding::total_embedded_path_length()`: sum over the embedded layout
edges. A failure (`LE_ASSERT`) inside `embedded_path_length` is fatal. -/
def total_embedded_path_length (d : Vec3 → Vec3 → Frac) (em : Embedding) : Option Frac :=
  em.l_m.ledges.foldl (fun acc le =>
    match acc with
    | none => none
    | some a =>
      if is_embedded_edge em le then
        match embedded_path_length d em le with
        | none => none
        | some x => some (a.add x)
      else some a) (some Frac.zero)

/-! The priority keys of `Embedding::find_shortest_path` (Embedding.cc
lines 263-285). `geodesic` is a `double` initialised to `+inf`; the infinite
value is modelled as `none`. `edges_crossed` is an `int` initialised to
`INT_MAX`. -/

/-- Model of C++ `INT_MAX`. -/
def intMax : ℤ := 2 ^ 31 - 1

/-- The `Distance` struct of `find_shortest_path`. -/
structure Distance where
  edges_crossed : ℤ
  geodesic : Option Frac
  remaining_distance_heuristic : Frac
deriving DecidableEq, Repr

/-- The default-initialised `Distance` (`INT_MAX`, `+inf`, `0`). -/
def Distance.init : Distance := ⟨intMax, none, Frac.zero⟩

/-- Comparison of `Option Frac` values with `none` as `+inf`, matching IEEE
`<` on the values that occur (no NaN arises in the search). -/
def optLtInf : Option Frac → Option Frac → Bool
  | some a, some b => a.blt b
  | some _, none => true
  | none, _ => false

/-- Value equality of `Option Frac` values with `none` as `+inf`. -/
def optEqInf : Option Frac → Option Frac → Bool
  | some a, some b => a.beq b
  | none, none => true
  | _, _ => false

/-- The heuristic-augmented total `geodesic + remaining_distance_heuristic`
(`+inf` absorbs the finite heuristic). -/
def Distance.key (d : Distance) : Option Frac :=
  d.geodesic.map (fun g => g.add d.remaining_distance_heuristic)

/-- `Distance::operator<` of the source: compares only the sums
`geodesic + remaining_distance_heuristic`. -/
def Distance.lt (d1 d2 : Distance) : Bool :=
  optLtInf d1.key d2.key

/-- Modelled from the spec (claim C3's reading, for comparison with the
source's `Distance.lt`): primary comparison by heuristic-augmented total,
with `edges_crossed` as the initial tie-break key when the primary comparison
is equal. -/
def DistanceSpecLt (d1 d2 : Distance) : Bool :=
  if optEqInf d1.key d2.key then d1.edges_crossed < d2.edges_crossed
  else optLtInf d1.key d2.key

/-- The edge handles of the edge-valued virtual vertices of a path. -/
def edgeVVs (path : VirtualPath) : List ℕ :=
  path.filterMap (fun vv => match vv with
    | .re e => some e
    | .rv _ => none)

/-- The consecutive vertex pairs of a vertex chain. -/
def chainPairs (vs : List ℕ) : List (ℕ × ℕ) :=
  vs.zip vs.tail

/-- No vertex pair of the chain repeats, in either direction. -/
def chainNoRepeat (vs : List ℕ) : Prop :=
  (chainPairs vs).Pairwise (fun p q => ¬ (q = p ∨ q = p.swap))

/-- Well-formedness of a target mesh: the position arena covers the vertex
ids, and edges and triangles reference existing vertices. -/
def TargetMesh.WF (m : TargetMesh) : Prop :=
  m.pos.length = m.nverts ∧
  (∀ p ∈ m.edges, p.1 < m.nverts ∧ p.2 < m.nverts) ∧
  (∀ t ∈ m.tris, t.va < m.nverts ∧ t.vb < m.nverts ∧ t.vc < m.nverts)

/-- Well-formedness of an embedding state: a well-formed mesh whose attribute
arenas have the matching sizes. -/
def Embedding.WF (em : Embedding) : Prop :=
  em.t_m.WF ∧
  em.t_matching_halfedge.length = 2 * em.t_m.edges.length ∧
  em.t_matching_vertex.length = em.t_m.nverts

instance (vs : List ℕ) : Decidable (chainNoRepeat vs) := by
  unfold chainNoRepeat
  infer_instance

instance (m : TargetMesh) : Decidable m.WF := by
  unfold TargetMesh.WF
  infer_instance

instance (em : Embedding) : Decidable em.WF := by
  unfold Embedding.WF
  infer_instance

/-! Concrete instances used by counterexamples and witnesses. -/

/-- A target patch of two triangles `(0,1,2)`, `(1,3,2)` sharing edge
`(1,2)`: five edges, vertex `1` is adjacent to `0`, `2` and `3`. -/
def fanMesh : TargetMesh :=
  { nverts := 4,
    pos := [Vec3.zero, Vec3.zero, Vec3.zero, Vec3.zero],
    edges := [(0, 1), (1, 2), (2, 0), (1, 3), (3, 2)],
    tris := [⟨0, 1, 2⟩, ⟨1, 3, 2⟩] }

/-- Embedding state over `fanMesh`: a single-edge layout `(0,1)` whose two
landmarks are pinned to target vertices `0` and `3`. -/
def fanEm : Embedding :=
  { l_m := ⟨2, [(0, 1)]⟩,
    t_m := fanMesh,
    l_matching_vertex := [0, 3],
    t_matching_vertex := [some 0, none, none, some 1],
    t_matching_halfedge := List.replicate 10 none,
    path_length_norm := 1 }

/-- A virtual path from landmark `0` to landmark `3` that traverses the
target edge `{1,2}` in both directions (pairs `(1,2)` then `(2,1)`). -/
def fanPath : VirtualPath :=
  [.rv 0, .rv 1, .rv 2, .rv 1, .rv 3]

/-- The state after embedding `fanPath` (the run succeeds, see
`C1_counterexample`). -/
def fanEm1 : Embedding :=
  (embed_path fanEm (0, 1) fanPath).getD fanEm

/-- A closed tetrahedron target mesh with distinct vertex positions. -/
def tetraMesh : TargetMesh :=
  { nverts := 4,
    pos := [⟨⟨0, 1⟩, ⟨0, 1⟩, ⟨0, 1⟩⟩, ⟨⟨1, 1⟩, ⟨0, 1⟩, ⟨0, 1⟩⟩,
            ⟨⟨0, 1⟩, ⟨1, 1⟩, ⟨0, 1⟩⟩, ⟨⟨0, 1⟩, ⟨0, 1⟩, ⟨1, 1⟩⟩],
    edges := [(0, 1), (1, 2), (2, 0), (2, 3), (3, 0), (3, 1)],
    tris := [⟨0, 1, 2⟩, ⟨0, 2, 3⟩, ⟨0, 3, 1⟩, ⟨1, 3, 2⟩] }

/-- Embedding state over `tetraMesh`: a single-edge layout `(0,1)` with
landmarks at target vertices `2` and `3`. -/
def tetraEm : Embedding :=
  { l_m := ⟨2, [(0, 1)]⟩,
    t_m := tetraMesh,
    l_matching_vertex := [2, 3],
    t_matching_vertex := [none, none, some 0, some 1],
    t_matching_halfedge := List.replicate 12 none,
    path_length_norm := 1 }

/-- The landmark-to-landmark virtual path `2 → midpoint of edge 0 → 3` over
the tetrahedron (`2` and `3` are the two opposite vertices of edge `(0,1)`). -/
def tetraPath : VirtualPath :=
  [.rv 2, .re 0, .rv 3]

/-- The state and vertex chain produced by the split phase on `tetraPath`. -/
def tetraEmM : Embedding :=
  ((materialize tetraEm tetraPath).getD (tetraEm, [])).1

/-- The state after embedding `tetraPath` into `tetraEm`. -/
def tetraEm1 : Embedding :=
  (embed_path tetraEm (0, 1) tetraPath).getD tetraEm

/-- The state after unembedding layout halfedge `(0,1)` again. -/
def tetraEmU : Embedding :=
  (unembed_path tetraEm1 (0, 1)).getD tetraEm1

/-- The state after re-embedding the same virtual path `tetraPath` a second
time (after the unembed). -/
def tetraEmR : Embedding :=
  (embed_path tetraEmU (0, 1) tetraPath).getD tetraEmU

/-- One mutating operation of the embedding engine. -/
inductive EmbedOp where
  | embedOp (lhe : LHe) (path : VirtualPath)
  | unembedOp (lhe : LHe)
deriving DecidableEq, Repr

/-- Run a sequence of `embed_path` / `unembed_path` operations; a fatal
assertion anywhere aborts the run. -/
def runOps : Embedding → List EmbedOp → Option Embedding
  | em, [] => some em
  | em, .embedOp lhe path :: rest =>
    match embed_path em lhe path with
    | none => none
    | some em2 => runOps em2 rest
  | em, .unembedOp lhe :: rest =>
    match unembed_path em lhe with
    | none => none
    | some em2 => runOps em2 rest

/-- Opposite-symmetry of the matching-halfedge labels: a target halfedge
carries layout halfedge `lhe` exactly when its opposite carries
`lhe.opposite`. -/
def labelsSymmetric (em : Embedding) : Prop :=
  ∀ h : ℕ, label em (opp h) = (label em h).map Prod.swap

/-- A variant of `fanEm` with a third layout vertex whose landmark is target
vertex `1`, so that `[1, 3]` is a landmark-to-landmark virtual path. -/
def fanEm3L : Embedding :=
  { l_m := ⟨3, [(0, 1)]⟩,
    t_m := fanMesh,
    l_matching_vertex := [0, 3, 1],
    t_matching_vertex := [some 0, some 2, none, some 1],
    t_matching_halfedge := List.replicate 10 none,
    path_length_norm := 1 }

/-- The state after the single mismatched-endpoints `embed_path` of
`C10_counterexample`. -/
def fanEm3LX : Embedding :=
  (runOps fanEm3L [.embedOp (0, 1) [.rv 1, .rv 3]]).getD fanEm3L

/-- The vertex ids of a pure-vertex virtual path (junk `0` for edge-valued
entries; only used on vertex-only paths). -/
def projVs (path : VirtualPath) : List ℕ :=
  path.map (fun vv => match vv with
    | .rv v => v
    | .re _ => 0)

/-- The halfedge handles written by the labelling loop for a vertex chain:
both directions of every chain halfedge. -/
def inWritten (m : TargetMesh) (vs : List ℕ) (j : ℕ) : Prop :=
  ∃ u v h, (u, v) ∈ chainPairs vs ∧ halfedge_from_to m u v = some h ∧ (j = h ∨ j = opp h)

/-- A vertex-only virtual path from landmark `0` to landmark `3` of `fanEm`
via vertex `1`. -/
def fanVPath : VirtualPath := [.rv 0, .rv 1, .rv 3]

/-- The fan states after embed, unembed, and re-embed of `fanVPath`. -/
def fanVEm1 : Embedding := (embed_path fanEm (0, 1) fanVPath).getD fanEm

/-- See `fanVEm1`. -/
def fanVEm2 : Embedding := (unembed_path fanVEm1 (0, 1)).getD fanVEm1

/-- See `fanVEm1`. -/
def fanVEm3 : Embedding := (embed_path fanVEm2 (0, 1) fanVPath).getD fanVEm2

/-- Does the label-following walk step from `v` stay inside the vertex set
`S`? (`false` when the walk is stuck at `v`.) -/
def stepInSet (em : Embedding) (lhe : LHe) (S : List ℕ) (v : ℕ) : Bool :=
  match (outgoing_halfedges em.t_m v).find? (fun h => label em h = some lhe) with
  | none => false
  | some h => S.contains (vertex_to em.t_m h)

/-- A target patch whose labels will form a cycle `1 → 2 → 3 → 1` hanging off
landmark `0`, with the other landmark `4` unreachable by the walk. -/
def cycEm : Embedding :=
  { l_m := ⟨2, [(0, 1)]⟩,
    t_m := { nverts := 5,
             pos := [Vec3.zero, Vec3.zero, Vec3.zero, Vec3.zero, Vec3.zero],
             edges := [(0, 1), (1, 2), (2, 3), (3, 1)],
             tris := [] },
    l_matching_vertex := [0, 4],
    t_matching_vertex := [some 0, none, none, none, some 1],
    t_matching_halfedge := List.replicate 8 none,
    path_length_norm := 1 }

/-- A virtual path that satisfies `embed_path`'s asserted preconditions but
whose label chain ends in the cycle `1 → 2 → 3 → 1`. -/
def cycPath : VirtualPath := [.rv 0, .rv 1, .rv 2, .rv 3, .rv 1]

/-- The state after embedding `cycPath`. -/
def cycEm1 : Embedding := (embed_path cycEm (0, 1) cycPath).getD cycEm

/-! The greedy solver (Greedy.cc). `find_shortest_path(halfedge, metric)` —
the metric-selectable search overload — and `swirl_detection_bidirectional`
operate on structures (`ShortestPathMetric`, `VirtualPort`) declared in
headers that are not part of src/, so the greedy model abstracts them as
oracle parameters `search` and `swirl`; everything else is transcribed from
Greedy.cc. -/

/-- `Embedding::ShortestPathMetric` (declared in Embedding.hh). -/
inductive ShortestPathMetric where
  | Geodesic
  | VertexRepulsive
deriving DecidableEq, Repr

/-- The shortest-path search as seen by the greedy solver. -/
abbrev SearchOracle := ShortestPathMetric → Embedding → LHe → VirtualPath

/-- `swirl_detection_bidirectional` as seen by the greedy solver. -/
abbrev SwirlOracle := Embedding → LHe → VirtualPath → Bool

/-- `GreedySettings::InsertionOrder` (Greedy.hh). -/
inductive InsertionOrder where
  | BestFirst
  | Arbitrary
deriving DecidableEq, Repr

/-- Modelled from the spec: `GreedySettings` (Greedy.hh is not part of src/;
fields and defaults follow the spec and the uses in Greedy.cc). The field
`extremal_vertex_fraction` models the configurable cutoff fraction of the
extremal-vertex ranking. -/
structure GreedySettings where
  insertion_order : InsertionOrder
  use_swirl_detection : Bool
  use_vertex_repulsive_tracing : Bool
  prefer_extremal_vertices : Bool
  swirl_penalty_factor : Frac
  extremal_vertex_fraction : Frac
deriving DecidableEq, Repr

/-- Modelled from the spec: union-find over layout vertices (UnionFind.hh is
not part of src/), represented extensionally by a representative table. -/
def ufInit (n : ℕ) : List ℕ := List.range n

/-- The representative of a class. -/
def ufRep (uf : List ℕ) (a : ℕ) : ℕ := uf.getD a a

/-- `UnionFind::equivalent`. -/
def ufEquivalent (uf : List ℕ) (a b : ℕ) : Bool := ufRep uf a = ufRep uf b

/-- `UnionFind::merge`. -/
def ufMerge (uf : List ℕ) (a b : ℕ) : List ℕ :=
  uf.map (fun r => if r = ufRep uf b then ufRep uf a else r)

/-- The outgoing layout halfedges of a layout vertex (circulator determinised
to edge-list order). -/
def l_outgoing (l : LayoutMesh) (v : ℕ) : List LHe :=
  l.ledges.filterMap (fun e =>
    if e.1 = v then some e else if e.2 = v then some (e.2, e.1) else none)

/-- The average-geodesic-neighbour-distance computation of `embed_greedy`
for one layout vertex (`total_distance / valence`). -/
def avg_neighbor_distance (search : SearchOracle) (d : Vec3 → Vec3 → Frac)
    (em : Embedding) (v : ℕ) : Option Frac :=
  let outs := l_outgoing em.l_m v
  let total := outs.foldl (fun acc lhe =>
    match acc with
    | none => none
    | some t =>
      match path_length d em (search .Geodesic em lhe) with
      | none => none
      | some c => some (t.add c)) (some Frac.zero)
  total.map (fun t => t.div (Frac.ofNat outs.length))

/-- Insertion of an element into a sorted list under a boolean comparator
(the stable sort used to rank vertices; `std::sort` admits any comparator-
consistent order). -/
def insertSorted (le : ℕ → ℕ → Bool) (x : ℕ) : List ℕ → List ℕ
  | [] => [x]
  | y :: rest => if le x y then x :: y :: rest else y :: insertSorted le x rest

/-- Insertion sort under a boolean comparator. -/
def sortBy (le : ℕ → ℕ → Bool) : List ℕ → List ℕ
  | [] => []
  | x :: rest => insertSorted le x (sortBy le rest)

/-- The extremal-vertex preprocessing of `embed_greedy`: rank the layout
vertices by decreasing average neighbour distance, take the value at the
cutoff index `⌊size * fraction⌋` and flag the vertices strictly above it.
Returns the per-layout-vertex flag table (all `false` when the preference is
disabled). -/
def compute_extremal (search : SearchOracle) (d : Vec3 → Vec3 → Frac)
    (em : Embedding) (settings : GreedySettings) : Option (List Bool) :=
  let n := em.l_m.nverts
  if settings.prefer_extremal_vertices then
    let avgsOpt := (List.range n).foldr (fun v acc =>
      match acc, avg_neighbor_distance search d em v with
      | some l, some a => some (a :: l)
      | _, _ => none) (some [])
    match avgsOpt with
    | none => none
    | some avgs =>
      let sorted := sortBy
        (fun a b => ! (avgs.getD a Frac.zero).blt (avgs.getD b Frac.zero)) (List.range n)
      let f := settings.extremal_vertex_fraction
      let idx := ((n : ℤ) * f.num / f.den).toNat
      match sorted.get? idx with
      | none => none
      | some vcut =>
        let cutoff := avgs.getD vcut Frac.zero
        some ((List.range n).map (fun v => cutoff.blt (avgs.getD v Frac.zero)))
  else
    some (List.replicate n false)

/-- `incident_to_extremal_vertex` over an optional edge handle (edge index
into the layout edge list); an invalid handle yields `false`. -/
def incidentIdx (flags : List Bool) (ledges : List (ℕ × ℕ)) (oi : Option ℕ) : Bool :=
  match oi with
  | none => false
  | some i =>
    let e := ledges.getD i (0, 0)
    flags.getD e.1 false && flags.getD e.2 false

/-- The running best of the selection loop of `embed_greedy`. -/
structure SelState where
  best_path : VirtualPath
  best_cost : Option Frac
  best_l_e : Option ℕ
deriving DecidableEq, Repr

/-- The `for (l_e : l_m.edges())` selection loop of `embed_greedy`, iterating
over layout edge indices. `none` models the fatal assertion inside
`path_length` when the search returns fewer than 2 elements. -/
def select_edges (search : SearchOracle) (swirl : SwirlOracle) (d : Vec3 → Vec3 → Frac)
    (em : Embedding) (settings : GreedySettings) (flags : List Bool) (uf : List ℕ)
    (is_spanning_tree : Bool) (embFlags : List Bool) :
    List ℕ → SelState → Option SelState
  | [], st => some st
  | i :: rest, st =>
    let ledges := em.l_m.ledges
    let e := ledges.getD i (0, 0)
    if embFlags.getD i false then
      select_edges search swirl d em settings flags uf is_spanning_tree embFlags rest st
    else if incidentIdx flags ledges st.best_l_e ∧ ¬ incidentIdx flags ledges (some i) then
      select_edges search swirl d em settings flags uf is_spanning_tree embFlags rest st
    else if ¬ is_spanning_tree ∧ ufEquivalent uf e.1 e.2 then
      select_edges search swirl d em settings flags uf is_spanning_tree embFlags rest st
    else
      let metric := if settings.use_vertex_repulsive_tracing then
        ShortestPathMetric.VertexRepulsive else ShortestPathMetric.Geodesic
      let path := search metric em (e.1, e.2)
      match path_length d em path with
      | none => none
      | some cost0 =>
        if settings.insertion_order = InsertionOrder.Arbitrary then
          some ⟨path, some cost0, some i⟩
        else
          let cost := if settings.use_swirl_detection ∧ optLtInf (some cost0) st.best_cost then
            (if swirl em (e.1, e.2) path then cost0.mul settings.swirl_penalty_factor else cost0)
          else cost0
          let ep : ℕ := if incidentIdx flags ledges (some i) then 0 else 1
          let bep : ℕ := if incidentIdx flags ledges st.best_l_e then 0 else 1
          if ep < bep ∨ (ep = bep ∧ optLtInf (some cost) st.best_cost) then
            select_edges search swirl d em settings flags uf is_spanning_tree embFlags rest
              ⟨path, some cost, some i⟩
          else
            select_edges search swirl d em settings flags uf is_spanning_tree embFlags rest st

/-- The iteration state of `embed_greedy`'s main loop. -/
structure GreedyState where
  em : Embedding
  uf : List ℕ
  embFlags : List Bool
  count : ℕ
  seq : List ℕ
deriving Repr

/-- One iteration of `embed_greedy`'s `while` loop: select the best edge,
embed it, merge the union-find classes. An invalid `best_l_e` (no candidate
found) is the fatal dereference of the invalid handle. -/
def greedy_step (search : SearchOracle) (swirl : SwirlOracle) (d : Vec3 → Vec3 → Frac)
    (settings : GreedySettings) (flags : List Bool) (st : GreedyState) : Option GreedyState :=
  let is_spanning_tree := decide (st.em.l_m.nverts - 1 ≤ st.count)
  match select_edges search swirl d st.em settings flags st.uf is_spanning_tree st.embFlags
      (List.range st.em.l_m.ledges.length) ⟨[], none, none⟩ with
  | none => none
  | some sel =>
    match sel.best_l_e with
    | none => none
    | some i =>
      let e := st.em.l_m.ledges.getD i (0, 0)
      match embed_path st.em (e.1, e.2) sel.best_path with
      | none => none
      | some em2 =>
        some { em := em2,
               uf := ufMerge st.uf e.1 e.2,
               embFlags := st.embFlags.set i true,
               count := st.count + 1,
               seq := st.seq ++ [i] }

/-- The `while (l_num_embedded_edges < l_num_edges)` loop, with the number of
remaining edges as structural fuel. -/
def greedy_loop (search : SearchOracle) (swirl : SwirlOracle) (d : Vec3 → Vec3 → Frac)
    (settings : GreedySettings) (flags : List Bool) :
    ℕ → GreedyState → Option GreedyState
  | 0, st => if st.count < st.em.l_m.ledges.length then none else some st
  | fuel + 1, st =>
    if st.count < st.em.l_m.ledges.length then
      match greedy_step search swirl d settings flags st with
      | none => none
      | some st2 => greedy_loop search swirl d settings flags fuel st2
    else some st

/-- `embed_greedy` (Greedy.cc lines 165-285): extremal preprocessing followed
by the greedy insertion loop. Returns the insertion sequence (as layout edge
indices) and the final embedding state. -/
def embed_greedy (search : SearchOracle) (swirl : SwirlOracle) (d : Vec3 → Vec3 → Frac)
    (em : Embedding) (settings : GreedySettings) : Option (List ℕ × Embedding) :=
  match compute_extremal search d em settings with
  | none => none
  | some flags =>
    match greedy_loop search swirl d settings flags em.l_m.ledges.length
        { em := em, uf := ufInit em.l_m.nverts,
          embFlags := List.replicate em.l_m.ledges.length false,
          count := 0, seq := [] } with
    | none => none
    | some st => some (st.seq, st.em)

/-- The union-find state reached by merging the endpoint classes of a
sequence of layout edge indices. -/
def ufFromSeq (l : LayoutMesh) (seq : List ℕ) : List ℕ :=
  seq.foldl (fun uf i => ufMerge uf (l.ledges.getD i (0, 0)).1 (l.ledges.getD i (0, 0)).2)
    (ufInit l.nverts)

/-- The 8 settings combinations enumerated by `embed_greedy_brute_force`
(outer loop `use_swirl_detection`, middle `use_vertex_repulsive_tracing`,
inner `prefer_extremal_vertices`). -/
def all_greedy_settings (s : GreedySettings) : List GreedySettings :=
  ([false, true]).flatMap (fun sw =>
    ([false, true]).flatMap (fun re =>
      ([false, true]).map (fun ex =>
        { s with use_swirl_detection := sw,
                 use_vertex_repulsive_tracing := re,
                 prefer_extremal_vertices := ex })))

/-- The best-variant scan of `embed_greedy_brute_force`: fold over costs with
strict `<` (first minimum wins), starting from `+inf` and the input settings. -/
def bruteScan (s0 : GreedySettings) :
    List (Option Frac × GreedySettings × List ℕ) →
    Option Frac × GreedySettings × List ℕ → Option Frac × GreedySettings × List ℕ
  | [], best => best
  | (c, s, r) :: rest, best =>
    if optLtInf c best.1 then bruteScan s0 rest (c, s, r) else bruteScan s0 rest best

/-- The per-variant run collection loop of `embed_greedy_brute_force`: one
`embed_greedy` invocation per settings combination, each on a value copy of
the input state, paired with its total embedded path length. -/
def brute_runs (search : SearchOracle) (swirl : SwirlOracle)
    (d : Vec3 → Vec3 → Frac) (em : Embedding) :
    List GreedySettings → Option (List (Option Frac × GreedySettings × List ℕ))
  | [] => some []
  | s :: rest =>
    match brute_runs search swirl d em rest, embed_greedy search swirl d em s with
    | some l, some (r, emV) =>
      match total_embedded_path_length d emV with
      | none => none
      | some c => some ((some c, s, r) :: l)
    | _, _ => none

/-- `embed_greedy_brute_force` (Greedy.cc lines 287-339): run `embed_greedy`
once per settings combination, each on a value copy of the input state, pick
the cheapest, then run `embed_greedy` once more on the input state itself
with the winning settings. The returned trace records the settings of every
`embed_greedy` invocation, in order. -/
def embed_greedy_brute_force (search : SearchOracle) (swirl : SwirlOracle)
    (d : Vec3 → Vec3 → Frac) (em : Embedding) (settings : GreedySettings) :
    Option (List ℕ × Embedding × List GreedySettings) :=
  let all := all_greedy_settings settings
  match brute_runs search swirl d em all with
  | none => none
  | some runs =>
    let best := bruteScan settings runs (none, settings, [])
    match embed_greedy search swirl d em best.2.1 with
    | none => none
    | some (_, emFinal) =>
      some (best.2.2, emFinal, all ++ [best.2.1])

/-- A deterministic search oracle over `fanMesh`: layout halfedge `(0,1)` is
traced along the vertex chain `0, 1, 3` and the opposite direction reversed. -/
def gSearch : SearchOracle := fun _ _ lhe =>
  if lhe = (0, 1) then [.rv 0, .rv 1, .rv 3] else [.rv 3, .rv 1, .rv 0]

/-- A swirl oracle that never reports a swirl. -/
def gSwirl : SwirlOracle := fun _ _ _ => false

/-- The constant-1 distance function. -/
def gD : Vec3 → Vec3 → Frac := fun _ _ => ⟨1, 1⟩

/-- Plain best-first settings: all three boolean toggles off. -/
def gSettings : GreedySettings := ⟨.BestFirst, false, false, false, ⟨2, 1⟩, ⟨1, 4⟩⟩

/-- The state `embed_greedy gSearch gSwirl gD fanEm gSettings` ends in: the
single layout edge embedded along the chain `0 → 1 → 3`. -/
def gEmF : Embedding :=
  { fanEm with t_matching_halfedge :=
      [some (0, 1), some (1, 0), none, none, none, none, some (0, 1), some (1, 0), none, none] }

/-- A search oracle that finds no legal path: it always returns the empty
virtual path. -/
def gSearchE : SearchOracle := fun _ _ _ => []

/-- A genuine (well-formed) optional fraction: a positive denominator when
present. All costs computed by the solver satisfy this. -/
def posDenO (a : Option Frac) : Prop := ∀ x, a = some x → 0 < x.den

/-! The A* search of `Embedding::find_shortest_path` (Embedding.cc lines
261-470), navigating between real vertices and edge midpoints of the target
mesh. Boundary halfedge navigation that the source leaves undefined (the
model targets closed patches) is a fatal `none`. -/

/-- Model of C++ `DBL_MAX` = (2 - 2^-52) * 2^1023, the initial
`remaining_distance_heuristic` of the start candidate. -/
def dblMax : Frac := ⟨2 ^ 1024 - 2 ^ 971, 1⟩

/-- The `Candidate` struct of `find_shortest_path`: a frontier entry. -/
structure Candidate where
  vv : VirtualVertex
  p : Vec3
  dist : Distance
deriving DecidableEq, Repr

/-- Index of the first minimal candidate under `Distance.lt`, the
deterministic stand-in for the heap's unspecified tie order. -/
def minIdx : List Candidate → ℕ → Candidate → ℕ → ℕ
  | [], besti, _, _ => besti
  | x :: rest, besti, best, i =>
    if Distance.lt x.dist best.dist then minIdx rest i x (i + 1)
    else minIdx rest besti best (i + 1)

/-- `q.top()` / `q.pop()` of the min-priority queue (`std::greater` reverses
`Candidate::operator>`, which itself reverses `Distance::operator<`). -/
def popMin (q : List Candidate) : Option (Candidate × List Candidate) :=
  match q with
  | [] => none
  | c0 :: rest =>
    let bi := minIdx rest 0 c0 1
    match q.get? bi with
    | none => none
    | some c => some (c, q.eraseIdx bi)

/-- The boundary-widening `while (true)` of `get_virtual_vertices_in_sector`
(Embedding.cc 301-315): rotate the sector start clockwise across unblocked
edges, else the sector end counterclockwise, until they meet or both stick.
Fuel models the unbounded rotation. -/
def sectorBounds (em : Embedding) : ℕ → ℕ → ℕ → Option (ℕ × ℕ)
  | 0, _, _ => none
  | fuel + 1, hs, he =>
    if hs = he then some (hs, he)
    else if ¬ is_blocked_edge em (heEdge hs) then
      match heNext em.t_m (opp hs) with
      | none => none
      | some hs2 => sectorBounds em fuel hs2 he
    else if ¬ is_blocked_edge em (heEdge he) then
      match hePrev em.t_m he with
      | none => none
      | some hp => sectorBounds em fuel hs (opp hp)
    else some (hs, he)

/-- The collection `do`/`while` of `get_virtual_vertices_in_sector`
(Embedding.cc 317-329): per boundary halfedge, the incident edge midpoint
(`t_he.next().edge()`) and, if the halfedge's edge is unblocked, its head
vertex. -/
def sectorCollect (em : Embedding) : ℕ → ℕ → ℕ → Option (List VirtualVertex)
  | 0, _, _ => none
  | fuel + 1, t_he, heEnd =>
    match heNext em.t_m t_he with
    | none => none
    | some hn =>
      let base := if ¬ is_blocked_edge em (heEdge t_he) then
        [VirtualVertex.re (heEdge hn), VirtualVertex.rv (vertex_to em.t_m t_he)]
      else [VirtualVertex.re (heEdge hn)]
      match hePrev em.t_m t_he with
      | none => none
      | some hp =>
        if opp hp = heEnd then some base
        else
          match sectorCollect em fuel (opp hp) heEnd with
          | none => none
          | some rest => some (base ++ rest)

/-- `get_virtual_vertices_in_sector(sector halfedge)`: the virtual vertices
legally reachable as first (resp. last) step of a path leaving through the
sector of the given boundary halfedge. -/
def get_virtual_vertices_in_sector (em : Embedding) (t_he_sector : ℕ) :
    Option (List VirtualVertex) :=
  match hePrev em.t_m t_he_sector with
  | none => none
  | some hp =>
    match sectorBounds em (2 * (allHalfedges em.t_m).length + 2) t_he_sector (opp hp) with
    | none => none
    | some hshe => sectorCollect em (2 * (allHalfedges em.t_m).length + 2) hshe.1 hshe.2

/-- The `legal_step(from, to)` closure (Embedding.cc 356-374). -/
def legal_step (em : Embedding) (vv_start vv_end : VirtualVertex)
    (legal_first legal_last : List VirtualVertex) (va vb : VirtualVertex) : Bool :=
  if va = vv_start ∧ ¬ vb ∈ legal_first then false
  else if vb = vv_end then decide (va ∈ legal_last)
  else ! is_blocked em vb

/-- The mutable state of the search: the two virtual-vertex attributes and
the frontier queue. -/
structure SearchState where
  dist : VirtualVertex → Distance
  prev : VirtualVertex → Option VirtualVertex
  q : List Candidate

/-- The `visit_vv(candidate, virtual vertex)` closure (Embedding.cc 376-398):
relax the distance of `vv` through `c`, record the predecessor and push a new
candidate on strict improvement of the heuristic-augmented total. -/
def visit_vv (em : Embedding) (d : Vec3 → Vec3 → Frac) (t_v_end : ℕ)
    (vv_start vv_end : VirtualVertex) (legal_first legal_last : List VirtualVertex)
    (c : Candidate) (st : SearchState) (vv : VirtualVertex) : SearchState :=
  if legal_step em vv_start vv_end legal_first legal_last c.vv vv then
    let current_dist := st.dist vv
    let p := element_pos em vv
    let new_dist : Distance :=
      { edges_crossed := c.dist.edges_crossed + (if is_real_edge vv then 1 else 0),
        geodesic := c.dist.geodesic.map (fun g => g.add (d c.p p)),
        remaining_distance_heuristic := d p (element_pos_v em t_v_end) }
    if Distance.lt new_dist current_dist then
      { dist := fun x => if x = vv then new_dist else st.dist x,
        prev := fun x => if x = vv then some c.vv else st.prev x,
        q := st.q ++ [⟨vv, p, new_dist⟩] }
    else st
  else st

/-- The vertex-neighbourhood expansion (Embedding.cc 407-425): adjacent
vertices, then the opposite edge midpoint of each non-boundary outgoing
halfedge. Circulators are determinised to halfedge-index order. -/
def expandVertex (em : Embedding) (v : ℕ) : Option (List VirtualVertex) :=
  let outs := outgoing_halfedges em.t_m v
  let adjs := outs.map (fun h => VirtualVertex.rv (vertex_to em.t_m h))
  let edgesOpt := outs.foldr (fun h acc =>
    match acc with
    | none => none
    | some l =>
      if is_boundary em.t_m h then some l
      else
        match heNext em.t_m h with
        | none => none
        | some hn => some (VirtualVertex.re (heEdge hn) :: l)) (some [])
  match edgesOpt with
  | none => none
  | some es => some (adjs ++ es)

/-- The edge-midpoint-neighbourhood expansion (Embedding.cc 427-453): the two
opposite vertices, then the wing edges of each side. -/
def expandEdge (em : Embedding) (e : ℕ) : Option (List VirtualVertex) :=
  let m := em.t_m
  let hA := 2 * e
  let hB := 2 * e + 1
  match opposite_vertex m hA with
  | none => none
  | some vA =>
    match opposite_vertex m hB with
    | none => none
    | some vB =>
      match (if is_boundary m hA then some [] else
          match heNext m hA, hePrev m hA with
          | some hn, some hp => some [VirtualVertex.re (heEdge hn), VirtualVertex.re (heEdge hp)]
          | _, _ => none) with
      | none => none
      | some sa =>
        match (if is_boundary m hB then some [] else
            match hePrev m hB, heNext m hB with
            | some hp, some hn => some [VirtualVertex.re (heEdge hp), VirtualVertex.re (heEdge hn)]
            | _, _ => none) with
        | none => none
        | some sb => some ([VirtualVertex.rv vA, VirtualVertex.rv vB] ++ sa ++ sb)

/-- The `while (!q.empty())` of `find_shortest_path` (Embedding.cc 400-455):
pop the minimal candidate, break as soon as it is the end vertex, else relax
its neighbourhood. Returns the final attribute maps; fuel exhaustion with a
non-empty frontier is `none`. -/
def searchLoop (em : Embedding) (d : Vec3 → Vec3 → Frac) (t_v_end : ℕ)
    (vv_start vv_end : VirtualVertex) (legal_first legal_last : List VirtualVertex) :
    ℕ → SearchState →
    Option ((VirtualVertex → Distance) × (VirtualVertex → Option VirtualVertex))
  | 0, st =>
    match popMin st.q with
    | none => some (st.dist, st.prev)
    | some _ => none
  | fuel + 1, st =>
    match popMin st.q with
    | none => some (st.dist, st.prev)
    | some (c, q2) =>
      match c.vv with
      | .rv v =>
        if v = t_v_end then some (st.dist, st.prev)
        else
          match expandVertex em v with
          | none => none
          | some vvs =>
            searchLoop em d t_v_end vv_start vv_end legal_first legal_last fuel
              (vvs.foldl
                (visit_vv em d t_v_end vv_start vv_end legal_first legal_last c)
                ⟨st.dist, st.prev, q2⟩)
      | .re e =>
        match expandEdge em e with
        | none => none
        | some vvs =>
          searchLoop em d t_v_end vv_start vv_end legal_first legal_last fuel
            (vvs.foldl
              (visit_vv em d t_v_end vv_start vv_end legal_first legal_last c)
              ⟨st.dist, st.prev, q2⟩)

/-- The backtracking `while (vv_current != vv_start)` of the reconstruction
(Embedding.cc 463-468), building the pre-reversal chain from the end vertex
down to the start vertex; a predecessor cycle or hole is the C++ infinite
loop / invalid read, modelled by fuel exhaustion. -/
def reconstruct (prev : VirtualVertex → Option VirtualVertex) (vv_start : VirtualVertex) :
    ℕ → VirtualVertex → Option (List VirtualVertex)
  | 0, _ => none
  | fuel + 1, cur =>
    if cur = vv_start then some [vv_start]
    else
      match prev cur with
      | none => none
      | some pv =>
        match reconstruct prev vv_start fuel pv with
        | none => none
        | some l => some (cur :: l)

/-- `Embedding::find_shortest_path(sector start halfedge, sector end
halfedge)` (Embedding.cc 261-470). `d` stands for `tg::distance`; `fuel`
bounds the search loop. -/
def find_shortest_path (d : Vec3 → Vec3 → Frac) (em : Embedding)
    (t_h_start t_h_end : ℕ) (fuel : ℕ) : Option VirtualPath :=
  let m := em.t_m
  let t_v_start := vertex_from m t_h_start
  let t_v_end := vertex_from m t_h_end
  let vv_start := VirtualVertex.rv t_v_start
  let vv_end := VirtualVertex.rv t_v_end
  match get_virtual_vertices_in_sector em t_h_start with
  | none => none
  | some legal_first =>
    match get_virtual_vertices_in_sector em t_h_end with
    | none => none
    | some legal_last =>
      let dist0 : VirtualVertex → Distance := fun x =>
        if x = vv_start then ⟨0, some Frac.zero, Frac.zero⟩ else Distance.init
      let c0 : Candidate :=
        ⟨vv_start, element_pos_v em t_v_start, ⟨0, some Frac.zero, dblMax⟩⟩
      match searchLoop em d t_v_end vv_start vv_end legal_first legal_last fuel
          ⟨dist0, fun _ => none, [c0]⟩ with
      | none => none
      | some dp =>
        if (dp.1 vv_end).geodesic = none then some []
        else
          match reconstruct dp.2 vv_start
              (em.t_m.nverts + em.t_m.edges.length + 1) vv_end with
          | none => none
          | some l => some l.reverse

/-- Squared Euclidean distance on rational positions: the executable
stand-in metric for `tg::distance` used by concrete instantiations. -/
def sqD : Vec3 → Vec3 → Frac := fun p q =>
  ((p.x.sub q.x).mul (p.x.sub q.x)).add
    (((p.y.sub q.y).mul (p.y.sub q.y)).add ((p.z.sub q.z).mul (p.z.sub q.z)))

/-! Basic facts about halfedge handles and label writes. -/

theorem opp_opp (h : ℕ) : opp (opp h) = h := by
  unfold opp
  rcases Nat.even_or_odd h with he | ho
  · have h2 : h % 2 = 0 := Nat.even_iff.mp he
    simp [h2, Nat.add_mod]
  · have h2 : h % 2 = 1 := Nat.odd_iff.mp ho
    have h1 : 1 ≤ h := by omega
    have hsub : (h - 1) % 2 = 0 := by omega
    simp [h2, hsub]
    omega

theorem opp_ne (h : ℕ) : opp h ≠ h := by
  unfold opp
  split <;> omega

theorem heEdge_opp (h : ℕ) : opp h / 2 = h / 2 := by
  unfold opp
  split <;> omega

theorem from_to_aux_spec (u v : ℕ) :
    ∀ (k : ℕ) (l : List (ℕ × ℕ)) (h : ℕ), from_to_aux u v k l = some h →
      k ≤ h / 2 ∧ h / 2 - k < l.length ∧
        ((l.get? (h / 2 - k) = some (u, v) ∧ h % 2 = 0) ∨
         (l.get? (h / 2 - k) = some (v, u) ∧ h % 2 = 1)) := by
  intro k l
  induction l generalizing k with
  | nil => intro h hh; simp [from_to_aux] at hh
  | cons e rest ih =>
    intro h hh
    unfold from_to_aux at hh
    by_cases h1 : e = (u, v)
    · rw [if_pos h1] at hh
      injection hh with hh
      subst hh
      have hdiv : 2 * k / 2 = k := by omega
      refine ⟨by omega, by simp [hdiv], Or.inl ⟨?_, by omega⟩⟩
      simp [hdiv, h1]
    · by_cases h2 : e = (v, u)
      · rw [if_neg h1, if_pos h2] at hh
        injection hh with hh
        subst hh
        have hdiv : (2 * k + 1) / 2 = k := by omega
        refine ⟨by omega, by simp [hdiv], Or.inr ⟨?_, by omega⟩⟩
        simp [hdiv, h2]
      · rw [if_neg h1, if_neg h2] at hh
        obtain ⟨hk, hlen, hcase⟩ := ih (k + 1) h hh
        refine ⟨by omega, by simp; omega, ?_⟩
        have hidx : h / 2 - k = (h / 2 - (k + 1)) + 1 := by omega
        rw [hidx]
        simpa using hcase

theorem halfedge_from_to_spec (m : TargetMesh) (u v h : ℕ)
    (hh : halfedge_from_to m u v = some h) :
    h / 2 < m.edges.length ∧
      ((m.edges.get? (h / 2) = some (u, v) ∧ h % 2 = 0) ∨
       (m.edges.get? (h / 2) = some (v, u) ∧ h % 2 = 1)) := by
  obtain ⟨_, hlen, hcase⟩ := from_to_aux_spec u v 0 m.edges h hh
  simp only [Nat.sub_zero] at hlen hcase
  exact ⟨hlen, hcase⟩

/-- Two undirected-distinct vertex pairs resolve to halfedges of different
edges. -/
theorem halfedge_from_to_edge_ne (m : TargetMesh) (u v u2 v2 h h2 : ℕ)
    (h1 : halfedge_from_to m u v = some h)
    (hb : halfedge_from_to m u2 v2 = some h2)
    (hne : ¬ ((u2, v2) = (u, v) ∨ (u2, v2) = (v, u))) :
    h2 / 2 ≠ h / 2 := by
  intro heq
  obtain ⟨_, hc1⟩ := halfedge_from_to_spec m u v h h1
  obtain ⟨_, hc2⟩ := halfedge_from_to_spec m u2 v2 h2 hb
  rw [heq] at hc2
  rcases hc1 with ⟨he1, _⟩ | ⟨he1, _⟩ <;> rcases hc2 with ⟨he2, _⟩ | ⟨he2, _⟩ <;>
    rw [he1] at he2 <;> simp at he2 <;> simp [he2] at hne

theorem label_setLabel_self (em : Embedding) (h : ℕ) (v : Option LHe)
    (hlt : h < em.t_matching_halfedge.length) :
    label (setLabel em h v) h = v := by
  unfold label setLabel
  simp [List.get?_eq_getElem?, List.getElem?_set_self', List.getElem?_eq_getElem hlt]

theorem label_setLabel_ne (em : Embedding) (j h : ℕ) (v : Option LHe) (hne : j ≠ h) :
    label (setLabel em j v) h = label em h := by
  unfold label setLabel
  simp [List.get?_eq_getElem?, List.getElem?_set_ne hne]

theorem setLabel_t_m (em : Embedding) (h : ℕ) (v : Option LHe) :
    (setLabel em h v).t_m = em.t_m := rfl

theorem setLabel_length (em : Embedding) (h : ℕ) (v : Option LHe) :
    (setLabel em h v).t_matching_halfedge.length = em.t_matching_halfedge.length := by
  unfold setLabel
  simp

/-- The third vertex of a triangle is one of its fields. -/
theorem triThird_lt (t : Tri) (n u v : ℕ) (h : t.va < n ∧ t.vb < n ∧ t.vc < n) :
    triThird t u v < n := by
  unfold triThird
  split
  · exact h.2.2
  · split
    · exact h.1
    · exact h.2.1

/-- Structural specification of the (spec-modelled) edge split: the new
vertex is the old vertex count, the arenas grow, existing positions and all
other edges keep their handles and values, and well-formedness is
preserved. -/
theorem split_spec (m : TargetMesh) (e : ℕ) (m2 : TargetMesh) (w : ℕ)
    (hwf : m.WF) (hs : split_and_triangulate m e = some (m2, w)) :
    w = m.nverts ∧ m2.nverts = m.nverts + 1 ∧ m2.WF ∧
    m2.pos.length = m.pos.length + 1 ∧
    (∀ i, i < m.pos.length → m2.pos.get? i = m.pos.get? i) ∧
    m.edges.length ≤ m2.edges.length ∧
    (∀ j, j ≠ e → j < m.edges.length → m2.edges.get? j = m.edges.get? j) := by
  obtain ⟨hpos, hedg, htri⟩ := hwf
  unfold split_and_triangulate at hs
  cases hget : m.edges.get? e with
  | none => rw [hget] at hs; exact absurd hs (by simp)
  | some ab =>
    obtain ⟨a, b⟩ := ab
    rw [hget] at hs
    simp only [Option.some.injEq, Prod.mk.injEq] at hs
    obtain ⟨hm2, hw⟩ := hs
    have hab : (a, b) ∈ m.edges := List.get?_mem hget
    have ha : a < m.nverts := (hedg _ hab).1
    have hb : b < m.nverts := (hedg _ hab).2
    subst hm2 hw
    refine ⟨rfl, rfl, ⟨?_, ?_, ?_⟩, ?_, ?_, ?_, ?_⟩
    · simp [hpos]
    · intro p hp
      dsimp only at hp ⊢
      simp only [List.mem_append] at hp
      rcases hp with hp | hp
      · rcases hp with hp | hp
        · rcases List.mem_or_eq_of_mem_set hp with hp2 | hp2
          · exact ⟨by have := (hedg _ hp2).1; omega, by have := (hedg _ hp2).2; omega⟩
          · subst hp2
            exact ⟨by dsimp only; omega, by dsimp only; omega⟩
        · simp only [List.mem_singleton] at hp
          subst hp
          exact ⟨by dsimp only; omega, by dsimp only; omega⟩
      · obtain ⟨c, hc, hpc⟩ := List.mem_map.mp hp
        obtain ⟨t, ht, htc⟩ := List.mem_filterMap.mp hc
        have hc2 : c < m.nverts := by
          by_cases h1 : triHasDirected t a b
          · simp only [h1, if_pos] at htc
            injection htc with htc
            subst htc
            exact triThird_lt t m.nverts a b (htri t ht)
          · rw [if_neg h1] at htc
            by_cases h2 : triHasDirected t b a
            · rw [if_pos h2] at htc
              injection htc with htc
              subst htc
              exact triThird_lt t m.nverts b a (htri t ht)
            · rw [if_neg h2] at htc
              exact absurd htc (by simp)
        subst hpc
        exact ⟨by dsimp only; omega, by dsimp only; omega⟩
    · intro t2 ht2
      dsimp only at ht2 ⊢
      obtain ⟨t, ht, htt⟩ := List.mem_flatMap.mp ht2
      have hta := htri t ht
      have hthird1 := triThird_lt t m.nverts a b hta
      have hthird2 := triThird_lt t m.nverts b a hta
      by_cases h1 : triHasDirected t a b
      · simp only [h1, if_pos] at htt
        simp only [List.mem_cons, List.mem_singleton, List.not_mem_nil, or_false] at htt
        rcases htt with htt | htt <;> subst htt <;>
          exact ⟨by dsimp only; omega, by dsimp only; omega, by dsimp only; omega⟩
      · rw [if_neg h1] at htt
        by_cases h2 : triHasDirected t b a
        · rw [if_pos h2] at htt
          simp only [List.mem_cons, List.mem_singleton, List.not_mem_nil, or_false] at htt
          rcases htt with htt | htt <;> subst htt <;>
            exact ⟨by dsimp only; omega, by dsimp only; omega, by dsimp only; omega⟩
        · rw [if_neg h2] at htt
          simp only [List.mem_singleton] at htt
          subst htt
          obtain ⟨x1, x2, x3⟩ := hta
          exact ⟨by omega, by omega, by omega⟩
    · simp
    · intro i hi
      simp only [List.get?_eq_getElem?]
      rw [List.getElem?_append_left (by omega)]
    · simp only [List.length_append, List.length_set]
      omega
    · intro j hj hjlen
      simp only [List.get?_eq_getElem?]
      rw [List.getElem?_append_left (by simp only [List.length_append, List.length_set]; omega),
        List.getElem?_append_left (by simp only [List.length_set]; omega),
        List.getElem?_set_ne (by omega)]

/-- Helper: equal optional lookups give equal defaulted lookups. -/
theorem getD_congr {α : Type} (l l2 : List α) (i : ℕ) (d : α)
    (h : l.get? i = l2.get? i) : l.getD i d = l2.getD i d := by
  rw [List.getD_eq_getElem?_getD, List.getD_eq_getElem?_getD,
    ← List.get?_eq_getElem?, ← List.get?_eq_getElem?, h]

theorem edgeVVs_cons_rv (v : ℕ) (rest : VirtualPath) :
    edgeVVs (.rv v :: rest) = edgeVVs rest := by
  simp [edgeVVs]

theorem edgeVVs_cons_re (e : ℕ) (rest : VirtualPath) :
    edgeVVs (.re e :: rest) = e :: edgeVVs rest := by
  simp [edgeVVs]

/-- Specification of `em_split`: mesh facts from `split_spec`, attribute
arenas grow in step (existing labels keep their handles), the other fields of
the state are untouched, and well-formedness is preserved. -/
theorem em_split_spec (em : Embedding) (e : ℕ) (em2 : Embedding) (w : ℕ)
    (hwf : em.WF) (hs : em_split em e = some (em2, w)) :
    w = em.t_m.nverts ∧ em2.WF ∧
    em2.t_m.nverts = em.t_m.nverts + 1 ∧
    em2.t_m.pos.length = em.t_m.pos.length + 1 ∧
    (∀ i, i < em.t_m.pos.length → em2.t_m.pos.get? i = em.t_m.pos.get? i) ∧
    em.t_m.edges.length ≤ em2.t_m.edges.length ∧
    (∀ j, j ≠ e → j < em.t_m.edges.length → em2.t_m.edges.get? j = em.t_m.edges.get? j) ∧
    (∀ h, h < em.t_matching_halfedge.length →
      em2.t_matching_halfedge.get? h = em.t_matching_halfedge.get? h) ∧
    em2.l_m = em.l_m ∧ em2.l_matching_vertex = em.l_matching_vertex ∧
    em2.path_length_norm = em.path_length_norm := by
  unfold em_split at hs
  cases hsp : split_and_triangulate em.t_m e with
  | none => rw [hsp] at hs; exact absurd hs (by simp)
  | some mw =>
    obtain ⟨m2, w2⟩ := mw
    rw [hsp] at hs
    simp only [Option.some.injEq, Prod.mk.injEq] at hs
    obtain ⟨hm2, hw⟩ := hs
    obtain ⟨hw2, hnv, hmwf, hplen, hpget, helen, heget⟩ :=
      split_spec em.t_m e m2 w2 hwf.1 hsp
    subst hm2 hw
    obtain ⟨hwfm, hwfh, hwfv⟩ := hwf
    refine ⟨hw2, ⟨hmwf, ?_, ?_⟩, hnv, hplen, hpget, helen, heget, ?_, rfl, rfl, rfl⟩
    · dsimp only
      rw [List.length_append, List.length_replicate]
      omega
    · dsimp only
      rw [List.length_append]
      simp only [List.length_singleton]
      omega
    · intro h hh
      dsimp only
      simp only [List.get?_eq_getElem?]
      rw [List.getElem?_append_left (by omega)]

/-- Specification of the split loop of `embed_path` (`materialize`): on
success, the vertex path has the same length as the virtual path, real-vertex
entries pass through, each edge-valued virtual vertex is materialised as a
fresh vertex positioned at the linear interpolation (parameter `1/2`) of the
endpoints of its edge as they were at call time, pre-existing positions and
the handles and endpoints of non-split edges are untouched, and
well-formedness is preserved. Requires the edge-valued virtual vertices to be
pairwise distinct, in-range edge handles. -/
theorem materialize_spec :
    ∀ (path : VirtualPath) (em em2 : Embedding) (vp : List ℕ),
      Embedding.WF em →
      (edgeVVs path).Nodup →
      (∀ e, VirtualVertex.re e ∈ path → e < em.t_m.edges.length) →
      materialize em path = some (em2, vp) →
      Embedding.WF em2 ∧
      vp.length = path.length ∧
      em.t_m.nverts ≤ em2.t_m.nverts ∧
      em.t_m.edges.length ≤ em2.t_m.edges.length ∧
      (∀ i, i < em.t_m.pos.length → em2.t_m.pos.get? i = em.t_m.pos.get? i) ∧
      (∀ j, j < em.t_m.edges.length → j ∉ edgeVVs path →
        em2.t_m.edges.get? j = em.t_m.edges.get? j) ∧
      em2.l_m = em.l_m ∧
      em2.l_matching_vertex = em.l_matching_vertex ∧
      em2.path_length_norm = em.path_length_norm ∧
      (∀ i v, path.get? i = some (.rv v) → vp.get? i = some v) ∧
      (∀ i e, path.get? i = some (.re e) → ∃ w,
          vp.get? i = some w ∧
          em2.t_m.pos.get? w =
            some (mix (element_pos_v em (em.t_m.edges.getD e (0, 0)).1)
                      (element_pos_v em (em.t_m.edges.getD e (0, 0)).2) Frac.half)) := by
  intro path
  induction path with
  | nil =>
    intro em em2 vp hwf hnd hrange hmat
    unfold materialize at hmat
    simp only [Option.some.injEq, Prod.mk.injEq] at hmat
    obtain ⟨h1, h2⟩ := hmat
    subst h1 h2
    refine ⟨hwf, rfl, le_refl _, le_refl _, fun i _ => rfl, fun j _ _ => rfl, rfl, rfl, rfl,
      ?_, ?_⟩
    · intro i v h
      simp at h
    · intro i e h
      simp at h
  | cons vv rest ih =>
    intro em em2 vp hwf hnd hrange hmat
    cases vv with
    | rv v =>
      unfold materialize at hmat
      cases hrec : materialize em rest with
      | none => rw [hrec] at hmat; exact absurd hmat (by simp)
      | some p =>
        obtain ⟨em2r, vs⟩ := p
        rw [hrec] at hmat
        simp only [Option.some.injEq, Prod.mk.injEq] at hmat
        obtain ⟨h1, h2⟩ := hmat
        subst h1 h2
        rw [edgeVVs_cons_rv] at hnd
        have hrange2 : ∀ e, VirtualVertex.re e ∈ rest → e < em.t_m.edges.length := by
          intro e he
          exact hrange e (List.mem_cons_of_mem _ he)
        obtain ⟨c1, c2, c3, c4, c5, c6, c7, c8, c9, c10, c11⟩ :=
          ih em em2r vs hwf hnd hrange2 hrec
        refine ⟨c1, by simp [c2], c3, c4, c5, ?_, c7, c8, c9, ?_, ?_⟩
        · intro j hj hjmem
          rw [edgeVVs_cons_rv] at hjmem
          exact c6 j hj hjmem
        · intro i v2 h
          match i with
          | 0 =>
            simp only [List.get?] at h ⊢
            injection h with h
            injection h with h
            subst h
            rfl
          | i + 1 =>
            simp only [List.get?] at h ⊢
            exact c10 i v2 h
        · intro i e h
          match i with
          | 0 => simp at h
          | i + 1 =>
            simp only [List.get?] at h ⊢
            exact c11 i e h
    | re e =>
      unfold materialize at hmat
      cases hget : em.t_m.edges.get? e with
      | none => rw [hget] at hmat; exact absurd hmat (by simp)
      | some ab =>
        obtain ⟨a, b⟩ := ab
        rw [hget] at hmat
        dsimp only at hmat
        cases hsp : em_split em e with
        | none => rw [hsp] at hmat; exact absurd hmat (by simp)
        | some ew =>
          obtain ⟨emS, w⟩ := ew
          rw [hsp] at hmat
          dsimp only at hmat
          cases hrec : materialize
              (setPos emS w (mix (element_pos_v em a) (element_pos_v em b) Frac.half)) rest with
          | none => rw [hrec] at hmat; exact absurd hmat (by simp)
          | some p =>
            obtain ⟨em2r, vs⟩ := p
            rw [hrec] at hmat
            simp only [Option.some.injEq, Prod.mk.injEq] at hmat
            obtain ⟨h1, h2⟩ := hmat
            subst h1 h2
            obtain ⟨hw, hSwf, hSnv, hSplen, hSpget, hSelen, hSeget, hShget, hSlm, hSlmv,
              hSnorm⟩ := em_split_spec em e emS w hwf hsp
            set pmid := mix (element_pos_v em a) (element_pos_v em b) Frac.half with hpmid
            set emP := setPos emS w pmid with hemP
            have hPfields : emP.t_m.pos = emS.t_m.pos.set w pmid ∧
                emP.t_m.edges = emS.t_m.edges ∧ emP.t_m.nverts = emS.t_m.nverts ∧
                emP.t_m.tris = emS.t_m.tris ∧
                emP.t_matching_halfedge = emS.t_matching_halfedge ∧
                emP.t_matching_vertex = emS.t_matching_vertex ∧
                emP.l_m = emS.l_m ∧ emP.l_matching_vertex = emS.l_matching_vertex ∧
                emP.path_length_norm = emS.path_length_norm :=
              ⟨rfl, rfl, rfl, rfl, rfl, rfl, rfl, rfl, rfl⟩
            have hplen0 : em.t_m.pos.length = em.t_m.nverts := hwf.1.1
            have hPwf : emP.WF := by
              obtain ⟨⟨w1, w2, w3⟩, w4, w5⟩ := hSwf
              refine ⟨⟨?_, ?_, ?_⟩, ?_, ?_⟩ <;>
                simp only [hPfields.1, hPfields.2.1, hPfields.2.2.1, hPfields.2.2.2.1,
                  hPfields.2.2.2.2.1, hPfields.2.2.2.2.2.1, List.length_set] <;>
                first
                  | exact w1
                  | exact w2
                  | exact w3
                  | exact w4
                  | exact w5
            rw [edgeVVs_cons_re] at hnd
            have hndrest : (edgeVVs rest).Nodup := (List.nodup_cons.mp hnd).2
            have hemem : e ∉ edgeVVs rest := (List.nodup_cons.mp hnd).1
            have hrange2 : ∀ e2, VirtualVertex.re e2 ∈ rest → e2 < emP.t_m.edges.length := by
              intro e2 he2
              have := hrange e2 (List.mem_cons_of_mem _ he2)
              have h2 : emP.t_m.edges.length = emS.t_m.edges.length := by
                rw [hPfields.2.1]
              omega
            obtain ⟨c1, c2, c3, c4, c5, c6, c7, c8, c9, c10, c11⟩ :=
              ih emP em2r vs hPwf hndrest hrange2 hrec
            have helen : e < em.t_m.edges.length := by
              have := List.get?_eq_some.mp hget
              obtain ⟨hlt, _⟩ := this
              exact hlt
            have hwlt : w = em.t_m.pos.length := by omega
            have hposP : ∀ i, i < em.t_m.pos.length →
                emP.t_m.pos.get? i = em.t_m.pos.get? i := by
              intro i hi
              rw [hPfields.1]
              simp only [List.get?_eq_getElem?]
              rw [List.getElem?_set_ne (by omega)]
              have := hSpget i hi
              simp only [List.get?_eq_getElem?] at this
              exact this
            have hedgP : ∀ j, j ≠ e → j < em.t_m.edges.length →
                emP.t_m.edges.get? j = em.t_m.edges.get? j := by
              intro j hj hjl
              rw [hPfields.2.1]
              exact hSeget j hj hjl
            refine ⟨c1, by simp [c2], ?_, ?_, ?_, ?_, ?_, ?_, ?_, ?_, ?_⟩
            · have h3 : emP.t_m.nverts = emS.t_m.nverts := hPfields.2.2.1
              omega
            · have h4 : emP.t_m.edges.length = emS.t_m.edges.length := by
                rw [hPfields.2.1]
              omega
            · intro i hi
              have hi2 : i < emP.t_m.pos.length := by
                rw [hPfields.1]
                simp only [List.length_set]
                omega
              rw [c5 i hi2, hposP i hi]
            · intro j hj hjmem
              rw [edgeVVs_cons_re] at hjmem
              simp only [List.mem_cons] at hjmem
              push_neg at hjmem
              have hj2 : j < emP.t_m.edges.length := by
                have h4 : emP.t_m.edges.length = emS.t_m.edges.length := by
                  rw [hPfields.2.1]
                omega
              rw [c6 j hj2 hjmem.2, hedgP j hjmem.1 hj]
            · rw [c7, hPfields.2.2.2.2.2.2.1, hSlm]
            · rw [c8, hPfields.2.2.2.2.2.2.2.1, hSlmv]
            · rw [c9, hPfields.2.2.2.2.2.2.2.2, hSnorm]
            · intro i v2 h
              match i with
              | 0 => simp at h
              | i + 1 =>
                simp only [List.get?] at h ⊢
                exact c10 i v2 h
            · intro i e2 h
              match i with
              | 0 =>
                simp only [List.get?] at h ⊢
                injection h with h
                injection h with h
                subst h
                refine ⟨w, rfl, ?_⟩
                have hwP : emP.t_m.pos.get? w = some pmid := by
                  rw [hPfields.1]
                  simp only [List.get?_eq_getElem?]
                  rw [List.getElem?_set_self']
                  have hwlen : w < emS.t_m.pos.length := by omega
                  simp [List.getElem?_eq_getElem hwlen]
                have hwP2 : em2r.t_m.pos.get? w = some pmid := by
                  have hw2 : w < emP.t_m.pos.length := by
                    rw [hPfields.1]
                    simp only [List.length_set]
                    omega
                  rw [c5 w hw2, hwP]
                rw [hwP2]
                have hgetD : em.t_m.edges.getD e (0, 0) = (a, b) := by
                  rw [List.getD_eq_getElem?_getD, ← List.get?_eq_getElem?, hget]
                  rfl
                rw [hgetD]
              | i + 1 =>
                simp only [List.get?] at h ⊢
                obtain ⟨w2, hw2a, hw2b⟩ := c11 i e2 h
                refine ⟨w2, hw2a, ?_⟩
                rw [hw2b]
                have he2mem : VirtualVertex.re e2 ∈ rest := by
                  have : rest.get? i = some (VirtualVertex.re e2) := h
                  exact List.get?_mem this
                have he2len : e2 < em.t_m.edges.length :=
                  hrange e2 (List.mem_cons_of_mem _ he2mem)
                have he2ne : e2 ≠ e := by
                  intro hc
                  subst hc
                  apply hemem
                  unfold edgeVVs
                  exact List.mem_filterMap.mpr ⟨VirtualVertex.re e2, he2mem, rfl⟩
                have hedgsame : emP.t_m.edges.getD e2 (0, 0) = em.t_m.edges.getD e2 (0, 0) :=
                  getD_congr _ _ _ _ (hedgP e2 he2ne he2len)
                rw [hedgsame]
                have hab2 : (em.t_m.edges.getD e2 (0, 0)) ∈ em.t_m.edges := by
                  have hsome : em.t_m.edges.get? e2 = some (em.t_m.edges.getD e2 (0, 0)) := by
                    rw [List.getD_eq_getElem?_getD, ← List.get?_eq_getElem?]
                    cases hx : em.t_m.edges.get? e2 with
                    | none =>
                      exfalso
                      have := List.get?_eq_none.mp hx
                      omega
                    | some y => rfl
                  exact List.get?_mem hsome
                have hbound := hwf.1.2.1 _ hab2
                have hposx : ∀ x, x < em.t_m.nverts →
                    element_pos_v emP x = element_pos_v em x := by
                  intro x hx
                  unfold element_pos_v
                  exact getD_congr _ _ _ _ (hposP x (by omega))
                rw [hposx _ hbound.1, hposx _ hbound.2]
            
theorem chainPairs_cons (u v : ℕ) (rest : List ℕ) :
    chainPairs (u :: v :: rest) = (u, v) :: chainPairs (v :: rest) := rfl

/-- A found halfedge runs from `u` to `v` and is a handle of the mesh. -/
theorem vertex_from_from_to (m : TargetMesh) (u v h : ℕ)
    (hh : halfedge_from_to m u v = some h) :
    vertex_from m h = u ∧ vertex_to m h = v ∧ h < 2 * m.edges.length := by
  obtain ⟨hlen, hcase⟩ := halfedge_from_to_spec m u v h hh
  rcases hcase with ⟨hget, hmod⟩ | ⟨hget, hmod⟩ <;>
    refine ⟨?_, ?_, by omega⟩ <;>
      simp [vertex_from, vertex_to, hmod, List.getD_eq_getElem?_getD,
        ← List.get?_eq_getElem?, hget]

theorem mem_outgoing (m : TargetMesh) (u h : ℕ) :
    h ∈ outgoing_halfedges m u ↔ h < 2 * m.edges.length ∧ vertex_from m h = u := by
  simp [outgoing_halfedges, allHalfedges, List.mem_filter, List.mem_range]

/-- If some outgoing halfedge of the matched landmark carries the label, the
layout halfedge is embedded. -/
theorem is_embedded_intro (em : Embedding) (lhe : LHe) (tv h : ℕ)
    (hmv : em.l_matching_vertex.get? lhe.1 = some tv)
    (hout : h ∈ outgoing_halfedges em.t_m tv)
    (hlab : label em h = some lhe) :
    is_embedded em lhe = true := by
  unfold is_embedded get_embedded_target_halfedge
  rw [hmv]
  rw [List.find?_isSome]
  exact ⟨h, hout, by simp [hlab]⟩

/-- Frame lemma for the labelling loop of `embed_path`: only the
matching-halfedge labels change, and only at the two directions of the chain
halfedges. -/
theorem label_chain_frame (lhe : LHe) :
    ∀ (vs : List ℕ) (em em2 : Embedding), label_chain lhe em vs = some em2 →
      em2.t_m = em.t_m ∧ em2.l_m = em.l_m ∧
      em2.l_matching_vertex = em.l_matching_vertex ∧
      em2.t_matching_vertex = em.t_matching_vertex ∧
      em2.path_length_norm = em.path_length_norm ∧
      em2.t_matching_halfedge.length = em.t_matching_halfedge.length ∧
      (∀ j, (∀ u v h, (u, v) ∈ chainPairs vs → halfedge_from_to em.t_m u v = some h →
          j ≠ h ∧ j ≠ opp h) → label em2 j = label em j) := by
  intro vs
  induction vs with
  | nil =>
    intro em em2 hs
    unfold label_chain at hs
    injection hs with hs
    subst hs
    exact ⟨rfl, rfl, rfl, rfl, rfl, rfl, fun j _ => rfl⟩
  | cons u tail ih =>
    intro em em2 hs
    cases tail with
    | nil =>
      unfold label_chain at hs
      injection hs with hs
      subst hs
      exact ⟨rfl, rfl, rfl, rfl, rfl, rfl, fun j _ => rfl⟩
    | cons v rest =>
      unfold label_chain at hs
      cases hft : halfedge_from_to em.t_m u v with
      | none => rw [hft] at hs; exact absurd hs (by simp)
      | some h0 =>
        rw [hft] at hs
        dsimp only at hs
        set emW := setLabel (setLabel em h0 (some lhe)) (opp h0) (some lhe.swap) with hemW
        obtain ⟨f1, f2, f3, f4, f5, f6, f7⟩ := ih emW em2 hs
        have hWt : emW.t_m = em.t_m := rfl
        refine ⟨by rw [f1, hWt], by rw [f2]; rfl, by rw [f3]; rfl, by rw [f4]; rfl, by rw [f5]; rfl, ?_, ?_⟩
        · rw [f6, hemW, setLabel_length, setLabel_length]
        · intro j hj
          have hj2 : ∀ u2 v2 h2, (u2, v2) ∈ chainPairs (v :: rest) →
              halfedge_from_to emW.t_m u2 v2 = some h2 → j ≠ h2 ∧ j ≠ opp h2 := by
            intro u2 v2 h2 hmem hft2
            rw [hWt] at hft2
            exact hj u2 v2 h2 (by rw [chainPairs_cons]; exact List.mem_cons_of_mem _ hmem) hft2
          rw [f7 j hj2]
          obtain ⟨hne1, hne2⟩ := hj u v h0 (by rw [chainPairs_cons]; exact List.mem_cons_self _ _) hft
          rw [hemW, label_setLabel_ne _ _ _ _ (Ne.symm hne2), label_setLabel_ne _ _ _ _ (Ne.symm hne1)]

/-- Labelling lemma for `embed_path`: when no chain pair repeats (in either
direction), every chain halfedge ends up labeled with the layout halfedge and
its opposite with the opposite layout halfedge. -/
theorem label_chain_labels (lhe : LHe) :
    ∀ (vs : List ℕ) (em em2 : Embedding), label_chain lhe em vs = some em2 →
      em.t_matching_halfedge.length = 2 * em.t_m.edges.length →
      chainNoRepeat vs →
      ∀ u v, (u, v) ∈ chainPairs vs →
        ∃ h, halfedge_from_to em.t_m u v = some h ∧
          label em2 h = some lhe ∧ label em2 (opp h) = some lhe.swap := by
  intro vs
  induction vs with
  | nil =>
    intro em em2 hs hlen hnr u v hmem
    simp [chainPairs] at hmem
  | cons u0 tail ih =>
    intro em em2 hs hlen hnr u v hmem
    cases tail with
    | nil => simp [chainPairs] at hmem
    | cons v0 rest =>
      unfold label_chain at hs
      cases hft : halfedge_from_to em.t_m u0 v0 with
      | none => rw [hft] at hs; exact absurd hs (by simp)
      | some h0 =>
        rw [hft] at hs
        dsimp only at hs
        set emW := setLabel (setLabel em h0 (some lhe)) (opp h0) (some lhe.swap) with hemW
        have hWt : emW.t_m = em.t_m := rfl
        have hWlen : emW.t_matching_halfedge.length = em.t_matching_halfedge.length := by
          rw [hemW, setLabel_length, setLabel_length]
        have hh0lt : h0 < em.t_matching_halfedge.length := by
          obtain ⟨hlt, _⟩ := halfedge_from_to_spec em.t_m u0 v0 h0 hft
          omega
        have hopplt : opp h0 < em.t_matching_halfedge.length := by
          obtain ⟨hlt, _⟩ := halfedge_from_to_spec em.t_m u0 v0 h0 hft
          have := heEdge_opp h0
          omega
        rw [chainPairs_cons] at hmem
        rw [chainNoRepeat, chainPairs_cons] at hnr
        obtain ⟨hhead, htail⟩ := List.pairwise_cons.mp hnr
        rcases List.mem_cons.mp hmem with hmem | hmem
        · injection hmem with hu hv
          subst hu hv
          refine ⟨h0, hft, ?_, ?_⟩
          obtain ⟨f1, f2, f3, f4, f5, f6, f7⟩ := label_chain_frame lhe (v :: rest) emW em2 hs
          · rw [f7 h0 ?_]
            · rw [hemW, label_setLabel_ne _ _ _ _ (opp_ne h0),
                label_setLabel_self _ _ _ hh0lt]
            · intro u2 v2 h2 hmem2 hft2
              rw [hWt] at hft2
              have hne := hhead (u2, v2) hmem2
              have hdiv := halfedge_from_to_edge_ne em.t_m u v u2 v2 h0 h2 hft hft2
                (by simpa using hne)
              have := heEdge_opp h2
              constructor
              · intro hc; subst hc; omega
              · intro hc
                rw [hc] at hdiv
                omega
          · obtain ⟨f1, f2, f3, f4, f5, f6, f7⟩ := label_chain_frame lhe (v :: rest) emW em2 hs
            rw [f7 (opp h0) ?_]
            · rw [hemW, label_setLabel_self _ _ _ (by rw [setLabel_length]; exact hopplt)]
            · intro u2 v2 h2 hmem2 hft2
              rw [hWt] at hft2
              have hne := hhead (u2, v2) hmem2
              have hdiv := halfedge_from_to_edge_ne em.t_m u v u2 v2 h0 h2 hft hft2
                (by simpa using hne)
              have he1 := heEdge_opp h2
              have he2 := heEdge_opp h0
              constructor
              · intro hc
                have hcc : opp h0 / 2 = h2 / 2 := by rw [hc]
                omega
              · intro hc
                have hcc : opp h0 / 2 = opp h2 / 2 := by rw [hc]
                omega
        · have := ih emW em2 hs (by rw [hWlen, hlen, hWt]) htail u v hmem
          rw [hWt] at this
          exact this

/-- Two consecutive optional lookups give a member of the chain pairs. -/
theorem chainPairs_mem_of_get? (vs : List ℕ) (i a b : ℕ)
    (ha : vs.get? i = some a) (hb : vs.get? (i + 1) = some b) :
    (a, b) ∈ chainPairs vs := by
  unfold chainPairs
  have hz : (vs.zip vs.tail).get? i = some (a, b) := by
    rw [List.get?_eq_getElem?] at ha hb ⊢
    rw [List.getElem?_zip_eq_some]
    exact ⟨ha, by rw [List.getElem?_tail]; exact hb⟩
  exact List.get?_mem hz

/-- C1 (amended): under `embed_path`'s stated precondition (layout halfedge
not yet embedded, virtual path of length at least 2 running from its matched
landmark to the opposite matched landmark), and provided additionally that
the materialised vertex chain repeats no target edge in either direction and
the edge-valued virtual vertices are pairwise distinct (the counterexample
`C1_counterexample` shows the claim fails without the no-repeat condition),
a successful `embed_path` splits every edge-valued virtual vertex at the
linear interpolation of its edge's endpoints at parameter `1/2`, labels every
chain halfedge with the layout halfedge and every opposite chain halfedge
with its opposite, and afterwards `is_embedded` holds. Success of the two
phases (`materialize`, `label_chain`) corresponds to the C++ run completing
without assertion failures. -/
theorem C1_embed_path (em em2 em3 : Embedding) (lhe : LHe) (path : VirtualPath)
    (vp : List ℕ) (v0 vN : ℕ)
    (hwf : Embedding.WF em)
    (hpre : is_embedded em lhe = false)
    (hlen : 2 ≤ path.length)
    (hhead : path.head? = some (.rv v0))
    (hmv : em.l_matching_vertex.get? lhe.1 = some v0)
    (hlast : path.getLast? = some (.rv vN))
    (hmvN : em.l_matching_vertex.get? lhe.2 = some vN)
    (hrange : ∀ e, VirtualVertex.re e ∈ path → e < em.t_m.edges.length)
    (hnde : (edgeVVs path).Nodup)
    (hmat : materialize em path = some (em2, vp))
    (hnr : chainNoRepeat vp)
    (hlab : label_chain lhe em2 vp = some em3) :
    embed_path em lhe path = some em3 ∧
    (∀ i e, path.get? i = some (.re e) → ∃ w, vp.get? i = some w ∧
        em3.t_m.pos.get? w =
          some (mix (element_pos_v em (em.t_m.edges.getD e (0, 0)).1)
                    (element_pos_v em (em.t_m.edges.getD e (0, 0)).2) Frac.half)) ∧
    (∀ u v, (u, v) ∈ chainPairs vp → ∃ h, halfedge_from_to em3.t_m u v = some h ∧
        label em3 h = some lhe ∧ label em3 (opp h) = some lhe.swap) ∧
    is_embedded em3 lhe = true := by
  obtain ⟨c1, c2, c3, c4, c5, c6, c7, c8, c9, c10, c11⟩ :=
    materialize_spec path em em2 vp hwf hnde hrange hmat
  obtain ⟨f1, f2, f3, f4, f5, f6, f7⟩ := label_chain_frame lhe vp em2 em3 hlab
  have hpre2 : (get_embedded_target_halfedge em lhe).isSome = false := hpre
  constructor
  · unfold embed_path
    rw [hpre2]
    simp only [Bool.false_eq_true, if_false]
    rw [if_neg (by omega)]
    rw [hmat]
    exact hlab
  constructor
  · intro i e h
    obtain ⟨w, hw1, hw2⟩ := c11 i e h
    exact ⟨w, hw1, by rw [f1]; exact hw2⟩
  constructor
  · intro u v hmem
    obtain ⟨h, hh1, hh2, hh3⟩ := label_chain_labels lhe vp em2 em3 hlab c1.2.1 hnr u v hmem
    exact ⟨h, by rw [f1]; exact hh1, hh2, hh3⟩
  · have hget0 : path.get? 0 = some (VirtualVertex.rv v0) := by
      rw [List.get?_eq_getElem?, ← List.head?_eq_getElem?]
      exact hhead
    have hvp0 : vp.get? 0 = some v0 := c10 0 v0 hget0
    have hvp1 : ∃ v1, vp.get? 1 = some v1 := by
      cases hv1 : vp.get? 1 with
      | none =>
        exfalso
        have := List.get?_eq_none.mp hv1
        omega
      | some v1 => exact ⟨v1, rfl⟩
    obtain ⟨v1, hvp1⟩ := hvp1
    have hmem01 : (v0, v1) ∈ chainPairs vp := chainPairs_mem_of_get? vp 0 v0 v1 hvp0 hvp1
    obtain ⟨h, hh1, hh2, hh3⟩ := label_chain_labels lhe vp em2 em3 hlab c1.2.1 hnr v0 v1 hmem01
    obtain ⟨hvf, hvt, hhlt⟩ := vertex_from_from_to em2.t_m v0 v1 h hh1
    refine is_embedded_intro em3 lhe v0 h ?_ ?_ hh2
    · rw [f3, c8]
      exact hmv
    · rw [mem_outgoing, f1]
      exact ⟨hhlt, hvf⟩

/-- Witness for `C1_embed_path` on the tetrahedron: embedding the virtual
path `2 → midpoint of edge (0,1) → 3` succeeds and embeds layout halfedge
`(0,1)`. -/
theorem C1_embed_path_witness :
    embed_path tetraEm (0, 1) tetraPath = some tetraEm1 ∧
    is_embedded tetraEm1 (0, 1) = true := by
  have h := C1_embed_path tetraEm tetraEmM tetraEm1 (0, 1) tetraPath [2, 4, 3] 2 3
    (by decide) (by decide) (by decide) (by decide) (by decide) (by decide) (by decide)
    (by
      intro e he
      simp only [tetraPath, List.mem_cons, List.not_mem_nil, or_false] at he
      rcases he with h | h | h
      · exact absurd h (by simp)
      · injection h with h2
        subst h2
        decide
      · exact absurd h (by simp))
    (by decide) (by decide) (by decide) (by decide)
  exact ⟨h.1, h.2.2.2⟩

theorem opp_inj (a b : ℕ) (h : opp a = opp b) : a = b := by
  have := opp_opp a
  have := opp_opp b
  rw [← opp_opp a, h, opp_opp]

theorem opp_lt_of_even (h n : ℕ) (hlen : n % 2 = 0) (hlt : h < n) : opp h < n := by
  unfold opp
  split <;> omega

theorem opp_ge_of_even (h n : ℕ) (hlen : n % 2 = 0) (hge : n ≤ h) : n ≤ opp h := by
  unfold opp
  split <;> omega

/-- Writing the symmetric pair `h0 ↦ x`, `opp h0 ↦ x.map swap` preserves
label symmetry. -/
theorem sym_write_pair (em : Embedding) (h0 : ℕ) (x : Option LHe)
    (hsym : labelsSymmetric em)
    (hlen : em.t_matching_halfedge.length % 2 = 0)
    (hlt : h0 < em.t_matching_halfedge.length) :
    labelsSymmetric (setLabel (setLabel em h0 x) (opp h0) (x.map Prod.swap)) := by
  intro j
  have hopplt : opp h0 < em.t_matching_halfedge.length := opp_lt_of_even h0 _ hlen hlt
  by_cases hj1 : j = h0
  · subst hj1
    rw [label_setLabel_self _ _ _ (by rw [setLabel_length]; exact hopplt)]
    rw [label_setLabel_ne _ _ _ _ (opp_ne j), label_setLabel_self _ _ _ hlt]
  · by_cases hj2 : j = opp h0
    · subst hj2
      rw [opp_opp]
      rw [label_setLabel_ne _ _ _ _ (opp_ne h0), label_setLabel_self _ _ _ hlt]
      rw [label_setLabel_self _ _ _ (by rw [setLabel_length]; exact hopplt)]
      cases x with
      | none => rfl
      | some v => simp
    · have hoppne1 : opp j ≠ h0 := by
        intro hc
        apply hj2
        rw [← hc, opp_opp]
      have hoppne2 : opp j ≠ opp h0 := by
        intro hc
        exact hj1 (opp_inj _ _ hc)
      rw [label_setLabel_ne _ _ _ _ (Ne.symm hoppne2), label_setLabel_ne _ _ _ _ (Ne.symm hoppne1)]
      rw [label_setLabel_ne _ _ _ _ (fun hc => hj2 hc.symm),
        label_setLabel_ne _ _ _ _ (fun hc => hj1 hc.symm)]
      exact hsym j

/-- Appending `none` labels to an even-length symmetric label arena keeps it
symmetric. -/
theorem sym_append_none (em em2 : Embedding) (k : ℕ)
    (hlab : em2.t_matching_halfedge = em.t_matching_halfedge ++ List.replicate k none)
    (heven : em.t_matching_halfedge.length % 2 = 0)
    (hsym : labelsSymmetric em) :
    labelsSymmetric em2 := by
  intro j
  have hnone : ∀ i, em.t_matching_halfedge.length ≤ i → label em2 i = none := by
    intro i hi
    unfold label
    rw [hlab, List.get?_eq_getElem?, List.getElem?_append_right hi, List.getElem?_replicate]
    split <;> rfl
  by_cases hj : j < em.t_matching_halfedge.length
  · have hoppj : opp j < em.t_matching_halfedge.length := opp_lt_of_even j _ heven hj
    have hget : ∀ i, i < em.t_matching_halfedge.length → label em2 i = label em i := by
      intro i hi
      unfold label
      rw [hlab, List.get?_eq_getElem?, List.getElem?_append_left hi, ← List.get?_eq_getElem?]
    rw [hget _ hoppj, hget _ hj]
    exact hsym j
  · rw [hnone j (by omega), hnone (opp j) (opp_ge_of_even j _ heven (by omega))]
    rfl

/-- `em_split` preserves label symmetry (the appended halfedge labels default
to invalid). -/
theorem em_split_pres_sym (em : Embedding) (e : ℕ) (em2 : Embedding) (w : ℕ)
    (hwf : em.WF) (hs : em_split em e = some (em2, w))
    (hsym : labelsSymmetric em) : labelsSymmetric em2 := by
  unfold em_split at hs
  cases hsp : split_and_triangulate em.t_m e with
  | none => rw [hsp] at hs; exact absurd hs (by simp)
  | some mw =>
    obtain ⟨m2, w2⟩ := mw
    rw [hsp] at hs
    simp only [Option.some.injEq, Prod.mk.injEq] at hs
    obtain ⟨hm2, hw⟩ := hs
    subst hm2
    exact sym_append_none em _ _ rfl (by rw [hwf.2.1]; omega) hsym

/-- The split loop of `embed_path` preserves label symmetry and
well-formedness. -/
theorem materialize_pres_sym :
    ∀ (path : VirtualPath) (em em2 : Embedding) (vp : List ℕ),
      em.WF → materialize em path = some (em2, vp) → labelsSymmetric em →
      labelsSymmetric em2 ∧ em2.WF := by
  intro path
  induction path with
  | nil =>
    intro em em2 vp hwf hmat hsym
    unfold materialize at hmat
    simp only [Option.some.injEq, Prod.mk.injEq] at hmat
    obtain ⟨h1, _⟩ := hmat
    subst h1
    exact ⟨hsym, hwf⟩
  | cons vv rest ih =>
    intro em em2 vp hwf hmat hsym
    cases vv with
    | rv v =>
      unfold materialize at hmat
      cases hrec : materialize em rest with
      | none => rw [hrec] at hmat; exact absurd hmat (by simp)
      | some p =>
        obtain ⟨em2r, vs⟩ := p
        rw [hrec] at hmat
        simp only [Option.some.injEq, Prod.mk.injEq] at hmat
        obtain ⟨h1, _⟩ := hmat
        subst h1
        exact ih em em2r vs hwf hrec hsym
    | re e =>
      unfold materialize at hmat
      cases hget : em.t_m.edges.get? e with
      | none => rw [hget] at hmat; exact absurd hmat (by simp)
      | some ab =>
        obtain ⟨a, b⟩ := ab
        rw [hget] at hmat
        dsimp only at hmat
        cases hsp : em_split em e with
        | none => rw [hsp] at hmat; exact absurd hmat (by simp)
        | some ew =>
          obtain ⟨emS, w⟩ := ew
          rw [hsp] at hmat
          dsimp only at hmat
          cases hrec : materialize
              (setPos emS w (mix (element_pos_v em a) (element_pos_v em b) Frac.half)) rest with
          | none => rw [hrec] at hmat; exact absurd hmat (by simp)
          | some p =>
            obtain ⟨em2r, vs⟩ := p
            rw [hrec] at hmat
            simp only [Option.some.injEq, Prod.mk.injEq] at hmat
            obtain ⟨h1, _⟩ := hmat
            subst h1
            obtain ⟨hw, hSwf, _⟩ := em_split_spec em e emS w hwf hsp
            have hSsym : labelsSymmetric emS := em_split_pres_sym em e emS w hwf hsp hsym
            set emP := setPos emS w (mix (element_pos_v em a) (element_pos_v em b) Frac.half)
              with hemP
            have hPwf : emP.WF := by
              obtain ⟨⟨w1, w2, w3⟩, w4, w5⟩ := hSwf
              exact ⟨⟨by rw [hemP]; unfold setPos; dsimp only; rw [List.length_set]; exact w1,
                w2, w3⟩, w4, w5⟩
            have hPsym : labelsSymmetric emP := hSsym
            exact ih emP em2r vs hPwf hrec hPsym

/-- The labelling loop of `embed_path` preserves label symmetry. -/
theorem label_chain_pres_sym (lhe : LHe) :
    ∀ (vs : List ℕ) (em em2 : Embedding), label_chain lhe em vs = some em2 →
      em.t_matching_halfedge.length = 2 * em.t_m.edges.length →
      labelsSymmetric em → labelsSymmetric em2 := by
  intro vs
  induction vs with
  | nil =>
    intro em em2 hs hlen hsym
    unfold label_chain at hs
    injection hs with hs
    subst hs
    exact hsym
  | cons u tail ih =>
    intro em em2 hs hlen hsym
    cases tail with
    | nil =>
      unfold label_chain at hs
      injection hs with hs
      subst hs
      exact hsym
    | cons v rest =>
      unfold label_chain at hs
      cases hft : halfedge_from_to em.t_m u v with
      | none => rw [hft] at hs; exact absurd hs (by simp)
      | some h0 =>
        rw [hft] at hs
        dsimp only at hs
        have hh0lt : h0 < em.t_matching_halfedge.length := by
          obtain ⟨hlt, _⟩ := halfedge_from_to_spec em.t_m u v h0 hft
          omega
        have hsym2 := sym_write_pair em h0 (some lhe) hsym (by omega) hh0lt
        exact ih _ em2 hs (by rw [setLabel_length, setLabel_length, hlen]; rfl) hsym2

/-- The clearing loop of `unembed_path` preserves label symmetry. -/
theorem clear_chain_pres_sym (lhe : LHe) :
    ∀ (vs : List ℕ) (em em2 : Embedding), clear_chain lhe em vs = some em2 →
      em.t_matching_halfedge.length = 2 * em.t_m.edges.length →
      labelsSymmetric em → labelsSymmetric em2 := by
  intro vs
  induction vs with
  | nil =>
    intro em em2 hs hlen hsym
    unfold clear_chain at hs
    injection hs with hs
    subst hs
    exact hsym
  | cons u tail ih =>
    intro em em2 hs hlen hsym
    cases tail with
    | nil =>
      unfold clear_chain at hs
      injection hs with hs
      subst hs
      exact hsym
    | cons v rest =>
      unfold clear_chain at hs
      cases hft : halfedge_from_to em.t_m u v with
      | none => rw [hft] at hs; exact absurd hs (by simp)
      | some h0 =>
        rw [hft] at hs
        dsimp only at hs
        by_cases hguard : label em h0 = some lhe ∧ label em (opp h0) = some lhe.swap
        · rw [if_pos hguard] at hs
          have hh0lt : h0 < em.t_matching_halfedge.length := by
            obtain ⟨hlt, _⟩ := halfedge_from_to_spec em.t_m u v h0 hft
            omega
          have hsym2 := sym_write_pair em h0 none hsym (by omega) hh0lt
          exact ih _ em2 hs (by rw [setLabel_length, setLabel_length, hlen]; rfl) hsym2
        · rw [if_neg hguard] at hs
          exact absurd hs (by simp)

/-- A halfedge with a valid label is in range of the label arena. -/
theorem lt_of_label_some (em : Embedding) (h : ℕ) (x : LHe)
    (hx : label em h = some x) : h < em.t_matching_halfedge.length := by
  by_contra hc
  push_neg at hc
  unfold label at hx
  rw [List.get?_eq_none.mpr hc] at hx
  simp at hx

/-- Frame lemma for the clearing loop of `unembed_path`: only
matching-halfedge labels change, only at the two directions of the walked
chain halfedges, and cleared (invalid) labels stay cleared. -/
theorem clear_chain_frame (lhe : LHe) :
    ∀ (vs : List ℕ) (em em2 : Embedding), clear_chain lhe em vs = some em2 →
      em2.t_m = em.t_m ∧ em2.l_m = em.l_m ∧
      em2.l_matching_vertex = em.l_matching_vertex ∧
      em2.t_matching_vertex = em.t_matching_vertex ∧
      em2.path_length_norm = em.path_length_norm ∧
      em2.t_matching_halfedge.length = em.t_matching_halfedge.length ∧
      (∀ j, (∀ u v h, (u, v) ∈ chainPairs vs → halfedge_from_to em.t_m u v = some h →
          j ≠ h ∧ j ≠ opp h) → label em2 j = label em j) ∧
      (∀ j, label em j = none → label em2 j = none) := by
  intro vs
  induction vs with
  | nil =>
    intro em em2 hs
    unfold clear_chain at hs
    injection hs with hs
    subst hs
    exact ⟨rfl, rfl, rfl, rfl, rfl, rfl, fun j _ => rfl, fun j h => h⟩
  | cons u tail ih =>
    intro em em2 hs
    cases tail with
    | nil =>
      unfold clear_chain at hs
      injection hs with hs
      subst hs
      exact ⟨rfl, rfl, rfl, rfl, rfl, rfl, fun j _ => rfl, fun j h => h⟩
    | cons v rest =>
      unfold clear_chain at hs
      cases hft : halfedge_from_to em.t_m u v with
      | none => rw [hft] at hs; exact absurd hs (by simp)
      | some h0 =>
        rw [hft] at hs
        dsimp only at hs
        by_cases hguard : label em h0 = some lhe ∧ label em (opp h0) = some lhe.swap
        · rw [if_pos hguard] at hs
          set emW := setLabel (setLabel em h0 none) (opp h0) none with hemW
          obtain ⟨f1, f2, f3, f4, f5, f6, f7, f8⟩ := ih emW em2 hs
          have hWt : emW.t_m = em.t_m := rfl
          refine ⟨by rw [f1, hWt], by rw [f2]; rfl, by rw [f3]; rfl, by rw [f4]; rfl,
            by rw [f5]; rfl, by rw [f6, hemW, setLabel_length, setLabel_length], ?_, ?_⟩
          · intro j hj
            have hj2 : ∀ u2 v2 h2, (u2, v2) ∈ chainPairs (v :: rest) →
                halfedge_from_to emW.t_m u2 v2 = some h2 → j ≠ h2 ∧ j ≠ opp h2 := by
              intro u2 v2 h2 hmem hft2
              rw [hWt] at hft2
              exact hj u2 v2 h2 (by rw [chainPairs_cons]; exact List.mem_cons_of_mem _ hmem) hft2
            rw [f7 j hj2]
            obtain ⟨hne1, hne2⟩ :=
              hj u v h0 (by rw [chainPairs_cons]; exact List.mem_cons_self _ _) hft
            rw [hemW, label_setLabel_ne _ _ _ _ (Ne.symm hne2),
              label_setLabel_ne _ _ _ _ (Ne.symm hne1)]
          · intro j hjn
            apply f8
            rw [hemW]
            have hh0lt : h0 < em.t_matching_halfedge.length :=
              lt_of_label_some em h0 lhe hguard.1
            have hopplt : opp h0 < em.t_matching_halfedge.length :=
              lt_of_label_some em (opp h0) lhe.swap hguard.2
            by_cases hj1 : opp h0 = j
            · rw [← hj1, label_setLabel_self _ _ _ (by rw [setLabel_length]; exact hopplt)]
            · rw [label_setLabel_ne _ _ _ _ hj1]
              by_cases hj2 : h0 = j
              · rw [← hj2, label_setLabel_self _ _ _ hh0lt]
              · rw [label_setLabel_ne _ _ _ _ hj2]
                exact hjn
        · rw [if_neg hguard] at hs
          exact absurd hs (by simp)

/-- The clearing loop clears every chain halfedge in both directions. -/
theorem clear_chain_clears (lhe : LHe) :
    ∀ (vs : List ℕ) (em em2 : Embedding), clear_chain lhe em vs = some em2 →
      ∀ u v, (u, v) ∈ chainPairs vs → ∃ h, halfedge_from_to em.t_m u v = some h ∧
        label em2 h = none ∧ label em2 (opp h) = none := by
  intro vs
  induction vs with
  | nil =>
    intro em em2 hs u v hmem
    simp [chainPairs] at hmem
  | cons u0 tail ih =>
    intro em em2 hs u v hmem
    cases tail with
    | nil => simp [chainPairs] at hmem
    | cons v0 rest =>
      unfold clear_chain at hs
      cases hft : halfedge_from_to em.t_m u0 v0 with
      | none => rw [hft] at hs; exact absurd hs (by simp)
      | some h0 =>
        rw [hft] at hs
        dsimp only at hs
        by_cases hguard : label em h0 = some lhe ∧ label em (opp h0) = some lhe.swap
        · rw [if_pos hguard] at hs
          set emW := setLabel (setLabel em h0 none) (opp h0) none with hemW
          have hWt : emW.t_m = em.t_m := rfl
          have hh0lt : h0 < em.t_matching_halfedge.length :=
            lt_of_label_some em h0 lhe hguard.1
          have hopplt : opp h0 < em.t_matching_halfedge.length :=
            lt_of_label_some em (opp h0) lhe.swap hguard.2
          have hWh0 : label emW h0 = none := by
            rw [hemW, label_setLabel_ne _ _ _ _ (opp_ne h0), label_setLabel_self _ _ _ hh0lt]
          have hWopp : label emW (opp h0) = none := by
            rw [hemW, label_setLabel_self _ _ _ (by rw [setLabel_length]; exact hopplt)]
          obtain ⟨f1, f2, f3, f4, f5, f6, f7, f8⟩ := clear_chain_frame lhe (v0 :: rest) emW em2 hs
          rw [chainPairs_cons] at hmem
          rcases List.mem_cons.mp hmem with hmem | hmem
          · injection hmem with hu hv
            subst hu hv
            exact ⟨h0, hft, f8 h0 hWh0, f8 (opp h0) hWopp⟩
          · have := ih emW em2 hs u v hmem
            rw [hWt] at this
            exact this
        · rw [if_neg hguard] at hs
          exact absurd hs (by simp)

/-- A label arena that is all-`none` (freshly initialised) reads `none`
everywhere. -/
theorem label_replicate_none (em : Embedding) (n : ℕ)
    (hrep : em.t_matching_halfedge = List.replicate n none) : ∀ h, label em h = none := by
  intro h
  unfold label
  rw [hrep, List.get?_eq_getElem?, List.getElem?_replicate]
  split <;> rfl

/-- `embed_path` preserves well-formedness and label symmetry. -/
theorem embed_path_pres (em em2 : Embedding) (lhe : LHe) (path : VirtualPath)
    (hwf : em.WF) (hsym : labelsSymmetric em)
    (hs : embed_path em lhe path = some em2) :
    em2.WF ∧ labelsSymmetric em2 := by
  unfold embed_path at hs
  by_cases h1 : (get_embedded_target_halfedge em lhe).isSome
  · rw [if_pos h1] at hs
    exact absurd hs (by simp)
  · rw [if_neg h1] at hs
    by_cases h2 : path.length < 2
    · rw [if_pos h2] at hs
      exact absurd hs (by simp)
    · rw [if_neg h2] at hs
      cases hmat : materialize em path with
      | none => rw [hmat] at hs; exact absurd hs (by simp)
      | some p =>
        obtain ⟨emM, vp⟩ := p
        rw [hmat] at hs
        dsimp only at hs
        obtain ⟨hMsym, hMwf⟩ := materialize_pres_sym path em emM vp hwf hmat hsym
        obtain ⟨f1, f2, f3, f4, f5, f6, f7⟩ := label_chain_frame lhe vp emM em2 hs
        refine ⟨⟨by rw [f1]; exact hMwf.1, ?_, ?_⟩, ?_⟩
        · rw [f6, f1, hMwf.2.1]
        · rw [f4, f1, hMwf.2.2]
        · exact label_chain_pres_sym lhe vp emM em2 hs hMwf.2.1 hMsym

/-- `unembed_path` preserves well-formedness and label symmetry. -/
theorem unembed_path_pres (em em2 : Embedding) (lhe : LHe)
    (hwf : em.WF) (hsym : labelsSymmetric em)
    (hs : unembed_path em lhe = some em2) :
    em2.WF ∧ labelsSymmetric em2 := by
  unfold unembed_path at hs
  cases hq : get_embedded_path em lhe with
  | none => rw [hq] at hs; exact absurd hs (by simp)
  | some q =>
    rw [hq] at hs
    dsimp only at hs
    obtain ⟨f1, f2, f3, f4, f5, f6, f7, f8⟩ := clear_chain_frame lhe q em em2 hs
    refine ⟨⟨by rw [f1]; exact hwf.1, ?_, ?_⟩, ?_⟩
    · rw [f6, f1, hwf.2.1]
    · rw [f4, f1, hwf.2.2]
    · exact clear_chain_pres_sym lhe q em em2 hs hwf.2.1 hsym

/-- Any successful run of `embed_path` / `unembed_path` operations preserves
well-formedness and label symmetry. -/
theorem runOps_pres (ops : List EmbedOp) :
    ∀ em em2, em.WF → labelsSymmetric em → runOps em ops = some em2 →
      em2.WF ∧ labelsSymmetric em2 := by
  induction ops with
  | nil =>
    intro em em2 hwf hsym hrun
    unfold runOps at hrun
    injection hrun with hrun
    subst hrun
    exact ⟨hwf, hsym⟩
  | cons op rest ih =>
    intro em em2 hwf hsym hrun
    cases op with
    | embedOp lhe path =>
      unfold runOps at hrun
      cases hstep : embed_path em lhe path with
      | none => rw [hstep] at hrun; exact absurd hrun (by simp)
      | some emN =>
        rw [hstep] at hrun
        obtain ⟨hwf2, hsym2⟩ := embed_path_pres em emN lhe path hwf hsym hstep
        exact ih emN em2 hwf2 hsym2 hrun
    | unembedOp lhe =>
      unfold runOps at hrun
      cases hstep : unembed_path em lhe with
      | none => rw [hstep] at hrun; exact absurd hrun (by simp)
      | some emN =>
        rw [hstep] at hrun
        obtain ⟨hwf2, hsym2⟩ := unembed_path_pres em emN lhe hwf hsym hstep
        exact ih emN em2 hwf2 hsym2 hrun

/-- C10, counterexample: over `fanMesh` with three landmarks (targets `0`,
`3`, `1`), embedding layout halfedge `(0,1)` along the landmark-to-landmark
virtual path `[1, 3]` — which ends at `(0,1)`'s opposite matched landmark `3`
but starts at the landmark of a DIFFERENT layout vertex — satisfies
`embed_path`'s asserted preconditions and succeeds, yet afterwards
`is_embedded (0,1)` is false while `is_embedded (1,0)` is true: the claimed
equivalence `is_embedded h ↔ is_embedded h.opposite` fails (the label
symmetry itself does hold, see `C10_labels_symmetric`). -/
theorem C10_counterexample :
    (∀ h, label fanEm3L h = none) ∧
    runOps fanEm3L [.embedOp (0, 1) [.rv 1, .rv 3]] = some fanEm3LX ∧
    is_embedded fanEm3LX (0, 1) = false ∧
    is_embedded fanEm3LX (1, 0) = true := by
  refine ⟨label_replicate_none fanEm3L 10 rfl, by decide, by decide, by decide⟩

/-- C10 (amended): after any successful sequence of `embed_path` and
`unembed_path` operations starting from a freshly initialised (all labels
invalid) well-formed embedding state, the matching-halfedge labels are
opposite-symmetric: a target halfedge carries layout halfedge `h` as its
label if and only if its opposite target halfedge carries `h.opposite`. The
further consequence claimed for `is_embedded` does NOT follow in general
(see `C10_counterexample`); it requires every embedded path to run between
the halfedge's own matched landmarks. -/
theorem C10_labels_symmetric (em0 em2 : Embedding) (ops : List EmbedOp)
    (hwf : em0.WF)
    (hfresh : ∀ h, label em0 h = none)
    (hrun : runOps em0 ops = some em2) :
    labelsSymmetric em2 :=
  (runOps_pres ops em0 em2 hwf (fun h => by rw [hfresh (opp h), hfresh h]; rfl) hrun).2

/-- Witness for `C10_labels_symmetric`: the state reached by the embedding
run of the counterexample instance has opposite-symmetric labels. -/
theorem C10_labels_symmetric_witness : labelsSymmetric fanEm3LX :=
  C10_labels_symmetric fanEm3L fanEm3LX [.embedOp (0, 1) [.rv 1, .rv 3]]
    (by decide) (label_replicate_none fanEm3L 10 rfl) (by decide)

/-- `split_and_triangulate` only grows the arenas. -/
theorem split_mono (m : TargetMesh) (e : ℕ) (m2 : TargetMesh) (w : ℕ)
    (hs : split_and_triangulate m e = some (m2, w)) :
    m.nverts ≤ m2.nverts ∧ m.pos.length ≤ m2.pos.length ∧
    m.edges.length ≤ m2.edges.length := by
  unfold split_and_triangulate at hs
  cases hget : m.edges.get? e with
  | none => rw [hget] at hs; exact absurd hs (by simp)
  | some ab =>
    obtain ⟨a, b⟩ := ab
    rw [hget] at hs
    simp only [Option.some.injEq, Prod.mk.injEq] at hs
    obtain ⟨hm2, _⟩ := hs
    subst hm2
    refine ⟨by dsimp only; omega, by simp, ?_⟩
    dsimp only
    simp only [List.length_append, List.length_set]
    omega

/-- The split loop of `embed_path` only grows the target arenas. -/
theorem materialize_mono :
    ∀ (path : VirtualPath) (em em2 : Embedding) (vp : List ℕ),
      materialize em path = some (em2, vp) →
      em.t_m.nverts ≤ em2.t_m.nverts ∧ em.t_m.pos.length ≤ em2.t_m.pos.length ∧
      em.t_m.edges.length ≤ em2.t_m.edges.length := by
  intro path
  induction path with
  | nil =>
    intro em em2 vp hmat
    unfold materialize at hmat
    simp only [Option.some.injEq, Prod.mk.injEq] at hmat
    obtain ⟨h1, _⟩ := hmat
    subst h1
    exact ⟨le_refl _, le_refl _, le_refl _⟩
  | cons vv rest ih =>
    intro em em2 vp hmat
    cases vv with
    | rv v =>
      unfold materialize at hmat
      cases hrec : materialize em rest with
      | none => rw [hrec] at hmat; exact absurd hmat (by simp)
      | some p =>
        obtain ⟨em2r, vs⟩ := p
        rw [hrec] at hmat
        simp only [Option.some.injEq, Prod.mk.injEq] at hmat
        obtain ⟨h1, _⟩ := hmat
        subst h1
        exact ih em em2r vs hrec
    | re e =>
      unfold materialize at hmat
      cases hget : em.t_m.edges.get? e with
      | none => rw [hget] at hmat; exact absurd hmat (by simp)
      | some ab =>
        obtain ⟨a, b⟩ := ab
        rw [hget] at hmat
        dsimp only at hmat
        cases hsp : em_split em e with
        | none => rw [hsp] at hmat; exact absurd hmat (by simp)
        | some ew =>
          obtain ⟨emS, w⟩ := ew
          rw [hsp] at hmat
          dsimp only at hmat
          cases hrec : materialize
              (setPos emS w (mix (element_pos_v em a) (element_pos_v em b) Frac.half)) rest with
          | none => rw [hrec] at hmat; exact absurd hmat (by simp)
          | some p =>
            obtain ⟨em2r, vs⟩ := p
            rw [hrec] at hmat
            simp only [Option.some.injEq, Prod.mk.injEq] at hmat
            obtain ⟨h1, _⟩ := hmat
            subst h1
            have hS : em.t_m.nverts ≤ emS.t_m.nverts ∧
                em.t_m.pos.length ≤ emS.t_m.pos.length ∧
                em.t_m.edges.length ≤ emS.t_m.edges.length := by
              unfold em_split at hsp
              cases hsp2 : split_and_triangulate em.t_m e with
              | none => rw [hsp2] at hsp; exact absurd hsp (by simp)
              | some mw =>
                obtain ⟨m2, w2⟩ := mw
                rw [hsp2] at hsp
                simp only [Option.some.injEq, Prod.mk.injEq] at hsp
                obtain ⟨hm2, _⟩ := hsp
                subst hm2
                exact split_mono em.t_m e m2 w2 hsp2
            obtain ⟨r1, r2, r3⟩ :=
              ih (setPos emS w (mix (element_pos_v em a) (element_pos_v em b) Frac.half))
                em2r vs hrec
            unfold setPos at r1 r2 r3
            dsimp only at r1 r2 r3
            rw [List.length_set] at r2
            exact ⟨by omega, by omega, by omega⟩

/-- C7: `unembed_path` only clears matching-halfedge labels — the target
mesh (its vertex, position and edge arenas) is left entirely unchanged, and
both directions of every halfedge of the walked chain are invalid afterwards;
and the only other mutating operation, `embed_path`, never removes target
vertices or edges (the arenas grow monotonically, with every existing handle
preserved — see `split_spec` for handle preservation under splits). -/
theorem C7_unembed_label_only :
    (∀ em lhe em', unembed_path em lhe = some em' →
      em'.t_m = em.t_m ∧
      ∀ q, get_embedded_path em lhe = some q →
        ∀ u v, (u, v) ∈ chainPairs q → ∃ h, halfedge_from_to em.t_m u v = some h ∧
          label em' h = none ∧ label em' (opp h) = none) ∧
    (∀ em lhe path em', embed_path em lhe path = some em' →
      em.t_m.nverts ≤ em'.t_m.nverts ∧ em.t_m.pos.length ≤ em'.t_m.pos.length ∧
      em.t_m.edges.length ≤ em'.t_m.edges.length) := by
  constructor
  · intro em lhe em' hs
    unfold unembed_path at hs
    cases hq : get_embedded_path em lhe with
    | none => rw [hq] at hs; exact absurd hs (by simp)
    | some q0 =>
      rw [hq] at hs
      dsimp only at hs
      obtain ⟨f1, _, _, _, _, _, _, _⟩ := clear_chain_frame lhe q0 em em' hs
      refine ⟨f1, ?_⟩
      intro q hq2 u v hmem
      injection hq2 with hq2
      subst hq2
      exact clear_chain_clears lhe q0 em em' hs u v hmem
  · intro em lhe path em' hs
    unfold embed_path at hs
    by_cases h1 : (get_embedded_target_halfedge em lhe).isSome
    · rw [if_pos h1] at hs
      exact absurd hs (by simp)
    · rw [if_neg h1] at hs
      by_cases h2 : path.length < 2
      · rw [if_pos h2] at hs
        exact absurd hs (by simp)
      · rw [if_neg h2] at hs
        cases hmat : materialize em path with
        | none => rw [hmat] at hs; exact absurd hs (by simp)
        | some p =>
          obtain ⟨emM, vp⟩ := p
          rw [hmat] at hs
          dsimp only at hs
          obtain ⟨r1, r2, r3⟩ := materialize_mono path em emM vp hmat
          obtain ⟨f1, _, _, _, _, _, _⟩ := label_chain_frame lhe vp emM em' hs
          rw [f1]
          exact ⟨r1, r2, r3⟩

/-- Witness for `C7_unembed_label_only` on the tetrahedron instance: the
unembed leaves the (subdivided) target mesh intact, and the embed only grew
the arenas. -/
theorem C7_unembed_label_only_witness :
    tetraEmU.t_m = tetraEm1.t_m ∧
    (tetraEm.t_m.nverts ≤ tetraEm1.t_m.nverts ∧
     tetraEm.t_m.pos.length ≤ tetraEm1.t_m.pos.length ∧
     tetraEm.t_m.edges.length ≤ tetraEm1.t_m.edges.length) :=
  ⟨(C7_unembed_label_only.1 tetraEm1 (0, 1) tetraEmU (by decide)).1,
   C7_unembed_label_only.2 tetraEm (0, 1) tetraPath tetraEm1 (by decide)⟩

/-- On a vertex-only virtual path the split loop is the identity on the
state and just projects the vertex ids. -/
theorem materialize_vertex_only :
    ∀ (path : VirtualPath) (em : Embedding), (∀ vv ∈ path, is_real_vertex vv = true) →
      materialize em path = some (em, projVs path) := by
  intro path
  induction path with
  | nil => intro em _; rfl
  | cons vv rest ih =>
    intro em hvo
    cases vv with
    | rv v =>
      unfold materialize
      rw [ih em (fun vv2 hm => hvo vv2 (List.mem_cons_of_mem _ hm))]
      rfl
    | re e =>
      exact absurd (hvo (.re e) (List.mem_cons_self _ _)) (by simp [is_real_vertex])

/-- Soundness of the clearing loop's assertions: every chain halfedge of a
successfully cleared chain carried the layout halfedge's label (and its
opposite the opposite label) in the starting state. -/
theorem clear_chain_sound (lhe : LHe) :
    ∀ (vs : List ℕ) (em em2 : Embedding), clear_chain lhe em vs = some em2 →
      ∀ u v, (u, v) ∈ chainPairs vs → ∃ h, halfedge_from_to em.t_m u v = some h ∧
        label em h = some lhe ∧ label em (opp h) = some lhe.swap := by
  intro vs
  induction vs with
  | nil =>
    intro em em2 hs u v hmem
    simp [chainPairs] at hmem
  | cons u0 tail ih =>
    intro em em2 hs u v hmem
    cases tail with
    | nil => simp [chainPairs] at hmem
    | cons v0 rest =>
      unfold clear_chain at hs
      cases hft : halfedge_from_to em.t_m u0 v0 with
      | none => rw [hft] at hs; exact absurd hs (by simp)
      | some h0 =>
        rw [hft] at hs
        dsimp only at hs
        by_cases hguard : label em h0 = some lhe ∧ label em (opp h0) = some lhe.swap
        · rw [if_pos hguard] at hs
          set emW := setLabel (setLabel em h0 none) (opp h0) none with hemW
          have hWt : emW.t_m = em.t_m := rfl
          rw [chainPairs_cons] at hmem
          rcases List.mem_cons.mp hmem with hmem | hmem
          · injection hmem with hu hv
            subst hu hv
            exact ⟨h0, hft, hguard⟩
          · obtain ⟨h2, hft2, hl2, hl3⟩ := ih emW em2 hs u v hmem
            rw [hWt] at hft2
            have htrans : ∀ x value, label emW x = some value → label em x = some value := by
              intro x value hx
              rw [hemW] at hx
              by_cases hx1 : opp h0 = x
              · rw [← hx1, label_setLabel_self _ _ _
                  (by rw [setLabel_length]
                      exact lt_of_label_some em (opp h0) lhe.swap hguard.2)] at hx
                exact absurd hx (by simp)
              · rw [label_setLabel_ne _ _ _ _ hx1] at hx
                by_cases hx2 : h0 = x
                · rw [← hx2, label_setLabel_self _ _ _
                    (lt_of_label_some em h0 lhe hguard.1)] at hx
                  exact absurd hx (by simp)
                · rw [label_setLabel_ne _ _ _ _ hx2] at hx
                  exact hx
            exact ⟨h2, hft2, htrans h2 lhe hl2, htrans (opp h2) lhe.swap hl3⟩
        · rw [if_neg hguard] at hs
          exact absurd hs (by simp)

/-- The labelling loop writes deterministic values at every written handle:
two runs over the same mesh from states that agree off the written handles
produce states that agree everywhere. -/
theorem label_chain_det (lhe : LHe) :
    ∀ (vs : List ℕ) (s s' t t' : Embedding),
      s.t_m = s'.t_m →
      s.t_matching_halfedge.length = s'.t_matching_halfedge.length →
      s.t_matching_halfedge.length = 2 * s.t_m.edges.length →
      label_chain lhe s vs = some t → label_chain lhe s' vs = some t' →
      ∀ j, (label s j = label s' j ∨ inWritten s.t_m vs j) → label t j = label t' j := by
  intro vs
  induction vs with
  | nil =>
    intro s s' t t' hm hlen h2e hs hs' j hj
    unfold label_chain at hs hs'
    injection hs with hs
    injection hs' with hs'
    subst hs hs'
    rcases hj with hj | hj
    · exact hj
    · obtain ⟨u, v, h, hmem, _⟩ := hj
      simp [chainPairs] at hmem
  | cons u0 tail ih =>
    intro s s' t t' hm hlen h2e hs hs' j hj
    cases tail with
    | nil =>
      unfold label_chain at hs hs'
      injection hs with hs
      injection hs' with hs'
      subst hs hs'
      rcases hj with hj | hj
      · exact hj
      · obtain ⟨u, v, h, hmem, _⟩ := hj
        simp [chainPairs] at hmem
    | cons v0 rest =>
      unfold label_chain at hs hs'
      cases hft : halfedge_from_to s.t_m u0 v0 with
      | none => rw [hft] at hs; exact absurd hs (by simp)
      | some h0 =>
        rw [hft] at hs
        rw [← hm, hft] at hs'
        dsimp only at hs hs'
        set sW := setLabel (setLabel s h0 (some lhe)) (opp h0) (some lhe.swap) with hsW
        set sW' := setLabel (setLabel s' h0 (some lhe)) (opp h0) (some lhe.swap) with hsW'
        have hWm : sW.t_m = sW'.t_m := hm
        have hWlen : sW.t_matching_halfedge.length = sW'.t_matching_halfedge.length := by
          rw [hsW, hsW', setLabel_length, setLabel_length, setLabel_length, setLabel_length]
          exact hlen
        have hW2e : sW.t_matching_halfedge.length = 2 * sW.t_m.edges.length := by
          rw [hsW, setLabel_length, setLabel_length]
          exact h2e
        have hh0lt : h0 < s.t_matching_halfedge.length := by
          obtain ⟨hlt, _⟩ := halfedge_from_to_spec s.t_m u0 v0 h0 hft
          omega
        have hopplt : opp h0 < s.t_matching_halfedge.length :=
          opp_lt_of_even h0 _ (by omega) hh0lt
        have hagree : ∀ x, label s x = label s' x → label sW x = label sW' x := by
          intro x hx
          rw [hsW, hsW']
          by_cases hx1 : opp h0 = x
          · rw [← hx1,
              label_setLabel_self _ _ _ (by rw [setLabel_length]; exact hopplt),
              label_setLabel_self _ _ _ (by rw [setLabel_length]; omega)]
          · rw [label_setLabel_ne _ _ _ _ hx1, label_setLabel_ne _ _ _ _ hx1]
            by_cases hx2 : h0 = x
            · rw [← hx2, label_setLabel_self _ _ _ hh0lt,
                label_setLabel_self _ _ _ (by omega)]
            · rw [label_setLabel_ne _ _ _ _ hx2, label_setLabel_ne _ _ _ _ hx2]
              exact hx
        have hwritepair : label sW h0 = label sW' h0 ∧ label sW (opp h0) = label sW' (opp h0) := by
          constructor
          · rw [hsW, hsW', label_setLabel_ne _ _ _ _ (opp_ne h0),
              label_setLabel_ne _ _ _ _ (opp_ne h0),
              label_setLabel_self _ _ _ hh0lt, label_setLabel_self _ _ _ (by omega)]
          · rw [hsW, hsW',
              label_setLabel_self _ _ _ (by rw [setLabel_length]; exact hopplt),
              label_setLabel_self _ _ _ (by rw [setLabel_length]; omega)]
        rcases hj with hj | hj
        · exact ih sW sW' t t' hWm hWlen hW2e hs hs' j (Or.inl (hagree j hj))
        · obtain ⟨u, v, h, hmem, hfth, hjh⟩ := hj
          rw [chainPairs_cons] at hmem
          rcases List.mem_cons.mp hmem with hmem | hmem
          · injection hmem with hu hv
            subst hu hv
            rw [hfth] at hft
            injection hft with hft
            subst hft
            rcases hjh with hjh | hjh <;> subst hjh
            · exact ih sW sW' t t' hWm hWlen hW2e hs hs' _ (Or.inl hwritepair.1)
            · exact ih sW sW' t t' hWm hWlen hW2e hs hs' _ (Or.inl hwritepair.2)
          · exact ih sW sW' t t' hWm hWlen hW2e hs hs' j
              (Or.inr ⟨u, v, h, hmem, hfth, hjh⟩)

/-- Two embedding states with equal fields are equal. -/
theorem Embedding.eq_of_fields (x y : Embedding)
    (h1 : x.l_m = y.l_m) (h2 : x.t_m = y.t_m)
    (h3 : x.l_matching_vertex = y.l_matching_vertex)
    (h4 : x.t_matching_vertex = y.t_matching_vertex)
    (h5 : x.t_matching_halfedge = y.t_matching_halfedge)
    (h6 : x.path_length_norm = y.path_length_norm) : x = y := by
  cases x
  cases y
  dsimp only at h1 h2 h3 h4 h5 h6
  subst h1 h2 h3 h4 h5 h6
  rfl

/-- C6 (amended): for a virtual path consisting only of real vertices (no
edge-valued virtual vertices, so no re-splitting occurs), and provided the
layout halfedge's labels are absent from the starting state (as they are in
any state where the halfedge has never been embedded or was fully
unembedded), `embed_path` then `unembed_path` then `embed_path` with the same
path is idempotent: the final state — matching-halfedge labels included —
equals the state after the first `embed_path`. The counterexample
`C6_counterexample` shows the original claim fails as soon as the path holds
an edge-valued virtual vertex, because the second `embed_path` splits the
(re-pointed) edge handle again and labels a different chain. -/
theorem C6_embed_unembed_embed (em em1 em2 em3 : Embedding) (lhe : LHe) (path : VirtualPath)
    (hwf : Embedding.WF em)
    (hvo : ∀ vv ∈ path, is_real_vertex vv = true)
    (hclean : ∀ j, label em j ≠ some lhe ∧ label em j ≠ some lhe.swap)
    (h1 : embed_path em lhe path = some em1)
    (h2 : unembed_path em1 lhe = some em2)
    (h3 : embed_path em2 lhe path = some em3) :
    em3 = em1 := by
  have hmat1 := materialize_vertex_only path em hvo
  have hmat2 := materialize_vertex_only path em2 hvo
  set vp := projVs path with hvp
  have hlab1 : label_chain lhe em vp = some em1 := by
    unfold embed_path at h1
    by_cases g1 : (get_embedded_target_halfedge em lhe).isSome
    · rw [if_pos g1] at h1
      exact absurd h1 (by simp)
    · rw [if_neg g1] at h1
      by_cases g2 : path.length < 2
      · rw [if_pos g2] at h1
        exact absurd h1 (by simp)
      · rw [if_neg g2] at h1
        rw [hmat1] at h1
        exact h1
  have hlab3 : label_chain lhe em2 vp = some em3 := by
    unfold embed_path at h3
    by_cases g1 : (get_embedded_target_halfedge em2 lhe).isSome
    · rw [if_pos g1] at h3
      exact absurd h3 (by simp)
    · rw [if_neg g1] at h3
      by_cases g2 : path.length < 2
      · rw [if_pos g2] at h3
        exact absurd h3 (by simp)
      · rw [if_neg g2] at h3
        rw [hmat2] at h3
        exact h3
  obtain ⟨q, hq, hclear⟩ : ∃ q, get_embedded_path em1 lhe = some q ∧
      clear_chain lhe em1 q = some em2 := by
    unfold unembed_path at h2
    cases hq : get_embedded_path em1 lhe with
    | none => rw [hq] at h2; exact absurd h2 (by simp)
    | some q0 => rw [hq] at h2; exact ⟨q0, rfl, h2⟩
  obtain ⟨a1, a2, a3, a4, a5, a6, a7⟩ := label_chain_frame lhe vp em em1 hlab1
  obtain ⟨b1, b2, b3, b4, b5, b6, b7, b8⟩ := clear_chain_frame lhe q em1 em2 hclear
  obtain ⟨c1, c2, c3, c4, c5, c6, c7⟩ := label_chain_frame lhe vp em2 em3 hlab3
  have hm20 : em2.t_m = em.t_m := by rw [b1, a1]
  have hlen20 : em2.t_matching_halfedge.length = em.t_matching_halfedge.length := by
    rw [b6, a6]
  have h2e : em.t_matching_halfedge.length = 2 * em.t_m.edges.length := hwf.2.1
  have hpoint : ∀ j, label em3 j = label em1 j := by
    intro j
    by_cases hw : inWritten em.t_m vp j
    · exact (label_chain_det lhe vp em em2 em1 em3 hm20.symm hlen20.symm h2e
        hlab1 hlab3 j (Or.inr hw)).symm
    · have hcondq : ∀ u v h, (u, v) ∈ chainPairs q →
          halfedge_from_to em1.t_m u v = some h → j ≠ h ∧ j ≠ opp h := by
        intro u v h hmem hfth
        obtain ⟨h', hft', hl', hlswap'⟩ := clear_chain_sound lhe q em1 em2 hclear u v hmem
        rw [hfth] at hft'
        injection hft' with hft'
        subst hft'
        have hinW : inWritten em.t_m vp h := by
          by_contra hnw
          have hcond2 : ∀ u2 v2 h2, (u2, v2) ∈ chainPairs vp →
              halfedge_from_to em.t_m u2 v2 = some h2 → h ≠ h2 ∧ h ≠ opp h2 := by
            intro u2 v2 h2 hm2 hf2
            exact ⟨fun hc => hnw ⟨u2, v2, h2, hm2, hf2, Or.inl hc⟩,
              fun hc => hnw ⟨u2, v2, h2, hm2, hf2, Or.inr hc⟩⟩
          have hsame := a7 h hcond2
          rw [hsame] at hl'
          exact (hclean h).1 hl'
        constructor
        · intro hc
          subst hc
          exact hw hinW
        · intro hc
          obtain ⟨u2, v2, h2, hm2, hf2, hjh⟩ := hinW
          apply hw
          refine ⟨u2, v2, h2, hm2, hf2, ?_⟩
          rcases hjh with he | he
          · right
            rw [hc, he]
          · left
            rw [hc, he, opp_opp]
      have hcond : ∀ u v h, (u, v) ∈ chainPairs vp →
          halfedge_from_to em2.t_m u v = some h → j ≠ h ∧ j ≠ opp h := by
        intro u v h hmem hfth
        rw [hm20] at hfth
        constructor
        · intro hc
          exact hw ⟨u, v, h, hmem, hfth, Or.inl hc⟩
        · intro hc
          exact hw ⟨u, v, h, hmem, hfth, Or.inr hc⟩
      have e1 : label em3 j = label em2 j := c7 j hcond
      have e2 : label em2 j = label em1 j := b7 j hcondq
      rw [e1, e2]
  have hlen31 : em3.t_matching_halfedge.length = em1.t_matching_halfedge.length := by
    rw [c6, b6]
  have hlisteq : em3.t_matching_halfedge = em1.t_matching_halfedge := by
    apply List.ext_get?
    intro n
    by_cases hn : n < em1.t_matching_halfedge.length
    · cases hx : em3.t_matching_halfedge.get? n with
      | none =>
        exfalso
        have := List.get?_eq_none.mp hx
        omega
      | some x =>
        cases hy : em1.t_matching_halfedge.get? n with
        | none =>
          exfalso
          have := List.get?_eq_none.mp hy
          omega
        | some y =>
          have g3 := hpoint n
          unfold label at g3
          rw [hx, hy] at g3
          simp only [Option.getD_some] at g3
          rw [g3]
    · rw [List.get?_eq_none.mpr (by omega), List.get?_eq_none.mpr (by omega)]
  exact Embedding.eq_of_fields em3 em1 (by rw [c2, b2]) (by rw [c1, b1])
    (by rw [c3, b3]) (by rw [c4, b4]) hlisteq (by rw [c5, b5])

/-- C6, counterexample: over the tetrahedron, embedding the virtual path
`[2, edge (0,1), 3]` splits edge `(0,1)` at a new vertex `4` and labels the
chain `2 → 4 → 3`; unembedding clears those labels; re-embedding the SAME
virtual path splits the (re-pointed) edge handle `0` AGAIN, creating another
vertex `5` and labelling the different chain `2 → 5 → 3`. The final
matching-halfedge label state differs from the state after the first
`embed_path` (even the arena sizes differ), refuting the claimed
idempotence. -/
theorem C6_counterexample :
    embed_path tetraEm (0, 1) tetraPath = some tetraEm1 ∧
    unembed_path tetraEm1 (0, 1) = some tetraEmU ∧
    embed_path tetraEmU (0, 1) tetraPath = some tetraEmR ∧
    tetraEmR.t_matching_halfedge ≠ tetraEm1.t_matching_halfedge ∧
    tetraEmR ≠ tetraEm1 := by
  refine ⟨by decide, by decide, by decide, by decide, by decide⟩

/-- Witness for `C6_embed_unembed_embed`: over `fanMesh` with the vertex-only
path `[0, 1, 3]`, embed-unembed-embed reproduces the first embedded state
exactly. -/
theorem C6_embed_unembed_embed_witness : fanVEm3 = fanVEm1 :=
  C6_embed_unembed_embed fanEm fanVEm1 fanVEm2 fanVEm3 (0, 1) fanVPath
    (by decide) (by decide)
    (fun j => by rw [label_replicate_none fanEm 10 rfl j]; exact ⟨by simp, by simp⟩)
    (by decide) (by decide) (by decide)

/-- A successful label-following walk starts at its start vertex and ends at
the end landmark. -/
theorem walk_endpoints (em : Embedding) (lhe : LHe) (t_v_end : ℕ) :
    ∀ (fuel v : ℕ) (q : List ℕ), walkAux em lhe t_v_end fuel v = some q →
      q.head? = some v ∧ q.getLast? = some t_v_end := by
  intro fuel
  induction fuel with
  | zero => intro v q h; exact absurd h (by simp [walkAux])
  | succ f ih =>
    intro v q h
    unfold walkAux at h
    by_cases hv : v = t_v_end
    · rw [if_pos hv] at h
      injection h with h
      subst h
      subst hv
      exact ⟨rfl, rfl⟩
    · rw [if_neg hv] at h
      cases hf : (outgoing_halfedges em.t_m v).find? (fun h2 => label em h2 = some lhe) with
      | none => rw [hf] at h; exact absurd h (by simp)
      | some h0 =>
        rw [hf] at h
        dsimp only at h
        cases hrec : walkAux em lhe t_v_end f (vertex_to em.t_m h0) with
        | none => rw [hrec] at h; exact absurd h (by simp)
        | some vs =>
          rw [hrec] at h
          injection h with h
          subst h
          obtain ⟨hhd, hlast⟩ := ih (vertex_to em.t_m h0) vs hrec
          refine ⟨rfl, ?_⟩
          cases vs with
          | nil => exact absurd hhd (by simp)
          | cons w vs2 =>
            rw [List.getLast?_cons_cons]
            exact hlast

/-- If every vertex of a set `S` not containing the end landmark steps back
into `S`, the label-following walk never terminates from inside `S`
(regardless of the fuel): the C++ `while` loop runs forever. -/
theorem walk_stuck (em : Embedding) (lhe : LHe) (t_v_end : ℕ) (S : List ℕ)
    (hS : ∀ v ∈ S, v ≠ t_v_end ∧ stepInSet em lhe S v = true) :
    ∀ fuel v, v ∈ S → walkAux em lhe t_v_end fuel v = none := by
  intro fuel
  induction fuel with
  | zero => intro v _; rfl
  | succ f ih =>
    intro v hv
    obtain ⟨hne, hstep⟩ := hS v hv
    unfold walkAux
    rw [if_neg hne]
    unfold stepInSet at hstep
    cases hf : (outgoing_halfedges em.t_m v).find? (fun h => label em h = some lhe) with
    | none => rfl
    | some h0 =>
      rw [hf] at hstep
      dsimp only at hstep ⊢
      rw [ih (vertex_to em.t_m h0) (by simpa using hstep)]

/-- C2, counterexample: `embed_path` accepts (its assertions hold) the
virtual path `[0, 1, 2, 3, 1]`, whose label chain enters the cycle
`1 → 2 → 3 → 1` and never reaches the end landmark `4`. The resulting state
is complete (`is_embedded` only inspects the start landmark), yet
`get_embedded_path` does not return a vertex chain at all: the walk cycles
forever (`none` for every fuel), so the claimed chain with landmark
endpoints does not exist. -/
theorem C2_counterexample :
    embed_path cycEm (0, 1) cycPath = some cycEm1 ∧
    is_complete cycEm1 = true ∧
    get_embedded_path cycEm1 (0, 1) = none ∧
    (∀ fuel v, v ∈ [1, 2, 3] → walkAux cycEm1 (0, 1) 4 fuel v = none) := by
  refine ⟨by decide, by decide, by decide,
    walk_stuck cycEm1 (0, 1) 4 [1, 2, 3] (by decide)⟩

/-- C2 (amended): in every embedding state, for every layout halfedge whose
`get_embedded_path` walk terminates (returns a chain — the counterexample
`C2_counterexample` shows termination can fail even in a complete state),
the returned vertex chain starts at the target vertex matched to the
halfedge's source layout vertex and ends at the target vertex matched to its
destination layout vertex. -/
theorem C2_get_embedded_path_endpoints (em : Embedding) (lhe : LHe) (q : List ℕ) (tvN : ℕ)
    (hcomp : is_complete em = true)
    (hq : get_embedded_path em lhe = some q)
    (hend : em.l_matching_vertex.get? lhe.2 = some tvN) :
    ∃ tv0, em.l_matching_vertex.get? lhe.1 = some tv0 ∧
      q.head? = some tv0 ∧ q.getLast? = some tvN := by
  unfold get_embedded_path at hq
  cases hge : get_embedded_target_halfedge em lhe with
  | none => rw [hge] at hq; exact absurd hq (by simp)
  | some h0 =>
    rw [hge] at hq
    rw [hend] at hq
    dsimp only at hq
    unfold get_embedded_target_halfedge at hge
    cases hmv : em.l_matching_vertex.get? lhe.1 with
    | none => rw [hmv] at hge; exact absurd hge (by simp)
    | some tv0 =>
      rw [hmv] at hge
      dsimp only at hge
      have hmem : h0 ∈ outgoing_halfedges em.t_m tv0 := List.mem_of_find?_eq_some hge
      have hvf : vertex_from em.t_m h0 = tv0 := ((mem_outgoing em.t_m tv0 h0).mp hmem).2
      rw [hvf] at hq
      obtain ⟨hhd, hlast⟩ := walk_endpoints em lhe tvN _ tv0 q hq
      exact ⟨tv0, rfl, hhd, hlast⟩

/-- Witness for `C2_get_embedded_path_endpoints` on the tetrahedron: the
embedded chain of layout halfedge `(0,1)` runs from landmark `2` to
landmark `3`. -/
theorem C2_get_embedded_path_endpoints_witness :
    ∃ tv0, tetraEm1.l_matching_vertex.get? 0 = some tv0 ∧
      ([2, 4, 3] : List ℕ).head? = some tv0 ∧ ([2, 4, 3] : List ℕ).getLast? = some 3 :=
  C2_get_embedded_path_endpoints tetraEm1 (0, 1) [2, 4, 3] 3
    (by decide) (by decide) (by decide)

/-- In the pre-spanning-tree phase, the selection loop never makes an edge
whose endpoints are already union-find-equivalent the running best. -/
theorem select_edges_uf (search : SearchOracle) (swirl : SwirlOracle)
    (d : Vec3 → Vec3 → Frac) (em : Embedding) (settings : GreedySettings)
    (flags : List Bool) (uf : List ℕ) (embFlags : List Bool) :
    ∀ (idxs : List ℕ) (st stF : SelState),
      select_edges search swirl d em settings flags uf false embFlags idxs st = some stF →
      (∀ i, st.best_l_e = some i →
        ufEquivalent uf (em.l_m.ledges.getD i (0, 0)).1 (em.l_m.ledges.getD i (0, 0)).2 = false) →
      ∀ i, stF.best_l_e = some i →
        ufEquivalent uf (em.l_m.ledges.getD i (0, 0)).1 (em.l_m.ledges.getD i (0, 0)).2 = false := by
  intro idxs
  induction idxs with
  | nil =>
    intro st stF hs hst
    unfold select_edges at hs
    injection hs with hs
    subst hs
    exact hst
  | cons i0 rest ih =>
    intro st stF hs hst
    unfold select_edges at hs
    by_cases g1 : embFlags.getD i0 false
    · rw [if_pos g1] at hs
      exact ih st stF hs hst
    · rw [if_neg g1] at hs
      by_cases g2 : incidentIdx flags em.l_m.ledges st.best_l_e ∧
          ¬ incidentIdx flags em.l_m.ledges (some i0)
      · rw [if_pos g2] at hs
        exact ih st stF hs hst
      · rw [if_neg g2] at hs
        by_cases g3 : ¬ false = true ∧ ufEquivalent uf (em.l_m.ledges.getD i0 (0, 0)).1
            (em.l_m.ledges.getD i0 (0, 0)).2 = true
        · rw [if_pos g3] at hs
          exact ih st stF hs hst
        · rw [if_neg g3] at hs
          dsimp only at hs
          have hufi0 : ufEquivalent uf (em.l_m.ledges.getD i0 (0, 0)).1
              (em.l_m.ledges.getD i0 (0, 0)).2 = false := by
            by_contra hc
            exact g3 ⟨by simp, by simpa using hc⟩
          cases hpl : path_length d em (search
              (if settings.use_vertex_repulsive_tracing then ShortestPathMetric.VertexRepulsive
               else ShortestPathMetric.Geodesic) em
              ((em.l_m.ledges.getD i0 (0, 0)).1, (em.l_m.ledges.getD i0 (0, 0)).2)) with
          | none => rw [hpl] at hs; exact absurd hs (by simp)
          | some cost0 =>
            rw [hpl] at hs
            dsimp only at hs
            by_cases g4 : settings.insertion_order = InsertionOrder.Arbitrary
            · rw [if_pos g4] at hs
              injection hs with hs
              subst hs
              intro i hi
              injection hi with hi
              subst hi
              exact hufi0
            · rw [if_neg g4] at hs
              by_cases g5 : (if incidentIdx flags em.l_m.ledges (some i0) then (0 : ℕ) else 1) <
                    (if incidentIdx flags em.l_m.ledges st.best_l_e then (0 : ℕ) else 1) ∨
                  ((if incidentIdx flags em.l_m.ledges (some i0) then (0 : ℕ) else 1) =
                    (if incidentIdx flags em.l_m.ledges st.best_l_e then (0 : ℕ) else 1) ∧
                   optLtInf (some (if settings.use_swirl_detection ∧
                       optLtInf (some cost0) st.best_cost = true then
                     (if swirl em ((em.l_m.ledges.getD i0 (0, 0)).1,
                         (em.l_m.ledges.getD i0 (0, 0)).2)
                         (search (if settings.use_vertex_repulsive_tracing then
                             ShortestPathMetric.VertexRepulsive
                           else ShortestPathMetric.Geodesic) em
                           ((em.l_m.ledges.getD i0 (0, 0)).1,
                            (em.l_m.ledges.getD i0 (0, 0)).2)) = true then
                       cost0.mul settings.swirl_penalty_factor
                     else cost0)
                   else cost0)) st.best_cost = true)
              · rw [if_pos g5] at hs
                refine ih _ stF hs ?_
                intro i hi
                injection hi with hi
                subst hi
                exact hufi0
              · rw [if_neg g5] at hs
                exact ih st stF hs hst

/-- `materialize` never touches the layout mesh. -/
theorem materialize_l_m :
    ∀ (path : VirtualPath) (em em2 : Embedding) (vp : List ℕ),
      materialize em path = some (em2, vp) → em2.l_m = em.l_m := by
  intro path
  induction path with
  | nil =>
    intro em em2 vp hm
    unfold materialize at hm
    simp only [Option.some.injEq, Prod.mk.injEq] at hm
    rw [← hm.1]
  | cons vv rest ih =>
    intro em em2 vp hm
    cases vv with
    | rv v =>
      unfold materialize at hm
      cases hrec : materialize em rest with
      | none => rw [hrec] at hm; exact absurd hm (by simp)
      | some pr =>
        rw [hrec] at hm
        dsimp only at hm
        injection hm with hm
        injection hm with hm1 hm2
        rw [← hm1]
        exact ih em pr.1 pr.2 (by rw [hrec])
    | re e =>
      unfold materialize at hm
      cases hE : em.t_m.edges.get? e with
      | none => rw [hE] at hm; exact absurd hm (by simp)
      | some ab =>
        rw [hE] at hm
        dsimp only at hm
        cases hsp : em_split em e with
        | none => rw [hsp] at hm; exact absurd hm (by simp)
        | some mw =>
          rw [hsp] at hm
          dsimp only at hm
          cases hrec : materialize (setPos mw.1 mw.2 (mix (element_pos_v em ab.1)
              (element_pos_v em ab.2) Frac.half)) rest with
          | none => rw [hrec] at hm; exact absurd hm (by simp)
          | some pr =>
            rw [hrec] at hm
            dsimp only at hm
            injection hm with hm
            injection hm with hm1 hm2
            rw [← hm1]
            have h1 := ih _ pr.1 pr.2 (by rw [hrec])
            rw [h1]
            have h2 : mw.1.l_m = em.l_m := by
              unfold em_split at hsp
              cases hst : split_and_triangulate em.t_m e with
              | none => rw [hst] at hsp; exact absurd hsp (by simp)
              | some m2w =>
                rw [hst] at hsp
                dsimp only at hsp
                injection hsp with hsp
                rw [← congrArg Prod.fst hsp]
            exact h2

/-- `embed_path` never touches the layout mesh. -/
theorem embed_path_l_m (em em2 : Embedding) (lhe : LHe) (path : VirtualPath)
    (hs : embed_path em lhe path = some em2) : em2.l_m = em.l_m := by
  unfold embed_path at hs
  by_cases h1 : (get_embedded_target_halfedge em lhe).isSome
  · rw [if_pos h1] at hs
    exact absurd hs (by simp)
  · rw [if_neg h1] at hs
    by_cases h2 : path.length < 2
    · rw [if_pos h2] at hs
      exact absurd hs (by simp)
    · rw [if_neg h2] at hs
      cases hmat : materialize em path with
      | none => rw [hmat] at hs; exact absurd hs (by simp)
      | some pr =>
        rw [hmat] at hs
        dsimp only at hs
        have hl := (label_chain_frame lhe pr.2 pr.1 em2 hs).2.1
        rw [hl]
        exact materialize_l_m path em pr.1 pr.2 (by rw [hmat])

/-- Invariant of `embed_greedy`'s loop: the union-find state is the fold of
the insertion sequence, the counter is its length, the layout mesh is fixed,
and every insertion made before the spanning tree is complete joins two
distinct union-find classes. -/
theorem greedy_loop_uf (search : SearchOracle) (swirl : SwirlOracle)
    (d : Vec3 → Vec3 → Frac) (settings : GreedySettings) (flags : List Bool)
    (l : LayoutMesh) :
    ∀ (fuel : ℕ) (st stF : GreedyState),
      greedy_loop search swirl d settings flags fuel st = some stF →
      st.em.l_m = l → st.uf = ufFromSeq l st.seq → st.count = st.seq.length →
      st.seq <+: stF.seq ∧
      ∀ j, st.seq.length ≤ j → j < stF.seq.length → j < l.nverts - 1 →
        ufEquivalent (ufFromSeq l (stF.seq.take j))
          (l.ledges.getD (stF.seq.getD j 0) (0, 0)).1
          (l.ledges.getD (stF.seq.getD j 0) (0, 0)).2 = false := by
  intro fuel
  induction fuel with
  | zero =>
    intro st stF hloop hl huf hcount
    unfold greedy_loop at hloop
    by_cases hc : st.count < st.em.l_m.ledges.length
    · rw [if_pos hc] at hloop
      exact absurd hloop (by simp)
    · rw [if_neg hc] at hloop
      injection hloop with hloop
      subst hloop
      exact ⟨List.prefix_refl _, fun j h1 h2 _ => absurd h2 (by omega)⟩
  | succ fuel ih =>
    intro st stF hloop hl huf hcount
    unfold greedy_loop at hloop
    by_cases hc : st.count < st.em.l_m.ledges.length
    · rw [if_pos hc] at hloop
      cases hstep : greedy_step search swirl d settings flags st with
      | none => rw [hstep] at hloop; exact absurd hloop (by simp)
      | some st2 =>
        rw [hstep] at hloop
        unfold greedy_step at hstep
        dsimp only at hstep
        cases hsel : select_edges search swirl d st.em settings flags st.uf
            (decide (st.em.l_m.nverts - 1 ≤ st.count)) st.embFlags
            (List.range st.em.l_m.ledges.length) ⟨[], none, none⟩ with
        | none => rw [hsel] at hstep; exact absurd hstep (by simp)
        | some sel =>
          rw [hsel] at hstep
          dsimp only at hstep
          cases hbe : sel.best_l_e with
          | none => rw [hbe] at hstep; exact absurd hstep (by simp)
          | some i =>
            rw [hbe] at hstep
            dsimp only at hstep
            cases hemb : embed_path st.em
                ((st.em.l_m.ledges.getD i (0, 0)).1, (st.em.l_m.ledges.getD i (0, 0)).2)
                sel.best_path with
            | none => rw [hemb] at hstep; exact absurd hstep (by simp)
            | some em2 =>
              rw [hemb] at hstep
              dsimp only at hstep
              injection hstep with hstep
              have hst2seq : st2.seq = st.seq ++ [i] := by rw [← hstep]
              have hst2l : st2.em.l_m = l := by
                rw [← hstep]
                dsimp only
                rw [embed_path_l_m _ _ _ _ hemb, hl]
              have hst2uf : st2.uf = ufFromSeq l st2.seq := by
                rw [hst2seq, ← hstep]
                dsimp only
                unfold ufFromSeq
                rw [List.foldl_append]
                rw [huf, hl]
                rfl
              have hst2count : st2.count = st2.seq.length := by
                rw [hst2seq, ← hstep]
                dsimp only
                rw [hcount]
                simp
              obtain ⟨hpre, hrest⟩ := ih st2 stF hloop hst2l hst2uf hst2count
              refine ⟨?_, ?_⟩
              · refine List.IsPrefix.trans ?_ hpre
                rw [hst2seq]
                exact ⟨[i], rfl⟩
              · intro j hj1 hj2 hj3
                by_cases hjeq : j = st.seq.length
                · subst hjeq
                  obtain ⟨t, ht⟩ := hpre
                  have hFt : stF.seq = st.seq ++ [i] ++ t := by rw [← ht, hst2seq]
                  have htake : stF.seq.take st.seq.length = st.seq := by
                    rw [hFt, List.append_assoc, List.take_append_of_le_length (le_refl _),
                      List.take_of_length_le (le_refl _)]
                  have hget : stF.seq.getD st.seq.length 0 = i := by
                    have hge : (st.seq ++ ([i] ++ t))[st.seq.length]? = some i := by
                      rw [List.getElem?_append_right (le_refl _)]
                      simp
                    rw [hFt, List.append_assoc, List.getD_eq_getElem?_getD, hge]
                    rfl
                  rw [htake, hget]
                  have hspf : (decide (st.em.l_m.nverts - 1 ≤ st.count)) = false := by
                    simp only [decide_eq_false_iff_not, not_le]
                    rw [hl, hcount]
                    omega
                  rw [hspf] at hsel
                  have := select_edges_uf search swirl d st.em settings flags st.uf st.embFlags
                    (List.range st.em.l_m.ledges.length) ⟨[], none, none⟩ sel hsel
                    (by intro k hk; exact absurd hk (by simp)) i hbe
                  rw [hl, huf] at this
                  exact this
                · exact hrest j (by rw [hst2seq]; simp; omega) hj2 hj3
    · rw [if_neg hc] at hloop
      injection hloop with hloop
      subst hloop
      exact ⟨List.prefix_refl _, fun j h1 h2 _ => absurd h2 (by omega)⟩

/-- C8: in any successful run of `embed_greedy`, every insertion made while
fewer than (layout vertex count - 1) edges are embedded joins two layout
vertices that are not yet union-find-equivalent, i.e. the partial embedded
structure acquires no cycle before a spanning tree is complete. -/
theorem C8_no_premature_cycle (search : SearchOracle) (swirl : SwirlOracle)
    (d : Vec3 → Vec3 → Frac) (em : Embedding) (settings : GreedySettings)
    (seq : List ℕ) (emF : Embedding)
    (h : embed_greedy search swirl d em settings = some (seq, emF)) :
    ∀ j, j < seq.length → j < em.l_m.nverts - 1 →
      ufEquivalent (ufFromSeq em.l_m (seq.take j))
        (em.l_m.ledges.getD (seq.getD j 0) (0, 0)).1
        (em.l_m.ledges.getD (seq.getD j 0) (0, 0)).2 = false := by
  unfold embed_greedy at h
  cases hext : compute_extremal search d em settings with
  | none => rw [hext] at h; exact absurd h (by simp)
  | some flags =>
    rw [hext] at h
    dsimp only at h
    cases hloop : greedy_loop search swirl d settings flags em.l_m.ledges.length
        { em := em, uf := ufInit em.l_m.nverts,
          embFlags := List.replicate em.l_m.ledges.length false,
          count := 0, seq := [] } with
    | none => rw [hloop] at h; exact absurd h (by simp)
    | some st =>
      rw [hloop] at h
      dsimp only at h
      injection h with h
      injection h with h1 h2
      intro j hj1 hj2
      have hres := (greedy_loop_uf search swirl d settings flags em.l_m
        em.l_m.ledges.length _ st hloop rfl rfl rfl).2 j (by simp) (by rw [h1]; exact hj1) hj2
      rw [h1] at hres
      exact hres

/-- C8, witness: on the fan instance the greedy run inserts edge 0 at step 0,
before the single-edge spanning tree is complete, and its endpoints were in
distinct union-find classes. -/
theorem C8_no_premature_cycle_witness :
    (0 : ℕ) < ([0] : List ℕ).length ∧ (0 : ℕ) < fanEm.l_m.nverts - 1 ∧
    ufEquivalent (ufFromSeq fanEm.l_m (List.take 0 [0]))
      (fanEm.l_m.ledges.getD (List.getD [0] 0 0) (0, 0)).1
      (fanEm.l_m.ledges.getD (List.getD [0] 0 0) (0, 0)).2 = false :=
  ⟨by decide, by decide,
    C8_no_premature_cycle gSearch gSwirl gD fanEm gSettings [0] gEmF rfl 0
      (by decide) (by decide)⟩

/-- C5, counterexample: with a search oracle that returns an empty path, the
greedy selection loop hits `path_length`'s size-assertion (the empty result is
never checked) and the whole `embed_greedy` run dies fatally instead of
skipping the edge or reporting failure gracefully. -/
theorem C5_counterexample :
    path_length gD fanEm [] = none ∧
    select_edges gSearchE gSwirl gD fanEm gSettings [false, false] (ufInit 2) false
      [false] [0] ⟨[], none, none⟩ = none ∧
    embed_greedy gSearchE gSwirl gD fanEm gSettings = none :=
  ⟨rfl, rfl, rfl⟩

/-- C5: when the selection loop considers an edge (none of the three skip
guards fires) and the shortest-path search returns an empty path, the loop
aborts via `path_length`'s size assertion no matter what edges remain — the
empty result is never detected explicitly. -/
theorem C5_empty_path_fatal (search : SearchOracle) (swirl : SwirlOracle)
    (d : Vec3 → Vec3 → Frac) (em : Embedding) (settings : GreedySettings)
    (flags : List Bool) (uf : List ℕ) (is_sp : Bool) (embFlags : List Bool)
    (i : ℕ) (rest : List ℕ) (st : SelState)
    (h1 : embFlags.getD i false = false)
    (h2 : ¬ (incidentIdx flags em.l_m.ledges st.best_l_e ∧
      ¬ incidentIdx flags em.l_m.ledges (some i)))
    (h3 : ¬ (¬ is_sp = true ∧ ufEquivalent uf (em.l_m.ledges.getD i (0, 0)).1
      (em.l_m.ledges.getD i (0, 0)).2 = true))
    (hempty : search (if settings.use_vertex_repulsive_tracing then
        ShortestPathMetric.VertexRepulsive else ShortestPathMetric.Geodesic) em
      ((em.l_m.ledges.getD i (0, 0)).1, (em.l_m.ledges.getD i (0, 0)).2) = []) :
    select_edges search swirl d em settings flags uf is_sp embFlags (i :: rest) st = none := by
  unfold select_edges
  rw [if_neg (by rw [h1]; simp), if_neg h2, if_neg h3]
  dsimp only
  rw [hempty]
  rfl

/-- C5, witness: concrete instantiation on the fan instance with the
empty-path oracle. -/
theorem C5_empty_path_fatal_witness :
    ([false] : List Bool).getD 0 false = false ∧
    ¬ (incidentIdx [false, false] fanEm.l_m.ledges (none : Option ℕ) ∧
      ¬ incidentIdx [false, false] fanEm.l_m.ledges (some 0)) ∧
    ¬ (¬ (false : Bool) = true ∧ ufEquivalent (ufInit 2) (fanEm.l_m.ledges.getD 0 (0, 0)).1
      (fanEm.l_m.ledges.getD 0 (0, 0)).2 = true) ∧
    select_edges gSearchE gSwirl gD fanEm gSettings [false, false] (ufInit 2) false
      [false] [0] ⟨[], none, none⟩ = none :=
  ⟨by decide, by decide, by decide,
    C5_empty_path_fatal gSearchE gSwirl gD fanEm gSettings [false, false] (ufInit 2)
      false [false] 0 [] ⟨[], none, none⟩ (by decide) (by decide) (by decide) rfl⟩

theorem blt_irrefl (a : Frac) : a.blt a = false := by
  simp [Frac.blt]

theorem blt_asymm (a b : Frac) (h1 : a.blt b = true) (h2 : b.blt a = true) : False := by
  simp only [Frac.blt, decide_eq_true_eq] at h1 h2
  omega

theorem blt_tnl (a b c : Frac) (ha : 0 < a.den) (hb : 0 < b.den) (hc : 0 < c.den)
    (h1 : a.blt b = true) (h2 : c.blt b = false) : a.blt c = true := by
  simp only [Frac.blt, decide_eq_true_eq, decide_eq_false_iff_not, not_lt] at h1 h2 ⊢
  have hA := mul_lt_mul_of_pos_right h1 hc
  have hB := mul_le_mul_of_nonneg_right h2 ha.le
  have hC : a.num * c.den * b.den < c.num * a.den * b.den := by nlinarith [hA, hB]
  exact lt_of_mul_lt_mul_right hC hb.le

theorem optLt_irrefl (a : Option Frac) : optLtInf a a = false := by
  cases a with
  | none => rfl
  | some x => simpa [optLtInf] using blt_irrefl x

theorem optLt_asymm (a b : Option Frac) (h1 : optLtInf a b = true)
    (h2 : optLtInf b a = true) : False := by
  cases a with
  | none => exact absurd h1 (by simp [optLtInf])
  | some x =>
    cases b with
    | none => exact absurd h2 (by simp [optLtInf])
    | some y => exact blt_asymm x y (by simpa [optLtInf] using h1) (by simpa [optLtInf] using h2)

theorem optLt_tnl (a b c : Option Frac) (ha : posDenO a) (hb : posDenO b) (hc : posDenO c)
    (h1 : optLtInf a b = true) (h2 : optLtInf c b = false) : optLtInf a c = true := by
  cases a with
  | none => exact absurd h1 (by simp [optLtInf])
  | some x =>
    cases c with
    | none => rfl
    | some z =>
      cases b with
      | none => exact absurd h2 (by simp [optLtInf])
      | some y =>
        simp only [optLtInf] at h1 h2 ⊢
        exact blt_tnl x y z (ha x rfl) (hb y rfl) (hc z rfl) h1 h2

theorem segSum_den_pos (d : Vec3 → Vec3 → Frac) (hd : ∀ p q, 0 < (d p q).den) :
    ∀ ps : List Vec3, 0 < (segSum d ps).den := by
  intro ps
  induction ps with
  | nil => simp [segSum, Frac.zero]
  | cons p tail ih =>
    cases tail with
    | nil => simp [segSum, Frac.zero]
    | cons q rest =>
      have : segSum d (p :: q :: rest) = (d p q).add (segSum d (q :: rest)) := rfl
      rw [this]
      unfold Frac.add
      exact mul_pos (hd p q) ih

theorem pow_den_pos (a : Frac) (ha : 0 < a.den) : ∀ n, 0 < (a.pow n).den := by
  intro n
  induction n with
  | zero => simp [Frac.pow]
  | succ n ih =>
    show (0 : ℤ) < ((a.pow n).mul a).den
    unfold Frac.mul
    exact mul_pos ih ha

theorem embedded_path_length_den_pos (d : Vec3 → Vec3 → Frac) (em : Embedding) (lhe : LHe)
    (x : Frac) (hd : ∀ p q, 0 < (d p q).den)
    (h : embedded_path_length d em lhe = some x) : 0 < x.den := by
  unfold embedded_path_length at h
  cases hq : get_embedded_path em lhe with
  | none => rw [hq] at h; exact absurd h (by simp)
  | some path =>
    rw [hq] at h
    dsimp only at h
    by_cases hl : path.length < 2
    · rw [if_pos hl] at h
      exact absurd h (by simp)
    · rw [if_neg hl] at h
      injection h with h
      rw [← h]
      exact pow_den_pos _ (segSum_den_pos d hd _) _

theorem foldl_den_pos (f : Option Frac → (ℕ × ℕ) → Option Frac)
    (hf : ∀ a le b, f (some a) le = some b → 0 < a.den → 0 < b.den)
    (hfn : ∀ le, f none le = none) :
    ∀ (les : List (ℕ × ℕ)) (acc : Option Frac) (c : Frac),
      (∀ a, acc = some a → 0 < a.den) → les.foldl f acc = some c → 0 < c.den := by
  have hnone : ∀ les : List (ℕ × ℕ), les.foldl f none = none := by
    intro les
    induction les with
    | nil => rfl
    | cons le rest ih => rw [List.foldl_cons, hfn]; exact ih
  intro les
  induction les with
  | nil =>
    intro acc c hacc hfold
    rw [List.foldl_nil] at hfold
    exact hacc c hfold
  | cons le rest ih =>
    intro acc c hacc hfold
    rw [List.foldl_cons] at hfold
    cases acc with
    | none =>
      rw [hfn] at hfold
      rw [hnone] at hfold
      exact absurd hfold (by simp)
    | some a =>
      cases hfa : f (some a) le with
      | none =>
        rw [hfa] at hfold
        rw [hnone] at hfold
        exact absurd hfold (by simp)
      | some b =>
        rw [hfa] at hfold
        refine ih (some b) c ?_ hfold
        intro a2 ha2
        injection ha2 with ha2
        rw [← ha2]
        exact hf a le b hfa (hacc a rfl)

theorem total_den_pos (d : Vec3 → Vec3 → Frac) (em : Embedding) (c : Frac)
    (hd : ∀ p q, 0 < (d p q).den)
    (h : total_embedded_path_length d em = some c) : 0 < c.den := by
  unfold total_embedded_path_length at h
  refine foldl_den_pos _ ?_ (fun le => rfl) em.l_m.ledges (some Frac.zero) c ?_ h
  · intro a le b hb hapos
    dsimp only at hb
    by_cases he : is_embedded_edge em le
    · rw [if_pos he] at hb
      cases hx : embedded_path_length d em le with
      | none => rw [hx] at hb; exact absurd hb (by simp)
      | some x =>
        rw [hx] at hb
        dsimp only at hb
        injection hb with hb
        rw [← hb]
        unfold Frac.add
        exact mul_pos hapos (embedded_path_length_den_pos d em le x hd hx)
    · rw [if_neg he] at hb
      injection hb with hb
      rw [← hb]
      exact hapos
  · intro a ha
    injection ha with ha
    rw [← ha]
    simp [Frac.zero]

theorem bruteScan_mem (s0 : GreedySettings) :
    ∀ (runs : List (Option Frac × GreedySettings × List ℕ))
      (best0 : Option Frac × GreedySettings × List ℕ),
      bruteScan s0 runs best0 = best0 ∨ bruteScan s0 runs best0 ∈ runs := by
  intro runs
  induction runs with
  | nil => intro best0; exact Or.inl rfl
  | cons x rest ih =>
    intro best0
    obtain ⟨c, s2, r⟩ := x
    unfold bruteScan
    by_cases hlt : optLtInf c best0.1
    · rw [if_pos hlt]
      rcases ih (c, s2, r) with h | h
      · exact Or.inr (by rw [h]; exact List.mem_cons_self _ _)
      · exact Or.inr (List.mem_cons_of_mem _ h)
    · rw [if_neg hlt]
      rcases ih best0 with h | h
      · exact Or.inl h
      · exact Or.inr (List.mem_cons_of_mem _ h)

theorem bruteScan_min (s0 : GreedySettings) :
    ∀ (runs : List (Option Frac × GreedySettings × List ℕ))
      (best0 : Option Frac × GreedySettings × List ℕ),
      (∀ x ∈ runs, posDenO x.1) → posDenO best0.1 →
      posDenO (bruteScan s0 runs best0).1 ∧
      optLtInf best0.1 (bruteScan s0 runs best0).1 = false ∧
      ∀ x ∈ runs, optLtInf x.1 (bruteScan s0 runs best0).1 = false := by
  intro runs
  induction runs with
  | nil =>
    intro best0 hruns hb0
    refine ⟨hb0, optLt_irrefl _, ?_⟩
    intro x hx
    exact absurd hx (by simp)
  | cons x rest ih =>
    intro best0 hruns hb0
    obtain ⟨c, s2, r⟩ := x
    have hcpos : posDenO c := hruns (c, s2, r) (List.mem_cons_self _ _)
    have hrestpos : ∀ y ∈ rest, posDenO y.1 :=
      fun y hy => hruns y (List.mem_cons_of_mem _ hy)
    unfold bruteScan
    by_cases hlt : optLtInf c best0.1
    · rw [if_pos hlt]
      obtain ⟨hpos, hle, hall⟩ := ih (c, s2, r) hrestpos hcpos
      refine ⟨hpos, ?_, ?_⟩
      · by_contra hbc
        simp only [Bool.not_eq_false] at hbc
        have hcb : optLtInf best0.1 c = true :=
          optLt_tnl best0.1 (bruteScan s0 rest (c, s2, r)).1 c hb0 hpos hcpos hbc hle
        exact optLt_asymm _ _ hlt hcb
      · intro y hy
        rcases List.mem_cons.mp hy with h | h
        · rw [h]; exact hle
        · exact hall y h
    · rw [if_neg hlt]
      obtain ⟨hpos, hle, hall⟩ := ih best0 hrestpos hb0
      refine ⟨hpos, hle, ?_⟩
      intro y hy
      rcases List.mem_cons.mp hy with h | h
      · rw [h]
        by_contra hbc
        simp only [Bool.not_eq_false] at hbc
        have hcb : optLtInf c best0.1 = true :=
          optLt_tnl c (bruteScan s0 rest best0).1 best0.1 hcpos hpos hb0 hbc hle
        exact hlt (by rw [hcb])
      · exact hall y h

theorem brute_runs_spec (search : SearchOracle) (swirl : SwirlOracle)
    (d : Vec3 → Vec3 → Frac) (em : Embedding) :
    ∀ (l : List GreedySettings) (runs : List (Option Frac × GreedySettings × List ℕ)),
      brute_runs search swirl d em l = some runs →
      runs.length = l.length ∧
      ∀ k : ℕ, k < l.length → ∃ c s2 r emV,
        runs[k]? = some (some c, s2, r) ∧ l[k]? = some s2 ∧
        embed_greedy search swirl d em s2 = some (r, emV) ∧
        total_embedded_path_length d emV = some c := by
  intro l
  induction l with
  | nil =>
    intro runs h
    unfold brute_runs at h
    injection h with h
    rw [← h]
    exact ⟨rfl, fun k hk => absurd hk (by simp)⟩
  | cons s2 rest ih =>
    intro runs h
    unfold brute_runs at h
    cases hrec : brute_runs search swirl d em rest with
    | none => rw [hrec] at h; exact absurd h (by simp)
    | some rl =>
      rw [hrec] at h
      cases hg : embed_greedy search swirl d em s2 with
      | none => rw [hg] at h; exact absurd h (by simp)
      | some pr =>
        rw [hg] at h
        obtain ⟨r, emV⟩ := pr
        dsimp only at h
        cases ht : total_embedded_path_length d emV with
        | none => rw [ht] at h; exact absurd h (by simp)
        | some c =>
          rw [ht] at h
          dsimp only at h
          injection h with h
          obtain ⟨hlen, hspec⟩ := ih rl hrec
          rw [← h]
          refine ⟨by simp [hlen], ?_⟩
          intro k hk
          cases k with
          | zero => exact ⟨c, s2, r, emV, by simp, by simp, hg, ht⟩
          | succ k =>
            obtain ⟨c2, s3, r2, emV2, h1, h2, h3, h4⟩ := hspec k (by simpa using hk)
            exact ⟨c2, s3, r2, emV2, by simpa using h1, by simpa using h2, h3, h4⟩

/-- C9: a successful `embed_greedy_brute_force` run invokes `embed_greedy`
once per each of the 8 settings combinations on the unmodified input state,
then once MORE with the winning combination (9 invocations in total, as the
trace records), and returns the result of a variant no other variant strictly
beats in total embedded path length. -/
theorem C9_brute_force (search : SearchOracle) (swirl : SwirlOracle)
    (d : Vec3 → Vec3 → Frac) (em : Embedding) (settings : GreedySettings)
    (res : List ℕ) (emF : Embedding) (trace : List GreedySettings)
    (hd : ∀ p q, 0 < (d p q).den)
    (h : embed_greedy_brute_force search swirl d em settings = some (res, emF, trace)) :
    (all_greedy_settings settings).length = 8 ∧
    (∀ s2 ∈ all_greedy_settings settings, ∃ r2 em2,
      embed_greedy search swirl d em s2 = some (r2, em2)) ∧
    ∃ best, best ∈ all_greedy_settings settings ∧
      trace = all_greedy_settings settings ++ [best] ∧
      embed_greedy search swirl d em best = some (res, emF) ∧
      ∀ s2 r2 em2 c2 cF, s2 ∈ all_greedy_settings settings →
        embed_greedy search swirl d em s2 = some (r2, em2) →
        total_embedded_path_length d em2 = some c2 →
        total_embedded_path_length d emF = some cF →
        c2.blt cF = false := by
  unfold embed_greedy_brute_force at h
  dsimp only at h
  cases hruns : brute_runs search swirl d em (all_greedy_settings settings) with
  | none => rw [hruns] at h; exact absurd h (by simp)
  | some runs =>
    rw [hruns] at h
    dsimp only at h
    cases hrr : embed_greedy search swirl d em
        (bruteScan settings runs (none, settings, [])).2.1 with
    | none => rw [hrr] at h; exact absurd h (by simp)
    | some pr =>
      rw [hrr] at h
      obtain ⟨r9, emFinal⟩ := pr
      dsimp only at h
      injection h with h
      injection h with h1 h23
      injection h23 with h2 h3
      obtain ⟨hlen, hspec⟩ :=
        brute_runs_spec search swirl d em (all_greedy_settings settings) runs hruns
      have hlen8 : (all_greedy_settings settings).length = 8 := rfl
      have hposruns : ∀ x ∈ runs, posDenO x.1 := by
        intro x hx
        obtain ⟨kk, hkk⟩ := List.mem_iff_getElem?.mp hx
        have hkklt : kk < (all_greedy_settings settings).length := by
          obtain ⟨hlt, -⟩ := List.getElem?_eq_some.mp hkk
          rw [← hlen]
          exact hlt
        obtain ⟨ck, sk, rk, emVk, hgk, _, _, htk⟩ := hspec kk hkklt
        rw [hkk] at hgk
        injection hgk with hgk
        rw [hgk]
        intro y hy
        injection hy with hy
        rw [← hy]
        exact total_den_pos d emVk ck hd htk
      obtain ⟨hBpos, hBle, hBall⟩ :=
        bruteScan_min settings runs (none, settings, []) hposruns
          (fun x hx => absurd hx (by simp))
      have hBmem : bruteScan settings runs (none, settings, []) ∈ runs := by
        rcases bruteScan_mem settings runs (none, settings, []) with hE | hM
        · exfalso
          have h0 : (0 : ℕ) < (all_greedy_settings settings).length := by rw [hlen8]; omega
          obtain ⟨c0, s0, r0, emV0, hg0, _, _, _⟩ := hspec 0 h0
          have hx0 : ((some c0 : Option Frac), s0, r0) ∈ runs :=
            List.mem_iff_getElem?.mpr ⟨0, hg0⟩
          have hcon := hBall _ hx0
          rw [hE] at hcon
          simp [optLtInf] at hcon
        · exact hM
      obtain ⟨kB, hkB⟩ := List.mem_iff_getElem?.mp hBmem
      have hkBlt : kB < (all_greedy_settings settings).length := by
        obtain ⟨hlt, -⟩ := List.getElem?_eq_some.mp hkB
        rw [← hlen]
        exact hlt
      obtain ⟨cB, sB, rB, emVB, hgB, hlB, hrunB, htB⟩ := hspec kB hkBlt
      have hBeq : bruteScan settings runs (none, settings, []) = (some cB, sB, rB) := by
        rw [hkB] at hgB
        injection hgB with hgB
      have hrr2 : embed_greedy search swirl d em sB = some (r9, emFinal) := by
        rw [hBeq] at hrr
        exact hrr
      have hdet : (rB, emVB) = (r9, emFinal) := by
        rw [hrunB] at hrr2
        injection hrr2 with hdd
      injection hdet with hdet1 hdet2
      refine ⟨hlen8, ?_, sB, ?_, ?_, ?_, ?_⟩
      · intro s2 hs2
        obtain ⟨k2, hk2⟩ := List.mem_iff_getElem?.mp hs2
        have hk2lt : k2 < (all_greedy_settings settings).length := by
          obtain ⟨hlt, -⟩ := List.getElem?_eq_some.mp hk2
          exact hlt
        obtain ⟨c2, s2x, r2, emV2, _, hl2, hrun2, _⟩ := hspec k2 hk2lt
        rw [hk2] at hl2
        injection hl2 with hl2
        exact ⟨r2, emV2, by rw [hl2]; exact hrun2⟩
      · exact List.mem_iff_getElem?.mpr ⟨kB, hlB⟩
      · rw [← h3, hBeq]
      · have hres : res = r9 := by
          rw [← h1, hBeq]
          exact hdet1
        rw [hres, ← h2]
        exact by rw [hBeq] at hrr; exact hrr
      · intro s2 r2 em2 c2 cF hs2 hrun2 htot2 htotF
        obtain ⟨k2, hk2⟩ := List.mem_iff_getElem?.mp hs2
        have hk2lt : k2 < (all_greedy_settings settings).length := by
          obtain ⟨hlt, -⟩ := List.getElem?_eq_some.mp hk2
          exact hlt
        obtain ⟨c2x, s2x, r2x, emV2, hg2, hl2, hrun2x, htot2x⟩ := hspec k2 hk2lt
        rw [hk2] at hl2
        injection hl2 with hl2
        rw [← hl2] at hrun2x
        rw [hrun2x] at hrun2
        injection hrun2 with hpr2
        injection hpr2 with hr2 hem2
        rw [hem2] at htot2x
        rw [htot2] at htot2x
        injection htot2x with hc2
        have hx : ((some c2x : Option Frac), s2x, r2x) ∈ runs :=
          List.mem_iff_getElem?.mpr ⟨k2, hg2⟩
        have hmin := hBall _ hx
        rw [hBeq] at hmin
        have htotF2 : total_embedded_path_length d emF = some cB := by
          rw [← h2, ← hdet2]
          exact htB
        rw [htotF2] at htotF
        injection htotF with hcF
        simp only [optLtInf] at hmin
        rw [hc2, ← hcF]
        exact hmin

/-- C9, counterexample: on the fan instance the returned invocation trace has
NINE entries, not eight, and its first and last entries are the same settings
combination (all three toggles off): the winning combination is invoked twice,
refuting "exactly once for each of the 8 combinations". -/
theorem C9_counterexample :
    (embed_greedy_brute_force gSearch gSwirl gD fanEm gSettings).map
      (fun r => (r.2.2.length, r.2.2.head?, r.2.2.getLast?)) =
      some (9, some gSettings, some gSettings) := by decide

/-- C9, witness: the amended brute-force description instantiated on the fan
instance, with the constant metric (denominator 1). -/
theorem C9_brute_force_witness :
    (∀ p q, 0 < (gD p q).den) ∧
    ((all_greedy_settings gSettings).length = 8 ∧
     (∀ s2 ∈ all_greedy_settings gSettings, ∃ r2 em2,
       embed_greedy gSearch gSwirl gD fanEm s2 = some (r2, em2)) ∧
     ∃ best, best ∈ all_greedy_settings gSettings ∧
       all_greedy_settings gSettings ++ [gSettings] = all_greedy_settings gSettings ++ [best] ∧
       embed_greedy gSearch gSwirl gD fanEm best = some ([0], gEmF) ∧
       ∀ s2 r2 em2 c2 cF, s2 ∈ all_greedy_settings gSettings →
         embed_greedy gSearch gSwirl gD fanEm s2 = some (r2, em2) →
         total_embedded_path_length gD em2 = some c2 →
         total_embedded_path_length gD gEmF = some cF →
         c2.blt cF = false) :=
  ⟨fun _ _ => Int.one_pos,
   C9_brute_force gSearch gSwirl gD fanEm gSettings [0] gEmF
     (all_greedy_settings gSettings ++ [gSettings]) (fun _ _ => Int.one_pos) (by decide)⟩

/-- A successful backtracking run of `reconstruct` starts (pre-reversal) at
the queried vertex and ends at the search start vertex. -/
theorem reconstruct_spec (prev : VirtualVertex → Option VirtualVertex)
    (vvs : VirtualVertex) :
    ∀ (fuel : ℕ) (cur : VirtualVertex) (l : List VirtualVertex),
      reconstruct prev vvs fuel cur = some l →
      l.head? = some cur ∧ l.getLast? = some vvs := by
  intro fuel
  induction fuel with
  | zero =>
    intro cur l h
    exact absurd h (by simp [reconstruct])
  | succ fuel ih =>
    intro cur l h
    unfold reconstruct at h
    by_cases hc : cur = vvs
    · rw [if_pos hc] at h
      injection h with h
      rw [← h, hc]
      exact ⟨rfl, rfl⟩
    · rw [if_neg hc] at h
      cases hp : prev cur with
      | none => rw [hp] at h; exact absurd h (by simp)
      | some pv =>
        rw [hp] at h
        dsimp only at h
        cases hr : reconstruct prev vvs fuel pv with
        | none => rw [hr] at h; exact absurd h (by simp)
        | some l2 =>
          rw [hr] at h
          dsimp only at h
          injection h with h
          obtain ⟨h1, h2⟩ := ih pv l2 hr
          rw [← h]
          refine ⟨rfl, ?_⟩
          cases l2 with
          | nil => exact absurd h1 (by simp)
          | cons a t =>
            rw [List.getLast?_cons_cons]
            exact h2

/-- C4: the search loop returns (with the current attribute maps) the moment
the popped frontier minimum is the end vertex; and whenever the modelled
`find_shortest_path` returns, the result is empty exactly when the end
vertex's geodesic distance is still infinite after the search, and otherwise
it is the reversed predecessor chain, beginning at the start vertex and
ending at the end vertex. -/
theorem C4_find_shortest_path (d : Vec3 → Vec3 → Frac) (em : Embedding)
    (t_h_start t_h_end fuel : ℕ) (path : VirtualPath)
    (h : find_shortest_path d em t_h_start t_h_end fuel = some path) :
    (∀ (lf ll : List VirtualVertex) (f2 : ℕ) (st : SearchState)
       (c : Candidate) (q2 : List Candidate),
      popMin st.q = some (c, q2) → c.vv = .rv (vertex_from em.t_m t_h_end) →
      searchLoop em d (vertex_from em.t_m t_h_end) (.rv (vertex_from em.t_m t_h_start))
        (.rv (vertex_from em.t_m t_h_end)) lf ll (f2 + 1) st = some (st.dist, st.prev)) ∧
    ∃ legal_first legal_last distF prevF,
      get_virtual_vertices_in_sector em t_h_start = some legal_first ∧
      get_virtual_vertices_in_sector em t_h_end = some legal_last ∧
      searchLoop em d (vertex_from em.t_m t_h_end) (.rv (vertex_from em.t_m t_h_start))
        (.rv (vertex_from em.t_m t_h_end)) legal_first legal_last fuel
        ⟨fun x => if x = VirtualVertex.rv (vertex_from em.t_m t_h_start) then
            ⟨0, some Frac.zero, Frac.zero⟩ else Distance.init,
         fun _ => none,
         [⟨.rv (vertex_from em.t_m t_h_start), element_pos_v em (vertex_from em.t_m t_h_start),
           ⟨0, some Frac.zero, dblMax⟩⟩]⟩ = some (distF, prevF) ∧
      ((distF (.rv (vertex_from em.t_m t_h_end))).geodesic = none ↔ path = []) ∧
      (path ≠ [] →
        path.head? = some (.rv (vertex_from em.t_m t_h_start)) ∧
        path.getLast? = some (.rv (vertex_from em.t_m t_h_end))) := by
  constructor
  · intro lf ll f2 st c q2 hpop hcv
    unfold searchLoop
    rw [hpop]
    dsimp only
    rw [hcv]
    dsimp only
    rw [if_pos rfl]
  · unfold find_shortest_path at h
    dsimp only at h
    cases hs1 : get_virtual_vertices_in_sector em t_h_start with
    | none => rw [hs1] at h; exact absurd h (by simp)
    | some legal_first =>
      rw [hs1] at h
      dsimp only at h
      cases hs2 : get_virtual_vertices_in_sector em t_h_end with
      | none => rw [hs2] at h; exact absurd h (by simp)
      | some legal_last =>
        rw [hs2] at h
        dsimp only at h
        cases hsl : searchLoop em d (vertex_from em.t_m t_h_end)
            (.rv (vertex_from em.t_m t_h_start)) (.rv (vertex_from em.t_m t_h_end))
            legal_first legal_last fuel
            ⟨fun x => if x = VirtualVertex.rv (vertex_from em.t_m t_h_start) then
                ⟨0, some Frac.zero, Frac.zero⟩ else Distance.init,
             fun _ => none,
             [⟨.rv (vertex_from em.t_m t_h_start),
               element_pos_v em (vertex_from em.t_m t_h_start),
               ⟨0, some Frac.zero, dblMax⟩⟩]⟩ with
        | none => rw [hsl] at h; exact absurd h (by simp)
        | some dp =>
          rw [hsl] at h
          obtain ⟨distF, prevF⟩ := dp
          dsimp only at h
          refine ⟨legal_first, legal_last, distF, prevF, rfl, rfl, hsl, ?_⟩
          by_cases hg : (distF (VirtualVertex.rv (vertex_from em.t_m t_h_end))).geodesic = none
          · rw [if_pos hg] at h
            injection h with h
            refine ⟨⟨fun _ => h.symm, fun _ => hg⟩, ?_⟩
            intro hne
            exact absurd h.symm hne
          · rw [if_neg hg] at h
            cases hr : reconstruct prevF (.rv (vertex_from em.t_m t_h_start))
                (em.t_m.nverts + em.t_m.edges.length + 1)
                (.rv (vertex_from em.t_m t_h_end)) with
            | none => rw [hr] at h; exact absurd h (by simp)
            | some l =>
              rw [hr] at h
              dsimp only at h
              injection h with h
              obtain ⟨hhead, hlast⟩ := reconstruct_spec prevF _ _ _ l hr
              have hlne : l ≠ [] := by
                intro hl
                rw [hl] at hhead
                exact absurd hhead (by simp)
              refine ⟨⟨fun hgg => absurd hgg hg, fun hpe => ?_⟩, fun _ => ?_⟩
              · rw [← h] at hpe
                exact absurd (List.reverse_eq_nil_iff.mp hpe) hlne
              · rw [← h]
                constructor
                · rw [List.head?_reverse]
                  exact hlast
                · rw [List.getLast?_reverse]
                  exact hhead

/-- C4, witness: on the tetrahedron with landmarks 2 and 3 and sector
halfedges `3` (2 → 1) and `7` (3 → 2), the search returns the direct chain
`2 → 3`, which begins and ends at the two sector source vertices. -/
theorem C4_find_shortest_path_witness :
    find_shortest_path sqD tetraEm 3 7 30 = some [.rv 2, .rv 3] ∧
    ∃ legal_first legal_last distF prevF,
      get_virtual_vertices_in_sector tetraEm 3 = some legal_first ∧
      get_virtual_vertices_in_sector tetraEm 7 = some legal_last ∧
      searchLoop tetraEm sqD (vertex_from tetraEm.t_m 7) (.rv (vertex_from tetraEm.t_m 3))
        (.rv (vertex_from tetraEm.t_m 7)) legal_first legal_last 30
        ⟨fun x => if x = VirtualVertex.rv (vertex_from tetraEm.t_m 3) then
            ⟨0, some Frac.zero, Frac.zero⟩ else Distance.init,
         fun _ => none,
         [⟨.rv (vertex_from tetraEm.t_m 3), element_pos_v tetraEm (vertex_from tetraEm.t_m 3),
           ⟨0, some Frac.zero, dblMax⟩⟩]⟩ = some (distF, prevF) ∧
      ((distF (.rv (vertex_from tetraEm.t_m 7))).geodesic = none ↔
        ([.rv 2, .rv 3] : VirtualPath) = []) ∧
      (([.rv 2, .rv 3] : VirtualPath) ≠ [] →
        ([.rv 2, .rv 3] : VirtualPath).head? = some (.rv (vertex_from tetraEm.t_m 3)) ∧
        ([.rv 2, .rv 3] : VirtualPath).getLast? = some (.rv (vertex_from tetraEm.t_m 7))) :=
  ⟨by decide,
   (C4_find_shortest_path sqD tetraEm 3 7 30 [.rv 2, .rv 3] (by decide)).2⟩

/-- C3, counterexample: take two frontier keys with equal heuristic-augmented
totals (`1 + 0`) but different `edges_crossed` counts (`0` vs `5`). The
ordering the claim describes (`DistanceSpecLt`, tie-break on `edges_crossed`)
ranks the first strictly below the second, but the ordering the source
implements (`Distance.lt`, Embedding.cc lines 269-272) compares only
`geodesic + remaining_distance_heuristic` and leaves the two unordered: the
`edges_crossed` field is never consulted. -/
theorem C3_counterexample :
    DistanceSpecLt ⟨0, some ⟨1, 1⟩, Frac.zero⟩ ⟨5, some ⟨1, 1⟩, Frac.zero⟩ = true ∧
    Distance.lt ⟨0, some ⟨1, 1⟩, Frac.zero⟩ ⟨5, some ⟨1, 1⟩, Frac.zero⟩ = false ∧
    Distance.lt ⟨5, some ⟨1, 1⟩, Frac.zero⟩ ⟨0, some ⟨1, 1⟩, Frac.zero⟩ = false := by
  refine ⟨by decide, by decide, by decide⟩

/-- C3, amended: in `find_shortest_path`'s priority ordering the primary (and
only) comparison is by total heuristic-augmented distance
(`geodesic + remaining_distance_heuristic`); the `edges_crossed` counter is
maintained but takes no part in the ordering, so candidates with equal totals
are mutually unordered rather than tie-broken by `edges_crossed`. -/
theorem C3_distance_ordering (d1 d2 : Distance) :
    (Distance.lt d1 d2 =
      Distance.lt ⟨0, d1.geodesic, d1.remaining_distance_heuristic⟩
        ⟨0, d2.geodesic, d2.remaining_distance_heuristic⟩) ∧
    (optEqInf d1.key d2.key = true → Distance.lt d1 d2 = false ∧ Distance.lt d2 d1 = false) := by
  constructor
  · rfl
  · intro hk
    unfold Distance.lt
    cases h1 : d1.key with
    | none =>
      cases h2 : d2.key with
      | none => exact ⟨rfl, rfl⟩
      | some q => rw [h1, h2] at hk; simp [optEqInf] at hk
    | some p =>
      cases h2 : d2.key with
      | none => rw [h1, h2] at hk; simp [optEqInf] at hk
      | some q =>
        rw [h1, h2] at hk
        simp only [optEqInf, Frac.beq, decide_eq_true_eq] at hk
        simp [optLtInf, Frac.blt, hk]

/-- Witness for `C3_distance_ordering` at concrete keys with an equal total. -/
theorem C3_distance_ordering_witness :
    Distance.lt ⟨3, some ⟨2, 1⟩, ⟨1, 1⟩⟩ ⟨9, some ⟨2, 1⟩, ⟨1, 1⟩⟩ = false ∧
    Distance.lt ⟨9, some ⟨2, 1⟩, ⟨1, 1⟩⟩ ⟨3, some ⟨2, 1⟩, ⟨1, 1⟩⟩ = false :=
  (C3_distance_ordering ⟨3, some ⟨2, 1⟩, ⟨1, 1⟩⟩ ⟨9, some ⟨2, 1⟩, ⟨1, 1⟩⟩).2 (by decide)


/-- C1, counterexample: over `fanMesh`, the virtual path
`[0, 1, 2, 1, 3]` runs from the matched landmark `0` of layout halfedge
`(0,1)` to the opposite matched landmark `3`, has length at least 2, and the
halfedge is not embedded, so the claim applies. `embed_path` succeeds, but
because the path traverses target edge `{1,2}` in both directions, the later
write for the pair `(2,1)` overwrites the earlier one: afterwards the chain
halfedge `1 → 2` (handle 2) carries the label `(1,0)` — the OPPOSITE layout
halfedge — and its opposite (handle 3) carries `(0,1)`, contradicting the
claimed labelling of the contiguous chain with `h` and of each opposite with
`h.opposite`. -/
theorem C1_counterexample :
    is_embedded fanEm (0, 1) = false ∧
    fanPath.length = 5 ∧
    fanPath.head? = some (.rv 0) ∧
    fanEm.l_matching_vertex.get? 0 = some 0 ∧
    fanPath.getLast? = some (.rv 3) ∧
    fanEm.l_matching_vertex.get? 1 = some 3 ∧
    embed_path fanEm (0, 1) fanPath = some fanEm1 ∧
    halfedge_from_to fanEm1.t_m 1 2 = some 2 ∧
    label fanEm1 2 = some (1, 0) ∧
    label fanEm1 (opp 2) = some (0, 1) := by
  decide

end LayoutEmbedding
